import Mathlib

/-!
Verification of the stellar-events-api in-memory event store, its query
engine, the internal/external event-id codecs and the `q` query parser.

Modelling conventions (shallow embedding of the Rust source):
* Rust strings and byte slices are modelled as `List Nat` of byte values
  (all strings involved are ASCII, and Rust compares strings byte-wise).
* Machine integers (`u8`, `u32`, `u64`, `u128`) are modelled as `Nat`,
  with an explicit `% 2^w` wherever the Rust code can wrap.
* `serde_json::Value` is modelled by the inductive `Json` below.
* Fallible operations return `Option`/`Except`.
-/

namespace StellarEvents

/-- Byte-wise three-way comparison, mirroring Rust's `Ord` on `str` / `[u8]`
(`a.cmp(b)`). -/
def listCmp : List Nat → List Nat → Ordering
  | [], [] => .eq
  | [], _ :: _ => .lt
  | _ :: _, [] => .gt
  | a :: xs, b :: ys => if a < b then .lt else if b < a then .gt else listCmp xs ys

/-- Three-way comparison on `Nat` (mirrors Rust `u32::cmp` etc.). -/
def natCmp (a b : Nat) : Ordering := if a < b then .lt else if b < a then .gt else .eq

/-- `x` is strictly below `y` in byte-wise lexicographic order
(Rust `x < y` on strings). -/
def lexLt (x y : List Nat) : Prop := listCmp x y = .lt

instance (x y : List Nat) : Decidable (lexLt x y) := by
  unfold lexLt; infer_instance

theorem listCmp_self (x : List Nat) : listCmp x x = .eq := by
  induction x with
  | nil => rfl
  | cons a xs ih => simp [listCmp, ih]

theorem listCmp_eq_iff {x y : List Nat} : listCmp x y = .eq ↔ x = y := by
  induction x generalizing y with
  | nil => cases y <;> simp [listCmp]
  | cons a xs ih =>
    cases y with
    | nil => simp [listCmp]
    | cons b ys =>
      by_cases hab : a < b
      · simp [listCmp, hab]
        omega
      · by_cases hba : b < a
        · simp [listCmp, hab, hba]
          omega
        · have : a = b := by omega
          subst this
          simp [listCmp, ih]

theorem listCmp_swap (x y : List Nat) :
    listCmp y x = (listCmp x y).swap := by
  induction x generalizing y with
  | nil => cases y <;> simp [listCmp, Ordering.swap]
  | cons a xs ih =>
    cases y with
    | nil => simp [listCmp, Ordering.swap]
    | cons b ys =>
      by_cases hab : a < b
      · have : ¬ b < a := by omega
        simp [listCmp, hab, this, Ordering.swap]
      · by_cases hba : b < a
        · simp [listCmp, hab, hba, Ordering.swap]
        · simp [listCmp, hab, hba, ih]

/-- Comparing `xs ++ r1` against `ys ++ r2` where the leading blocks have
equal length first compares the blocks and, on a tie, the tails. -/
theorem listCmp_append {xs ys : List Nat} (h : xs.length = ys.length)
    (r1 r2 : List Nat) :
    listCmp (xs ++ r1) (ys ++ r2) = (listCmp xs ys).then (listCmp r1 r2) := by
  induction xs generalizing ys with
  | nil =>
    cases ys with
    | nil => simp [listCmp, Ordering.then]
    | cons b ys => simp at h
  | cons a xs ih =>
    cases ys with
    | nil => simp at h
    | cons b ys =>
      simp only [List.length_cons, Nat.succ.injEq] at h
      by_cases hab : a < b
      · simp [listCmp, hab, Ordering.then]
      · by_cases hba : b < a
        · simp [listCmp, hab, hba, Ordering.then]
        · simp [listCmp, hab, hba, ih h]

theorem lexLt_trans {x y z : List Nat} (h1 : lexLt x y) (h2 : lexLt y z) :
    lexLt x z := by
  unfold lexLt at *
  induction x generalizing y z with
  | nil =>
    cases y with
    | nil => simp [listCmp] at h1
    | cons b ys =>
      cases z with
      | nil => simp [listCmp] at h2
      | cons c zs => simp [listCmp]
  | cons a xs ih =>
    cases y with
    | nil => simp [listCmp] at h1
    | cons b ys =>
      cases z with
      | nil => simp [listCmp] at h2
      | cons c zs =>
        simp only [listCmp] at h1 h2 ⊢
        by_cases hab : a < b
        · by_cases hbc : b < c
          · have : a < c := by omega
            simp [this]
          · by_cases hcb : c < b
            · simp [hbc, hcb] at h2
            · have : b = c := by omega
              subst this
              simp [hab]
        · by_cases hba : b < a
          · simp [hab, hba] at h1
          · have hab2 : a = b := by omega
            subst hab2
            by_cases hac : a < c
            · simp [hac]
            · by_cases hca : c < a
              · simp [hac, hca] at h2
              · have : a = c := by omega
                subst this
                simp [hab] at h1 h2 ⊢
                exact ih h1 h2

theorem lexLt_irrefl (x : List Nat) : ¬ lexLt x x := by
  unfold lexLt
  simp [listCmp_self]

/-! ### Decimal formatting (Rust `format!("{:0w}", n)`)

`decDigitsAux` is the digit expansion of `n` with a fuel argument so that
it is structurally recursive (and hence kernel-computable); `decBytes n`
is the ASCII decimal representation of `n`, and `fmtPad w n` left-pads it
with `'0'` (byte 48) to a minimum width of `w`, exactly as Rust's
`{:0w}` format specifier does. -/

def decDigitsAux : Nat → Nat → List Nat
  | 0, _ => []
  | fuel + 1, n => if n < 10 then [48 + n] else decDigitsAux fuel (n / 10) ++ [48 + n % 10]

/-- ASCII decimal representation of `n` (no padding). -/
def decBytes (n : Nat) : List Nat := decDigitsAux (n + 1) n

/-- Rust `format!("{:0w}", n)`: decimal digits left-padded with `'0'`. -/
def fmtPad (w n : Nat) : List Nat :=
  List.replicate (w - (decBytes n).length) 48 ++ decBytes n

theorem decDigitsAux_stable : ∀ f1 f2 n, n < f1 → n < f2 →
    decDigitsAux f1 n = decDigitsAux f2 n := by
  intro f1
  induction f1 with
  | zero => intro f2 n h; omega
  | succ f ih =>
    intro f2 n h1 h2
    cases f2 with
    | zero => omega
    | succ g =>
      by_cases hn : n < 10
      · simp [decDigitsAux, hn]
      · have hd : n / 10 < n := Nat.div_lt_self (by omega) (by omega)
        simp only [decDigitsAux, hn, if_false]
        rw [ih g (n / 10) (by omega) (by omega)]

theorem decBytes_eq (n : Nat) :
    decBytes n = if n < 10 then [48 + n] else decBytes (n / 10) ++ [48 + n % 10] := by
  by_cases hn : n < 10
  · simp [decBytes, decDigitsAux, hn]
  · have hd : n / 10 < n := Nat.div_lt_self (by omega) (by omega)
    rw [if_neg hn]
    show decDigitsAux (n + 1) n = _
    have h1 : decDigitsAux (n + 1) n = decDigitsAux n (n / 10) ++ [48 + n % 10] := by
      simp [decDigitsAux, hn]
    rw [h1, decDigitsAux_stable n (n / 10 + 1) (n / 10) (by omega) (by omega)]
    rfl

/-- Big-endian digit string of `n % 10^w`, fixed width `w`
(proof-side normal form for `fmtPad`). -/
def beDigits : Nat → Nat → List Nat
  | 0, _ => []
  | w + 1, n => (48 + n / 10 ^ w % 10) :: beDigits w n

theorem beDigits_length (w n : Nat) : (beDigits w n).length = w := by
  induction w generalizing n with
  | zero => rfl
  | succ w ih => simp [beDigits, ih]

theorem mod_pow_succ (n w : Nat) :
    n % 10 ^ (w + 1) = n / 10 ^ w % 10 * 10 ^ w + n % 10 ^ w := by
  have h : (10 : Nat) ^ (w + 1) = 10 ^ w * 10 := by ring
  rw [h, Nat.mod_mul]
  ring

theorem natCmp_add_left (c x y : Nat) : natCmp (c + x) (c + y) = natCmp x y := by
  unfold natCmp
  by_cases h1 : x < y
  · simp [h1, Nat.add_lt_add_left]
  · by_cases h2 : y < x
    · have : ¬ c + x < c + y := by omega
      simp [h1, h2, this, Nat.add_lt_add_left]
    · have e1 : ¬ c + x < c + y := by omega
      have e2 : ¬ c + y < c + x := by omega
      simp [h1, h2, e1, e2]

theorem listCmp_beDigits (w a b : Nat) :
    listCmp (beDigits w a) (beDigits w b) = natCmp (a % 10 ^ w) (b % 10 ^ w) := by
  induction w generalizing a b with
  | zero => simp [beDigits, listCmp, natCmp, Nat.mod_one]
  | succ w ih =>
    have hpos : 0 < (10 : Nat) ^ w := Nat.pos_pow_of_pos w (by omega)
    have hma : a % 10 ^ w < 10 ^ w := Nat.mod_lt _ hpos
    have hmb : b % 10 ^ w < 10 ^ w := Nat.mod_lt _ hpos
    have da := mod_pow_succ a w
    have db := mod_pow_succ b w
    simp only [beDigits, listCmp]
    by_cases h1 : a / 10 ^ w % 10 < b / 10 ^ w % 10
    · have hlt : a % 10 ^ (w + 1) < b % 10 ^ (w + 1) := by
        rw [da, db]
        have : (a / 10 ^ w % 10 + 1) * 10 ^ w ≤ b / 10 ^ w % 10 * 10 ^ w :=
          Nat.mul_le_mul_right _ (by omega)
        calc a / 10 ^ w % 10 * 10 ^ w + a % 10 ^ w
            < (a / 10 ^ w % 10 + 1) * 10 ^ w := by nlinarith
          _ ≤ b / 10 ^ w % 10 * 10 ^ w := this
          _ ≤ b / 10 ^ w % 10 * 10 ^ w + b % 10 ^ w := Nat.le_add_right _ _
      have h48 : 48 + a / 10 ^ w % 10 < 48 + b / 10 ^ w % 10 := by omega
      simp [h48, natCmp, hlt]
    · by_cases h2 : b / 10 ^ w % 10 < a / 10 ^ w % 10
      · have hlt : b % 10 ^ (w + 1) < a % 10 ^ (w + 1) := by
          rw [da, db]
          have : (b / 10 ^ w % 10 + 1) * 10 ^ w ≤ a / 10 ^ w % 10 * 10 ^ w :=
            Nat.mul_le_mul_right _ (by omega)
          calc b / 10 ^ w % 10 * 10 ^ w + b % 10 ^ w
              < (b / 10 ^ w % 10 + 1) * 10 ^ w := by nlinarith
            _ ≤ a / 10 ^ w % 10 * 10 ^ w := this
            _ ≤ a / 10 ^ w % 10 * 10 ^ w + a % 10 ^ w := Nat.le_add_right _ _
        have h48a : ¬ 48 + a / 10 ^ w % 10 < 48 + b / 10 ^ w % 10 := by omega
        have h48b : 48 + b / 10 ^ w % 10 < 48 + a / 10 ^ w % 10 := by omega
        have hn : ¬ a % 10 ^ (w + 1) < b % 10 ^ (w + 1) := by omega
        simp [h48a, h48b, natCmp, hn, hlt]
      · have heq : a / 10 ^ w % 10 = b / 10 ^ w % 10 := by omega
        have h48a : ¬ 48 + a / 10 ^ w % 10 < 48 + b / 10 ^ w % 10 := by omega
        have h48b : ¬ 48 + b / 10 ^ w % 10 < 48 + a / 10 ^ w % 10 := by omega
        simp only [h48a, if_false, h48b, ih]
        rw [da, db, heq, natCmp_add_left]

theorem decBytes_length_le {w n : Nat} (hw : 1 ≤ w) (h : n < 10 ^ w) :
    (decBytes n).length ≤ w := by
  induction w generalizing n with
  | zero => omega
  | succ w ih =>
    by_cases hn : n < 10
    · rw [decBytes_eq]
      simp [hn]
    · have hw2 : 1 ≤ w := by
        by_contra hc
        have : w = 0 := by omega
        subst this
        simp at h
        omega
      have hd : n / 10 < 10 ^ w := by
        apply Nat.div_lt_of_lt_mul
        calc n < 10 ^ (w + 1) := h
          _ = 10 * 10 ^ w := by ring
      rw [decBytes_eq]
      simp only [hn, if_false, List.length_append, List.length_cons,
        List.length_nil]
      have := ih hw2 hd
      omega

theorem beDigits_succ (w n : Nat) :
    beDigits (w + 1) n = beDigits w (n / 10) ++ [48 + n % 10] := by
  induction w generalizing n with
  | zero => simp [beDigits]
  | succ w ih =>
    have hhead : n / 10 ^ (w + 1) = n / 10 / 10 ^ w := by
      rw [Nat.div_div_eq_div_mul]
      congr 1
      ring
    show (48 + n / 10 ^ (w + 1) % 10) :: beDigits (w + 1) n
        = ((48 + n / 10 / 10 ^ w % 10) :: beDigits w (n / 10)) ++ [48 + n % 10]
    rw [List.cons_append, ← ih, hhead]

/-- Digit strings of numbers in `[10^w, 10^(w+1))` are exactly the fixed-width
big-endian expansion. -/
theorem decBytes_big {w n : Nat} (h1 : 10 ^ w ≤ n) (h2 : n < 10 ^ (w + 1)) :
    decBytes n = beDigits (w + 1) n := by
  induction w generalizing n with
  | zero =>
    have h2a : n < 10 := by simpa using h2
    rw [decBytes_eq, if_pos h2a]
    simp [beDigits]
    omega
  | succ w ih =>
    have hn : ¬ n < 10 := by
      have : (10 : Nat) ≤ 10 ^ (w + 1) := by
        calc (10 : Nat) = 10 ^ 1 := by ring
          _ ≤ 10 ^ (w + 1) := Nat.pow_le_pow_right (by omega) (by omega)
      omega
    have hd1 : 10 ^ w ≤ n / 10 := by
      apply (Nat.le_div_iff_mul_le (by omega : 0 < 10)).mpr
      calc 10 ^ w * 10 = 10 ^ (w + 1) := by ring
        _ ≤ n := h1
    have hd2 : n / 10 < 10 ^ (w + 1) := by
      apply Nat.div_lt_of_lt_mul
      calc n < 10 ^ (w + 2) := h2
        _ = 10 * 10 ^ (w + 1) := by ring
    rw [decBytes_eq]
    simp only [hn, if_false, ih hd1 hd2]
    exact (beDigits_succ (w + 1) n).symm

/-- For `n < 10^w` (and `w ≥ 1`) the padded decimal rendering is the
fixed-width big-endian digit string. -/
theorem fmtPad_eq_beDigits {w n : Nat} (hw : 1 ≤ w) (h : n < 10 ^ w) :
    fmtPad w n = beDigits w n := by
  induction w generalizing n with
  | zero => omega
  | succ w ih =>
    by_cases hcase : n < 10 ^ w
    · cases Nat.eq_zero_or_pos w with
      | inl hw0 =>
        subst hw0
        simp only [pow_zero] at hcase
        have : n = 0 := by omega
        subst this
        simp [fmtPad, decBytes_eq, beDigits]
      | inr hwpos =>
        have hle : (decBytes n).length ≤ w := decBytes_length_le (by omega) hcase
        have : fmtPad (w + 1) n = 48 :: fmtPad w n := by
          unfold fmtPad
          have : w + 1 - (decBytes n).length = (w - (decBytes n).length) + 1 := by omega
          rw [this]
          simp [List.replicate_succ]
        rw [this, ih (by omega) hcase]
        have hz : n / 10 ^ w = 0 := Nat.div_eq_of_lt hcase
        simp [beDigits, hz]
    · have h1 : 10 ^ w ≤ n := by omega
      have hb := decBytes_big h1 h
      unfold fmtPad
      rw [hb, beDigits_length]
      simp

theorem natCmp_lt_iff {a b : Nat} : natCmp a b = .lt ↔ a < b := by
  unfold natCmp
  by_cases h1 : a < b
  · simp [h1]
  · by_cases h2 : b < a <;> simp [h1, h2]

theorem natCmp_eq_iff {a b : Nat} : natCmp a b = .eq ↔ a = b := by
  unfold natCmp
  by_cases h1 : a < b
  · simp [h1]; omega
  · by_cases h2 : b < a <;> simp [h1, h2] <;> omega

theorem natCmp_gt_iff {a b : Nat} : natCmp a b = .gt ↔ b < a := by
  unfold natCmp
  by_cases h1 : a < b
  · simp [h1]; omega
  · by_cases h2 : b < a <;> simp [h1, h2]

theorem fmtPad_digits {w n : Nat} :
    ∀ c ∈ fmtPad w n, 48 ≤ c ∧ c ≤ 57 := by
  intro c hc
  unfold fmtPad at hc
  rcases List.mem_append.mp hc with h | h
  · have := List.eq_of_mem_replicate h
    omega
  · clear hc
    induction n using Nat.strong_induction_on with
    | _ n ih =>
      rw [decBytes_eq] at h
      by_cases hn : n < 10
      · simp [hn] at h
        omega
      · simp only [hn, if_false, List.mem_append] at h
        rcases h with h | h
        · exact ih (n / 10) (Nat.div_lt_self (by omega) (by omega)) h
        · simp at h
          omega

/-- Comparison of equal-width padded decimal blocks followed by arbitrary
tails: the numbers decide first, the tails break ties. -/
theorem listCmp_fmtPad_append {w a b : Nat} (hw : 1 ≤ w)
    (ha : a < 10 ^ w) (hb : b < 10 ^ w) (r1 r2 : List Nat) :
    listCmp (fmtPad w a ++ r1) (fmtPad w b ++ r2)
      = (natCmp a b).then (listCmp r1 r2) := by
  rw [fmtPad_eq_beDigits hw ha, fmtPad_eq_beDigits hw hb,
    listCmp_append (by rw [beDigits_length, beDigits_length]),
    listCmp_beDigits, Nat.mod_eq_of_lt ha, Nat.mod_eq_of_lt hb]

theorem listCmp_common_append (xs r1 r2 : List Nat) :
    listCmp (xs ++ r1) (xs ++ r2) = listCmp r1 r2 := by
  rw [listCmp_append rfl, listCmp_self]
  rfl

/-! ### Internal event ids

`event_id` in `src/ledger/event_id.rs` (and its copy in
`src/ledger/events.rs`) renders
`format!("evt_{:010}_{:01}_{:04}_{:01}_{:04}", ledger, phase, tx, sub, event)`.
-/

/-- The ASCII bytes of `"evt_"`. -/
def evtPfx : List Nat := [101, 118, 116, 95]

/-- The internal event-id string for raw components
(`format!("evt_{:010}_{:01}_{:04}_{:01}_{:04}", l, p, t, s, e)`). -/
def eventIdStr (l p t s e : Nat) : List Nat :=
  evtPfx ++ fmtPad 10 l ++ [95] ++ fmtPad 1 p ++ [95] ++ fmtPad 4 t ++ [95]
    ++ fmtPad 1 s ++ [95] ++ fmtPad 4 e

/-- Execution phase of an event within a ledger (`EventPhase`). -/
inductive EventPhase where
  | BeforeAllTxs
  | Operation
  | AfterTx
  | AfterAllTxs
deriving DecidableEq

/-- `EventPhase::as_phase_sub`. -/
def EventPhase.asPhaseSub : EventPhase → Nat × Nat
  | .BeforeAllTxs => (0, 0)
  | .Operation => (1, 0)
  | .AfterTx => (1, 1)
  | .AfterAllTxs => (2, 0)

/-- `event_id(ledger_sequence, event_phase, tx_index, event_index)`. -/
def eventId (l : Nat) (ph : EventPhase) (t e : Nat) : List Nat :=
  eventIdStr l ph.asPhaseSub.1 t ph.asPhaseSub.2 e

/-- Lexicographic order on component tuples
`(ledger_sequence, phase, tx_index, sub, event_index)`. -/
def tupleLt (a b : Nat × Nat × Nat × Nat × Nat) : Prop :=
  a.1 < b.1 ∨ (a.1 = b.1 ∧ (a.2.1 < b.2.1 ∨ (a.2.1 = b.2.1 ∧
    (a.2.2.1 < b.2.2.1 ∨ (a.2.2.1 = b.2.2.1 ∧
      (a.2.2.2.1 < b.2.2.2.1 ∨ (a.2.2.2.1 = b.2.2.2.1 ∧
        a.2.2.2.2 < b.2.2.2.2)))))))

instance (a b : Nat × Nat × Nat × Nat × Nat) : Decidable (tupleLt a b) := by
  unfold tupleLt; infer_instance

/-- Full comparison of two internal event-id strings whose components all fit
their formatting widths: it is the lexicographic comparison of the component
tuples. -/
theorem listCmp_eventIdStr {l1 p1 t1 s1 e1 l2 p2 t2 s2 e2 : Nat}
    (hl1 : l1 < 10 ^ 10) (hl2 : l2 < 10 ^ 10) (hp1 : p1 < 10) (hp2 : p2 < 10)
    (ht1 : t1 < 10 ^ 4) (ht2 : t2 < 10 ^ 4) (hs1 : s1 < 10) (hs2 : s2 < 10)
    (he1 : e1 < 10 ^ 4) (he2 : e2 < 10 ^ 4) :
    listCmp (eventIdStr l1 p1 t1 s1 e1) (eventIdStr l2 p2 t2 s2 e2)
      = (natCmp l1 l2).then ((natCmp p1 p2).then ((natCmp t1 t2).then
          ((natCmp s1 s2).then (natCmp e1 e2)))) := by
  have hp1a : p1 < 10 ^ 1 := by simpa using hp1
  have hp2a : p2 < 10 ^ 1 := by simpa using hp2
  have hs1a : s1 < 10 ^ 1 := by simpa using hs1
  have hs2a : s2 < 10 ^ 1 := by simpa using hs2
  unfold eventIdStr
  simp only [List.append_assoc]
  rw [listCmp_common_append,
    listCmp_fmtPad_append (by omega) hl1 hl2,
    listCmp_common_append,
    listCmp_fmtPad_append (by omega) hp1a hp2a,
    listCmp_common_append,
    listCmp_fmtPad_append (by omega) ht1 ht2,
    listCmp_common_append,
    listCmp_fmtPad_append (by omega) hs1a hs2a,
    listCmp_common_append]
  have : listCmp (fmtPad 4 e1) (fmtPad 4 e2) = natCmp e1 e2 := by
    have h4 : (fmtPad 4 e1) ++ [] = fmtPad 4 e1 := by simp
    have h5 : (fmtPad 4 e2) ++ [] = fmtPad 4 e2 := by simp
    rw [← h4, ← h5, listCmp_fmtPad_append (by omega) he1 he2]
    cases natCmp e1 e2 <;> simp [listCmp, Ordering.then]
  rw [this]

/-- When the ledger components differ (and fit in ten digits), the ledger
block alone decides the comparison, whatever the remaining components are. -/
theorem listCmp_eventIdStr_ledger {l1 l2 : Nat} (p1 t1 s1 e1 p2 t2 s2 e2 : Nat)
    (hl1 : l1 < 10 ^ 10) (hl2 : l2 < 10 ^ 10) (hne : l1 ≠ l2) :
    listCmp (eventIdStr l1 p1 t1 s1 e1) (eventIdStr l2 p2 t2 s2 e2)
      = natCmp l1 l2 := by
  unfold eventIdStr
  simp only [List.append_assoc]
  rw [listCmp_common_append, listCmp_fmtPad_append (by omega) hl1 hl2]
  rcases Nat.lt_or_ge l1 l2 with h | h
  · rw [natCmp_lt_iff.mpr h]
    rfl
  · have h2 : l2 < l1 := by omega
    rw [natCmp_gt_iff.mpr h2]
    rfl

theorem orderingThen_lt {o p : Ordering} :
    o.then p = .lt ↔ (o = .lt ∨ (o = .eq ∧ p = .lt)) := by
  cases o <;> simp [Ordering.then]

/-- C4 (counterexample): with `tx_index = 9999` versus `tx_index = 10000`
(all other components equal) the tuple order and the id string order
disagree: the tuple with `tx_index = 9999` is smaller, yet its internal id
string is lexicographically larger, because `format!("{:04}", 10000)`
overflows the four-digit field. -/
theorem c4_counterexample :
    tupleLt (100, EventPhase.Operation.asPhaseSub.1, 9999,
        EventPhase.Operation.asPhaseSub.2, 0)
      (100, EventPhase.Operation.asPhaseSub.1, 10000,
        EventPhase.Operation.asPhaseSub.2, 0)
    ∧ ¬ lexLt (eventId 100 EventPhase.Operation 9999 0)
        (eventId 100 EventPhase.Operation 10000 0)
    ∧ lexLt (eventId 100 EventPhase.Operation 10000 0)
        (eventId 100 EventPhase.Operation 9999 0) := by
  decide

/-- C4 (amended): for all u32 `ledger_sequence` values and for `tx_index`
and `event_index` below 10000 (so that they fit the four-digit zero-padded
fields of the id format), the lexicographic order of internal ids produced
by `event_id` agrees with the lexicographic order of the component tuples
`(ledger_sequence, phase, tx_index, sub, event_index)`. -/
theorem c4_id_order_matches_tuple_order
    (l1 l2 t1 t2 e1 e2 : Nat) (ph1 ph2 : EventPhase)
    (hl1 : l1 < 2 ^ 32) (hl2 : l2 < 2 ^ 32)
    (ht1 : t1 < 10 ^ 4) (ht2 : t2 < 10 ^ 4)
    (he1 : e1 < 10 ^ 4) (he2 : e2 < 10 ^ 4) :
    lexLt (eventId l1 ph1 t1 e1) (eventId l2 ph2 t2 e2) ↔
      tupleLt (l1, ph1.asPhaseSub.1, t1, ph1.asPhaseSub.2, e1)
        (l2, ph2.asPhaseSub.1, t2, ph2.asPhaseSub.2, e2) := by
  have hl1a : l1 < 10 ^ 10 := by
    calc l1 < 2 ^ 32 := hl1
      _ < 10 ^ 10 := by norm_num
  have hl2a : l2 < 10 ^ 10 := by
    calc l2 < 2 ^ 32 := hl2
      _ < 10 ^ 10 := by norm_num
  have hp1 : ph1.asPhaseSub.1 < 10 := by cases ph1 <;> simp [EventPhase.asPhaseSub]
  have hp2 : ph2.asPhaseSub.1 < 10 := by cases ph2 <;> simp [EventPhase.asPhaseSub]
  have hs1 : ph1.asPhaseSub.2 < 10 := by cases ph1 <;> simp [EventPhase.asPhaseSub]
  have hs2 : ph2.asPhaseSub.2 < 10 := by cases ph2 <;> simp [EventPhase.asPhaseSub]
  unfold lexLt eventId
  rw [listCmp_eventIdStr hl1a hl2a hp1 hp2 ht1 ht2 hs1 hs2 he1 he2]
  simp only [orderingThen_lt, natCmp_lt_iff, natCmp_eq_iff, tupleLt]

/-- C4 (witness): a concrete instantiation of the amended ordering theorem. -/
theorem c4_witness :
    lexLt (eventId 5 EventPhase.Operation 3 7) (eventId 5 EventPhase.AfterTx 3 7) ↔
      tupleLt (5, 1, 3, 0, 7) (5, 1, 3, 1, 7) :=
  c4_id_order_matches_tuple_order 5 5 3 3 7 7 EventPhase.Operation EventPhase.AfterTx
    (by norm_num) (by norm_num) (by norm_num) (by norm_num) (by norm_num) (by norm_num)

/-! ### External-id codec (`src/ledger/event_id.rs`)

The Rust code packs the five components into 14 big-endian bytes, treats
them as a 112-bit integer, obfuscates it with
multiply → bit-reverse → multiply (all mod `2^112`), and base32-encodes
the result with a custom letter-only alphabet.  `u128` wrapping arithmetic
is modelled with `% 2^128`, the `& MOD_MASK` (112-bit mask) with
`% 2^112`. -/

def MULTIPLIER_A : Nat := 0xb5a4f3178d2ec9064bf173a8e5d1

def MULTIPLIER_B : Nat := 0xe8f27c94a1d5630b9e4a8d17b3f9

/-- One Newton iteration of `mod_inverse`:
`x.wrapping_mul(2u128.wrapping_sub(m.wrapping_mul(x))) & mask`. -/
def modInvStep (m x : Nat) : Nat :=
  x * ((2 + 2 ^ 128 - m * x % 2 ^ 128) % 2 ^ 128) % 2 ^ 128 % 2 ^ 112

def modInvAux (m : Nat) : Nat → Nat → Nat
  | 0, x => x
  | i + 1, x => modInvAux m i (modInvStep m x)

/-- `mod_inverse(m)`: seven Newton iterations starting from 1. -/
def modInverse (m : Nat) : Nat := modInvAux m 7 1

def INVERSE_A : Nat := modInverse MULTIPLIER_A

def INVERSE_B : Nat := modInverse MULTIPLIER_B

/-- Reverse the low `w` bits of `v` (`0` outside). -/
def bitrev : Nat → Nat → Nat
  | 0, _ => 0
  | w + 1, v => v % 2 * 2 ^ w + bitrev w (v / 2)

/-- Rust `val.reverse_bits() >> 16` on `u128`. -/
def rev112 (v : Nat) : Nat := bitrev 128 v / 2 ^ 16

/-- Big-endian value of a byte list (`u128::from_be_bytes` and friends). -/
def beVal (l : List Nat) : Nat := l.foldl (fun a b => a * 256 + b) 0

/-- `v.to_be_bytes()` truncated to the low `k` bytes, big-endian. -/
def toBEBytes : Nat → Nat → List Nat
  | 0, _ => []
  | k + 1, v => v / 2 ^ (8 * k) % 256 :: toBEBytes k v

/-- The custom base32 alphabet bytes
(`b"abcdefghijklmnopqrstuvwxyzBDGNRT"`). -/
def BASE32_ALPHABET : List Nat :=
  [97, 98, 99, 100, 101, 102, 103, 104, 105, 106, 107, 108, 109, 110, 111,
   112, 113, 114, 115, 116, 117, 118, 119, 120, 121, 122, 66, 68, 71, 78, 82, 84]

/-- `BASE32_ALPHABET[i]` (indices used by the code are always `< 32`). -/
def alphaByte (i : Nat) : Nat := BASE32_ALPHABET.getD i 0

/-- State of the base32 encoding loop: the `u64` bit buffer, the number of
pending bits, and the output built so far. -/
structure B32Enc where
  buf : Nat
  bits : Nat
  out : List Nat

/-- The inner `while bits >= 5` loop of `base32_encode`; emits
`BASE32_ALPHABET[(buf >> bits) & 0x1f]`.  The fuel bounds the number of
iterations (each iteration removes 5 bits, so `bits` is always enough). -/
def b32EmitAux : Nat → B32Enc → B32Enc
  | 0, st => st
  | f + 1, st =>
    if 5 ≤ st.bits then
      b32EmitAux f ⟨st.buf, st.bits - 5,
        st.out ++ [alphaByte (st.buf / 2 ^ (st.bits - 5) % 32)]⟩
    else st

/-- One iteration of the byte loop of `base32_encode`:
`buf = (buf << 8) | byte; bits += 8;` then the emit loop.  The `u64`
left-shift wraps, hence `% 2^64`; the `|` is `+` because the low 8 bits
of the shifted value are zero and `byte < 256`. -/
def b32Push (st : B32Enc) (byte : Nat) : B32Enc :=
  b32EmitAux (st.bits + 8) ⟨st.buf * 256 % 2 ^ 64 + byte, st.bits + 8, st.out⟩

/-- `base32_encode(data)`: fold the byte loop, then flush the remaining
bits (`(buf << (5 - bits)) & 0x1f`). -/
def base32Encode (data : List Nat) : List Nat :=
  let st := data.foldl b32Push ⟨0, 0, []⟩
  if 0 < st.bits then
    st.out ++ [alphaByte (st.buf * 2 ^ (5 - st.bits) % 2 ^ 64 % 32)]
  else st.out

/-- State of the base32 decoding loop. -/
structure B32Dec where
  buf : Nat
  bits : Nat
  res : List Nat

/-- The inner `while bits >= 8 && i < 14` loop of `base32_decode`. -/
def b32DecEmitAux : Nat → B32Dec → B32Dec
  | 0, st => st
  | f + 1, st =>
    if 8 ≤ st.bits ∧ st.res.length < 14 then
      b32DecEmitAux f ⟨st.buf, st.bits - 8,
        st.res ++ [st.buf / 2 ^ (st.bits - 8) % 256]⟩
    else st

/-- One iteration of the char loop of `base32_decode`
(`buf = (buf << 5) | val; bits += 5;` then the emit loop). -/
def b32DecPush (st : B32Dec) (v : Nat) : B32Dec :=
  b32DecEmitAux (st.bits + 5) ⟨st.buf * 32 % 2 ^ 64 + v, st.bits + 5, st.res⟩

/-- The char loop of `base32_decode`: each character is looked up in the
alphabet (`.position(..)?`), failing on foreign characters. -/
def b32DecGo : List Nat → B32Dec → Option B32Dec
  | [], st => some st
  | c :: rest, st =>
    match BASE32_ALPHABET.findIdx? (fun x => x == c) with
    | none => none
    | some v => b32DecGo rest (b32DecPush st v)

/-- `base32_decode(s)`: requires 23 characters, runs the char loop, and
requires exactly 14 output bytes. -/
def base32Decode (s : List Nat) : Option (List Nat) :=
  if s.length ≠ 23 then none
  else
    match b32DecGo s ⟨0, 0, []⟩ with
    | none => none
    | some st => if st.res.length ≠ 14 then none else some st.res

/-- `if pre.isPrefixOf(s) { s.drop(pre.len) }` — Rust `str::strip_prefix`. -/
def stripPfx (pre s : List Nat) : Option (List Nat) :=
  if pre.isPrefixOf s then some (s.drop pre.length) else none

/-- `encode_event_id(ledger_sequence, phase, tx_index, sub, event_index)`.
`phase` and `sub` are `u8` in Rust, hence the `% 256`. -/
def encodeEventId (l p t s e : Nat) : List Nat :=
  let buf : List Nat :=
    toBEBytes 4 l ++ [p % 256] ++ toBEBytes 4 t ++ [s % 256] ++ toBEBytes 4 e
  let val0 := beVal ([0, 0] ++ buf)
  let val1 := val0 * MULTIPLIER_A % 2 ^ 112
  let val2 := rev112 val1
  let val3 := val2 * MULTIPLIER_B % 2 ^ 112
  evtPfx ++ base32Encode ((toBEBytes 16 val3).drop 2)

/-- `decode_event_id(id)` (the Rust `?` operator is `Option.bind`). -/
def decodeEventId (id : List Nat) : Option (Nat × Nat × Nat × Nat × Nat) :=
  (stripPfx evtPfx id).bind (fun payload =>
    (base32Decode payload).bind (fun buf =>
      let val0 := beVal ([0, 0] ++ buf)
      let val1 := val0 * INVERSE_B % 2 ^ 112
      let val2 := rev112 val1
      let val3 := val2 * INVERSE_A % 2 ^ 112
      let bytes := toBEBytes 16 val3
      let l := beVal ((bytes.drop 2).take 4)
      let p := bytes.getD 6 0
      let t := beVal ((bytes.drop 7).take 4)
      let sb := bytes.getD 11 0
      let e := beVal ((bytes.drop 12).take 4)
      if 2 < p ∨ 1 < sb then none else some (l, p, t, sb, e)))

theorem bitrev_lt (w v : Nat) : bitrev w v < 2 ^ w := by
  induction w generalizing v with
  | zero => simp [bitrev]
  | succ w ih =>
    have h1 : v % 2 ≤ 1 := by omega
    have h2 : bitrev w (v / 2) < 2 ^ w := ih (v / 2)
    have h3 : (2 : Nat) ^ (w + 1) = 2 * 2 ^ w := by ring
    simp only [bitrev]
    nlinarith

theorem bitrev_zero (w : Nat) : bitrev w 0 = 0 := by
  induction w with
  | zero => rfl
  | succ w ih => simp [bitrev, ih]

theorem bitrev_pad (w k : Nat) : ∀ v, v < 2 ^ w → bitrev (w + k) v = bitrev w v * 2 ^ k := by
  induction w with
  | zero =>
    intro v hv
    have : v = 0 := by simpa using hv
    subst this
    simp [bitrev, bitrev_zero]
  | succ w ih =>
    intro v hv
    have harr : w + 1 + k = (w + k) + 1 := by omega
    rw [harr]
    have hv2 : v / 2 < 2 ^ w := by
      have : (2 : Nat) ^ (w + 1) = 2 * 2 ^ w := by ring
      omega
    simp only [bitrev, ih (v / 2) hv2]
    ring

theorem bitrev_cons (w : Nat) : ∀ a b, a < 2 → b < 2 ^ w →
    bitrev (w + 1) (a * 2 ^ w + b) = bitrev w b * 2 + a := by
  induction w with
  | zero =>
    intro a b ha hb
    have hb0 : b = 0 := by simpa using hb
    subst hb0
    simp [bitrev, bitrev_zero]
    omega
  | succ w ih =>
    intro a b ha hb
    have hsplit : a * 2 ^ (w + 1) + b = b + 2 * (a * 2 ^ w) := by ring
    have hv2 : (a * 2 ^ (w + 1) + b) % 2 = b % 2 := by
      rw [hsplit, Nat.add_mul_mod_self_left]
    have hvd : (a * 2 ^ (w + 1) + b) / 2 = a * 2 ^ w + b / 2 := by
      rw [hsplit, Nat.add_mul_div_left _ _ (by omega : 0 < 2)]
      omega
    have hbd : b / 2 < 2 ^ w := by
      have : (2 : Nat) ^ (w + 1) = 2 * 2 ^ w := by ring
      omega
    have step0 : bitrev (w + 1 + 1) (a * 2 ^ (w + 1) + b)
        = (a * 2 ^ (w + 1) + b) % 2 * 2 ^ (w + 1)
          + bitrev (w + 1) ((a * 2 ^ (w + 1) + b) / 2) := rfl
    have lhs : bitrev (w + 1 + 1) (a * 2 ^ (w + 1) + b)
        = b % 2 * 2 ^ (w + 1) + (bitrev w (b / 2) * 2 + a) := by
      rw [step0, hv2, hvd, ih a (b / 2) ha hbd]
    rw [lhs]
    simp only [bitrev]
    ring

theorem bitrev_invol (w : Nat) : ∀ v, v < 2 ^ w → bitrev w (bitrev w v) = v := by
  induction w with
  | zero =>
    intro v hv
    have : v = 0 := by simpa using hv
    subst this
    simp [bitrev_zero]
  | succ w ih =>
    intro v hv
    have hv2 : v / 2 < 2 ^ w := by
      have : (2 : Nat) ^ (w + 1) = 2 * 2 ^ w := by ring
      omega
    have step1 : bitrev (w + 1) v = v % 2 * 2 ^ w + bitrev w (v / 2) := rfl
    rw [step1, bitrev_cons w (v % 2) (bitrev w (v / 2)) (by omega) (bitrev_lt w (v / 2)),
      ih (v / 2) hv2]
    omega

theorem rev112_eq {v : Nat} (h : v < 2 ^ 112) : rev112 v = bitrev 112 v := by
  unfold rev112
  rw [show (128 : Nat) = 112 + 16 from rfl, bitrev_pad 112 16 v h,
    Nat.mul_div_cancel _ (by norm_num : 0 < (2 : Nat) ^ 16)]

theorem rev112_lt {v : Nat} (h : v < 2 ^ 112) : rev112 v < 2 ^ 112 := by
  rw [rev112_eq h]
  exact bitrev_lt 112 v

theorem rev112_invol {v : Nat} (h : v < 2 ^ 112) : rev112 (rev112 v) = v := by
  rw [rev112_eq h, rev112_eq (bitrev_lt 112 v)]
  exact bitrev_invol 112 v h

theorem invA_ok : MULTIPLIER_A * INVERSE_A % 2 ^ 112 = 1 := by decide

theorem invB_ok : MULTIPLIER_B * INVERSE_B % 2 ^ 112 = 1 := by decide

theorem mul_inv_cancel112 {m i : Nat} (hmi : m * i % 2 ^ 112 = 1)
    (x : Nat) (hx : x < 2 ^ 112) :
    x * m % 2 ^ 112 * i % 2 ^ 112 = x := by
  calc x * m % 2 ^ 112 * i % 2 ^ 112
      = x * m * i % 2 ^ 112 := by rw [Nat.mod_mul_mod]
    _ = x * (m * i) % 2 ^ 112 := by rw [mul_assoc]
    _ = x % 2 ^ 112 * (m * i % 2 ^ 112) % 2 ^ 112 := (Nat.mul_mod _ _ _)
    _ = x % 2 ^ 112 % 2 ^ 112 := by rw [hmi, mul_one]
    _ = x := by rw [Nat.mod_mod_of_dvd _ dvd_rfl, Nat.mod_eq_of_lt hx]

theorem foldl_beVal (l : List Nat) : ∀ acc : Nat,
    l.foldl (fun a b => a * 256 + b) acc = acc * 2 ^ (8 * l.length) + beVal l := by
  induction l with
  | nil => intro acc; simp [beVal]
  | cons b l ih =>
    intro acc
    have hb : beVal (b :: l) = b * 2 ^ (8 * l.length) + beVal l := by
      unfold beVal
      simp only [List.foldl_cons, Nat.zero_mul, Nat.zero_add]
      exact ih b
    simp only [List.foldl_cons, List.length_cons]
    rw [ih (acc * 256 + b), hb]
    have hpow : (2 : Nat) ^ (8 * (l.length + 1)) = 2 ^ (8 * l.length) * 256 := by
      rw [show 8 * (l.length + 1) = 8 * l.length + 8 by ring, pow_add]
      norm_num
    rw [hpow]
    ring

theorem beVal_cons (b : Nat) (l : List Nat) :
    beVal (b :: l) = b * 2 ^ (8 * l.length) + beVal l := by
  unfold beVal
  simp only [List.foldl_cons, Nat.zero_mul, Nat.zero_add]
  exact foldl_beVal l b

theorem beVal_append (xs ys : List Nat) :
    beVal (xs ++ ys) = beVal xs * 2 ^ (8 * ys.length) + beVal ys := by
  unfold beVal
  rw [List.foldl_append]
  exact foldl_beVal ys _

theorem beVal_lt (l : List Nat) (h : ∀ b ∈ l, b < 256) :
    beVal l < 2 ^ (8 * l.length) := by
  induction l with
  | nil => simp [beVal]
  | cons b l ih =>
    rw [beVal_cons]
    have hb : b < 256 := h b (by simp)
    have hl : beVal l < 2 ^ (8 * l.length) := ih (fun x hx => h x (by simp [hx]))
    have hpow : (2 : Nat) ^ (8 * (b :: l).length) = 256 * 2 ^ (8 * l.length) := by
      simp only [List.length_cons]
      rw [show 8 * (l.length + 1) = 8 + 8 * l.length by ring, pow_add]
      norm_num
    rw [hpow]
    nlinarith

theorem toBEBytes_length (k v : Nat) : (toBEBytes k v).length = k := by
  induction k generalizing v with
  | zero => rfl
  | succ k ih => simp [toBEBytes, ih]

theorem toBEBytes_bytes (k v : Nat) : ∀ b ∈ toBEBytes k v, b < 256 := by
  induction k generalizing v with
  | zero => simp [toBEBytes]
  | succ k ih =>
    intro b hb
    simp only [toBEBytes, List.mem_cons] at hb
    rcases hb with h | h
    · subst h
      exact Nat.mod_lt _ (by omega)
    · exact ih v b h

theorem mod_mul_decomp (v c : Nat) : v % (c * 256) = v / c % 256 * c + v % c := by
  rw [Nat.mod_mul]
  ring

theorem beVal_toBEBytes (k v : Nat) : beVal (toBEBytes k v) = v % 2 ^ (8 * k) := by
  induction k generalizing v with
  | zero => simp [toBEBytes, beVal, Nat.mod_one]
  | succ k ih =>
    simp only [toBEBytes]
    rw [beVal_cons, toBEBytes_length, ih]
    have hpow : (2 : Nat) ^ (8 * (k + 1)) = 2 ^ (8 * k) * 256 := by
      rw [show 8 * (k + 1) = 8 * k + 8 by ring, pow_add]
      norm_num
    rw [hpow, mod_mul_decomp]

theorem toBEBytes_mod (k v : Nat) :
    toBEBytes k (v % 2 ^ (8 * k)) = toBEBytes k v := by
  induction k generalizing v with
  | zero => rfl
  | succ k ih =>
    simp only [toBEBytes]
    have hhead : v % 2 ^ (8 * (k + 1)) / 2 ^ (8 * k) % 256 = v / 2 ^ (8 * k) % 256 := by
      have hpow : (2 : Nat) ^ (8 * (k + 1)) = 2 ^ (8 * k) * 256 := by
        rw [show 8 * (k + 1) = 8 * k + 8 by ring, pow_add]
        norm_num
      rw [hpow, Nat.mod_mul_right_div_self, Nat.mod_mod_of_dvd _ dvd_rfl]
    have htail : toBEBytes k (v % 2 ^ (8 * (k + 1))) = toBEBytes k v := by
      have h1 : v % 2 ^ (8 * (k + 1)) % 2 ^ (8 * k) = v % 2 ^ (8 * k) := by
        apply Nat.mod_mod_of_dvd
        exact pow_dvd_pow 2 (by omega)
      calc toBEBytes k (v % 2 ^ (8 * (k + 1)))
          = toBEBytes k (v % 2 ^ (8 * (k + 1)) % 2 ^ (8 * k)) := (ih _).symm
        _ = toBEBytes k (v % 2 ^ (8 * k)) := by rw [h1]
        _ = toBEBytes k v := ih v
    rw [hhead, htail]

theorem toBEBytes_beVal (ds : List Nat) (h : ∀ b ∈ ds, b < 256) :
    toBEBytes ds.length (beVal ds) = ds := by
  induction ds with
  | nil => rfl
  | cons d rest ih =>
    have hd : d < 256 := h d (by simp)
    have hrest : ∀ b ∈ rest, b < 256 := fun b hb => h b (by simp [hb])
    have hlt : beVal rest < 2 ^ (8 * rest.length) := beVal_lt rest hrest
    have hpos : 0 < (2 : Nat) ^ (8 * rest.length) := Nat.pos_pow_of_pos _ (by omega)
    simp only [List.length_cons, toBEBytes]
    have hre : beVal (d :: rest) = beVal rest + 2 ^ (8 * rest.length) * d := by
      rw [beVal_cons]
      ring
    have hhead : beVal (d :: rest) / 2 ^ (8 * rest.length) % 256 = d := by
      rw [hre, Nat.add_mul_div_left _ _ hpos, Nat.div_eq_of_lt hlt]
      omega
    have hmod : beVal (d :: rest) % 2 ^ (8 * rest.length) = beVal rest := by
      rw [hre, Nat.add_mul_mod_self_left, Nat.mod_eq_of_lt hlt]
    have htail : toBEBytes rest.length (beVal (d :: rest)) = rest := by
      calc toBEBytes rest.length (beVal (d :: rest))
          = toBEBytes rest.length (beVal (d :: rest) % 2 ^ (8 * rest.length)) :=
            (toBEBytes_mod _ _).symm
        _ = toBEBytes rest.length (beVal rest) := by rw [hmod]
        _ = rest := ih hrest
    rw [hhead, htail]

theorem toBEBytes_drop (j : Nat) : ∀ k v, j ≤ k →
    (toBEBytes k v).drop j = toBEBytes (k - j) v := by
  induction j with
  | zero => intro k v _; simp
  | succ j ih =>
    intro k v hk
    cases k with
    | zero => omega
    | succ k =>
      simp only [toBEBytes, List.drop_succ_cons]
      rw [ih k v (by omega)]
      congr 1
      omega

theorem toBEBytes_getD (i : Nat) : ∀ k v, i < k →
    (toBEBytes k v).getD i 0 = v / 2 ^ (8 * (k - 1 - i)) % 256 := by
  induction i with
  | zero =>
    intro k v hk
    cases k with
    | zero => omega
    | succ k => simp [toBEBytes]
  | succ i ih =>
    intro k v hk
    cases k with
    | zero => omega
    | succ k =>
      simp only [toBEBytes, List.getD_cons_succ]
      rw [ih k v (by omega)]
      congr 3
      omega

/-- The big-endian value of a `j`-byte window of `toBEBytes k v`. -/
theorem beVal_take_toBEBytes (j : Nat) : ∀ k v, j ≤ k →
    beVal ((toBEBytes k v).take j) = v / 2 ^ (8 * (k - j)) % 2 ^ (8 * j) := by
  induction j with
  | zero => intro k v _; simp [beVal, Nat.mod_one]
  | succ j ih =>
    intro k v hk
    cases k with
    | zero => omega
    | succ k =>
      simp only [toBEBytes, List.take_succ_cons]
      rw [beVal_cons, ih k v (by omega)]
      have hlen : ((toBEBytes k v).take j).length = j := by
        rw [List.length_take, toBEBytes_length]
        omega
      rw [hlen]
      have hd : v / 2 ^ (8 * k) = v / 2 ^ (8 * (k - j)) / 2 ^ (8 * j) := by
        rw [Nat.div_div_eq_div_mul, ← pow_add]
        congr 2
        omega
      have hsub : k + 1 - (j + 1) = k - j := by omega
      rw [hsub, hd]
      have hpow : (2 : Nat) ^ (8 * (j + 1)) = 2 ^ (8 * j) * 256 := by
        rw [show 8 * (j + 1) = 8 * j + 8 by ring, pow_add]
        norm_num
      rw [hpow, mod_mul_decomp]

/-- Base-32 value of a digit list (proof-side). -/
def val32 (ds : List Nat) : Nat := ds.foldl (fun a d => a * 32 + d) 0

theorem foldl_val32 (l : List Nat) : ∀ acc : Nat,
    l.foldl (fun a d => a * 32 + d) acc = acc * 32 ^ l.length + val32 l := by
  induction l with
  | nil => intro acc; simp [val32]
  | cons d l ih =>
    intro acc
    have hd2 : val32 (d :: l) = d * 32 ^ l.length + val32 l := by
      unfold val32
      simp only [List.foldl_cons, Nat.zero_mul, Nat.zero_add]
      exact ih d
    simp only [List.foldl_cons, List.length_cons]
    rw [ih (acc * 32 + d), hd2, pow_succ]
    ring

theorem val32_cons (d : Nat) (l : List Nat) :
    val32 (d :: l) = d * 32 ^ l.length + val32 l := by
  unfold val32
  simp only [List.foldl_cons, Nat.zero_mul, Nat.zero_add]
  exact foldl_val32 l d

theorem val32_append_one (ds : List Nat) (d : Nat) :
    val32 (ds ++ [d]) = val32 ds * 32 + d := by
  unfold val32
  rw [List.foldl_append]
  rfl

theorem val32_lt (ds : List Nat) (h : ∀ d ∈ ds, d < 32) :
    val32 ds < 32 ^ ds.length := by
  induction ds with
  | nil => simp [val32]
  | cons d l ih =>
    rw [val32_cons]
    have hd : d < 32 := h d (by simp)
    have hl : val32 l < 32 ^ l.length := ih (fun x hx => h x (by simp [hx]))
    have hpow : (32 : Nat) ^ (d :: l).length = 32 * 32 ^ l.length := by
      simp [pow_succ]
      ring
    rw [hpow]
    nlinarith

/-- Splitting off the low byte under a mod `2^(b+8)`. -/
theorem shift_mod (x byte b : Nat) (hbyte : byte < 256) :
    (x * 256 + byte) % 2 ^ (b + 8) = x % 2 ^ b * 256 + byte := by
  have hp : (2 : Nat) ^ (b + 8) = 2 ^ b * 256 := by
    rw [pow_add]
    norm_num
  have hq : x * 256 + byte = (x % 2 ^ b * 256 + byte) + 2 ^ (b + 8) * (x / 2 ^ b) := by
    conv_lhs => rw [← Nat.div_add_mod x (2 ^ b)]
    rw [hp]
    ring
  rw [hq, Nat.add_mul_mod_self_left]
  apply Nat.mod_eq_of_lt
  have hr : x % 2 ^ b < 2 ^ b := Nat.mod_lt _ (Nat.pos_pow_of_pos _ (by omega))
  rw [hp]
  nlinarith

/-- `2^b = 2^(b-5) * 32` for `5 ≤ b`. -/
theorem pow_split5 {b : Nat} (hb : 5 ≤ b) : (2 : Nat) ^ b = 2 ^ (b - 5) * 32 := by
  have h32 : (32 : Nat) = 2 ^ 5 := by norm_num
  rw [h32, ← pow_add]
  congr 1
  omega

/-- Splitting off the low 5-bit digit under a mod `2^b` (`5 ≤ b`). -/
theorem digit_decomp (P b : Nat) (hb : 5 ≤ b) :
    P % 2 ^ b = P / 2 ^ (b - 5) % 32 * 2 ^ (b - 5) + P % 2 ^ (b - 5) := by
  rw [pow_split5 hb, Nat.mod_mul]
  ring

/-- Invariant of the base32 encoding fold: after consuming bytes of
big-endian value `P` (`n` of them), the output is the alphabet image of
the digit list `ds`. -/
def EncOk (P n : Nat) (st : B32Enc) (ds : List Nat) : Prop :=
  st.out = ds.map alphaByte ∧ (∀ d ∈ ds, d < 32) ∧ st.bits < 5 ∧
  st.buf % 2 ^ st.bits = P % 2 ^ st.bits ∧
  val32 ds * 2 ^ st.bits + P % 2 ^ st.bits = P ∧
  ds.length * 5 + st.bits = 8 * n

theorem b32EmitAux_ok (P : Nat) : ∀ (fuel : Nat) (st : B32Enc) (ds : List Nat),
    st.bits ≤ fuel →
    st.out = ds.map alphaByte → (∀ d ∈ ds, d < 32) →
    st.buf % 2 ^ st.bits = P % 2 ^ st.bits →
    val32 ds * 2 ^ st.bits + P % 2 ^ st.bits = P →
    ∃ ds2, (b32EmitAux fuel st).out = ds2.map alphaByte ∧ (∀ d ∈ ds2, d < 32) ∧
      (b32EmitAux fuel st).bits < 5 ∧
      (b32EmitAux fuel st).buf % 2 ^ (b32EmitAux fuel st).bits
        = P % 2 ^ (b32EmitAux fuel st).bits ∧
      val32 ds2 * 2 ^ (b32EmitAux fuel st).bits + P % 2 ^ (b32EmitAux fuel st).bits = P ∧
      ds2.length * 5 + (b32EmitAux fuel st).bits = ds.length * 5 + st.bits := by
  intro fuel
  induction fuel with
  | zero =>
    intro st ds hfuel hout hlt hbuf hval
    have hred : b32EmitAux 0 st = st := rfl
    rw [hred]
    exact ⟨ds, hout, hlt, by omega, hbuf, hval, rfl⟩
  | succ f ih =>
    intro st ds hfuel hout hlt hbuf hval
    by_cases h5 : 5 ≤ st.bits
    · have hstep : b32EmitAux (f + 1) st = b32EmitAux f ⟨st.buf, st.bits - 5,
          st.out ++ [alphaByte (st.buf / 2 ^ (st.bits - 5) % 32)]⟩ := by
        simp [b32EmitAux, h5]
      set b := st.bits with hb
      have hdig : st.buf / 2 ^ (b - 5) % 32 = P / 2 ^ (b - 5) % 32 := by
        have h1 : st.buf % 2 ^ b / 2 ^ (b - 5) = st.buf / 2 ^ (b - 5) % 32 := by
          rw [pow_split5 h5, Nat.mod_mul_right_div_self]
        have h2 : P % 2 ^ b / 2 ^ (b - 5) = P / 2 ^ (b - 5) % 32 := by
          rw [pow_split5 h5, Nat.mod_mul_right_div_self]
        rw [← h1, hbuf, h2]
      have hbuf2 : st.buf % 2 ^ (b - 5) = P % 2 ^ (b - 5) := by
        have hdvd : (2 : Nat) ^ (b - 5) ∣ 2 ^ b := pow_dvd_pow 2 (by omega)
        calc st.buf % 2 ^ (b - 5) = st.buf % 2 ^ b % 2 ^ (b - 5) :=
              (Nat.mod_mod_of_dvd _ hdvd).symm
          _ = P % 2 ^ b % 2 ^ (b - 5) := by rw [hbuf]
          _ = P % 2 ^ (b - 5) := Nat.mod_mod_of_dvd _ hdvd
      have hval2 : val32 (ds ++ [P / 2 ^ (b - 5) % 32]) * 2 ^ (b - 5) + P % 2 ^ (b - 5)
          = P := by
        rw [val32_append_one]
        have hdc := digit_decomp P b h5
        have hpow : (2 : Nat) ^ b = 2 ^ (b - 5) * 32 := pow_split5 h5
        calc (val32 ds * 32 + P / 2 ^ (b - 5) % 32) * 2 ^ (b - 5) + P % 2 ^ (b - 5)
            = val32 ds * (2 ^ (b - 5) * 32)
              + (P / 2 ^ (b - 5) % 32 * 2 ^ (b - 5) + P % 2 ^ (b - 5)) := by ring
          _ = val32 ds * (2 ^ (b - 5) * 32) + P % 2 ^ b := by rw [← hdc]
          _ = val32 ds * 2 ^ b + P % 2 ^ b := by rw [← hpow]
          _ = P := hval
      obtain ⟨ds2, h1, h2, h3, h4, h5b, h6⟩ := ih ⟨st.buf, b - 5,
          st.out ++ [alphaByte (st.buf / 2 ^ (b - 5) % 32)]⟩
          (ds ++ [P / 2 ^ (b - 5) % 32]) (by show b - 5 ≤ f; omega)
          (by simp only [hout, hdig, List.map_append, List.map])
          (by intro d hd
              rcases List.mem_append.mp hd with h | h
              · exact hlt d h
              · simp at h
                subst h
                exact Nat.mod_lt _ (by omega))
          hbuf2 hval2
      refine ⟨ds2, by rw [hstep]; exact h1, h2, by rw [hstep]; exact h3,
        by rw [hstep]; exact h4, by rw [hstep]; exact h5b, ?_⟩
      rw [hstep]
      rw [h6]
      simp only [List.length_append, List.length_cons, List.length_nil]
      omega
    · have hstep : b32EmitAux (f + 1) st = st := by
        simp [b32EmitAux, h5]
      refine ⟨ds, by rw [hstep]; exact hout, hlt, by rw [hstep]; omega,
        by rw [hstep]; exact hbuf, by rw [hstep]; exact hval, by rw [hstep]⟩

theorem b32Push_ok {P n : Nat} {st : B32Enc} {ds : List Nat} (byte : Nat)
    (hbyte : byte < 256) (hInv : EncOk P n st ds) :
    ∃ ds2, EncOk (P * 256 + byte) (n + 1) (b32Push st byte) ds2 := by
  obtain ⟨hout, hlt, hbits, hbuf, hval, hlen⟩ := hInv
  set b := st.bits with hb
  have hbuf2 : (st.buf * 256 % 2 ^ 64 + byte) % 2 ^ (b + 8)
      = P % 2 ^ b * 256 + byte := by
    have hdvd : (2 : Nat) ^ (b + 8) ∣ 2 ^ 64 := pow_dvd_pow 2 (by omega)
    have h1 : (st.buf * 256 % 2 ^ 64 + byte) % 2 ^ (b + 8)
        = (st.buf * 256 + byte) % 2 ^ (b + 8) := by
      rw [Nat.add_mod, Nat.mod_mod_of_dvd _ hdvd, ← Nat.add_mod]
    rw [h1, shift_mod _ _ _ hbyte, hbuf]
  have hPm : (P * 256 + byte) % 2 ^ (b + 8) = P % 2 ^ b * 256 + byte :=
    shift_mod _ _ _ hbyte
  have hval2 : val32 ds * 2 ^ (b + 8) + (P * 256 + byte) % 2 ^ (b + 8)
      = P * 256 + byte := by
    rw [hPm]
    have hpow : (2 : Nat) ^ (b + 8) = 2 ^ b * 256 := by
      rw [pow_add]
      norm_num
    calc val32 ds * 2 ^ (b + 8) + (P % 2 ^ b * 256 + byte)
        = (val32 ds * 2 ^ b + P % 2 ^ b) * 256 + byte := by rw [hpow]; ring
      _ = P * 256 + byte := by rw [hval]
  have hbuf3 : (st.buf * 256 % 2 ^ 64 + byte) % 2 ^ (b + 8)
      = (P * 256 + byte) % 2 ^ (b + 8) := hbuf2.trans hPm.symm
  have hemit := b32EmitAux_ok (P * 256 + byte) (st.bits + 8)
    ⟨st.buf * 256 % 2 ^ 64 + byte, st.bits + 8, st.out⟩ ds
    (by show st.bits + 8 ≤ st.bits + 8; omega) hout hlt hbuf3 hval2
  obtain ⟨ds2, h1, h2, h3, h4, h5, h6⟩ := hemit
  simp only at h6
  refine ⟨ds2, h1, h2, h3, h4, h5, ?_⟩
  show ds2.length * 5
      + (b32EmitAux (st.bits + 8)
          ⟨st.buf * 256 % 2 ^ 64 + byte, st.bits + 8, st.out⟩).bits = 8 * (n + 1)
  omega

theorem b32Fold_ok : ∀ (data : List Nat) (st : B32Enc) (P n : Nat) (ds : List Nat),
    (∀ b ∈ data, b < 256) → EncOk P n st ds →
    ∃ ds2, EncOk (data.foldl (fun a b => a * 256 + b) P) (n + data.length)
      (data.foldl b32Push st) ds2 := by
  intro data
  induction data with
  | nil =>
    intro st P n ds _ hInv
    exact ⟨ds, hInv⟩
  | cons byte rest ih =>
    intro st P n ds hall hInv
    obtain ⟨ds2, hInv2⟩ := b32Push_ok byte (hall byte (by simp)) hInv
    obtain ⟨ds3, hInv3⟩ := ih (b32Push st byte) (P * 256 + byte) (n + 1) ds2
      (fun x hx => hall x (by simp [hx])) hInv2
    refine ⟨ds3, ?_⟩
    have : n + (byte :: rest).length = n + 1 + rest.length := by simp; omega
    rw [this]
    exact hInv3

/-- Specification of `base32_encode` on 14 bytes: 23 characters drawn from
the alphabet, whose base-32 digit value is 8 times the input value (the low
three bits of the final character are padding zeros). -/
theorem base32Encode_spec (data : List Nat) (h14 : data.length = 14)
    (hb : ∀ b ∈ data, b < 256) :
    ∃ ds, base32Encode data = ds.map alphaByte ∧ ds.length = 23 ∧
      (∀ d ∈ ds, d < 32) ∧ val32 ds = beVal data * 8 := by
  have hinit : EncOk 0 0 ⟨0, 0, []⟩ [] :=
    ⟨rfl, by simp, by decide, by decide, by decide, by decide⟩
  obtain ⟨dsF, hF⟩ := b32Fold_ok data ⟨0, 0, []⟩ 0 0 [] hb hinit
  have hPfold : data.foldl (fun a b => a * 256 + b) 0 = beVal data := rfl
  rw [hPfold] at hF
  obtain ⟨hout, hlt, hbits, hbuf, hval, hlen⟩ := hF
  set stF := data.foldl b32Push ⟨0, 0, []⟩ with hstF
  set P := beVal data with hP
  have hlen2 : dsF.length * 5 + stF.bits = 112 := by
    rw [hlen, h14]
  have hb2 : stF.bits = 2 := by omega
  have hlen22 : dsF.length = 22 := by omega
  have hfinal : base32Encode data
      = stF.out ++ [alphaByte (stF.buf * 2 ^ (5 - stF.bits) % 2 ^ 64 % 32)] := by
    unfold base32Encode
    rw [← hstF]
    rw [if_pos (by omega)]
  have hdig : stF.buf * 2 ^ (5 - stF.bits) % 2 ^ 64 % 32 = P % 4 * 8 := by
    rw [hb2]
    have h1 : stF.buf * 2 ^ (5 - 2) % 2 ^ 64 % 32 = stF.buf * 8 % 32 := by
      rw [Nat.mod_mod_of_dvd _ (by norm_num : (32 : Nat) ∣ 2 ^ 64)]
      norm_num
    rw [h1]
    have h2 : stF.buf * 8 % 32 = stF.buf % 4 * 8 := by
      rw [show (32 : Nat) = 4 * 8 by norm_num, Nat.mul_mod_mul_right]
    rw [h2]
    have h3 : stF.buf % 4 = P % 4 := by
      have := hbuf
      rw [hb2] at this
      simpa using this
    rw [h3]
  refine ⟨dsF ++ [P % 4 * 8], ?_, ?_, ?_, ?_⟩
  · rw [hfinal, hdig, hout, List.map_append]
    rfl
  · simp [hlen22]
  · intro d hd
    rcases List.mem_append.mp hd with h | h
    · exact hlt d h
    · simp at h
      omega
  · rw [val32_append_one]
    have hvr : val32 dsF * 4 + P % 4 = P := by
      have := hval
      rw [hb2] at this
      simpa using this
    omega

/-- Splitting off a low 5-bit digit when appending it under a shift. -/
theorem shift_mod32 (x d b : Nat) (hd : d < 32) :
    (x * 32 + d) % 2 ^ (b + 5) = x % 2 ^ b * 32 + d := by
  have hp : (2 : Nat) ^ (b + 5) = 2 ^ b * 32 := by
    rw [pow_add]
    norm_num
  have hq : x * 32 + d = (x % 2 ^ b * 32 + d) + 2 ^ (b + 5) * (x / 2 ^ b) := by
    conv_lhs => rw [← Nat.div_add_mod x (2 ^ b)]
    rw [hp]
    ring
  rw [hq, Nat.add_mul_mod_self_left]
  apply Nat.mod_eq_of_lt
  have hr : x % 2 ^ b < 2 ^ b := Nat.mod_lt _ (Nat.pos_pow_of_pos _ (by omega))
  rw [hp]
  nlinarith

/-- Invariant of the base32 decoding fold: after consuming `n` digits of
base-32 value `D`, the emitted bytes are the top bits of `D`. -/
def DecOk (D n : Nat) (st : B32Dec) : Prop :=
  st.bits < 8 ∧ st.buf % 2 ^ st.bits = D % 2 ^ st.bits ∧
  (∀ b ∈ st.res, b < 256) ∧
  beVal st.res * 2 ^ st.bits + D % 2 ^ st.bits = D ∧
  st.res.length * 8 + st.bits = 5 * n

theorem b32DecEmitAux_noop (fuel : Nat) (st : B32Dec) (h : st.bits < 8) :
    b32DecEmitAux fuel st = st := by
  cases fuel with
  | zero => rfl
  | succ f =>
    have hcond : ¬ (8 ≤ st.bits ∧ st.res.length < 14) := by omega
    simp [b32DecEmitAux, hcond]

theorem b32DecEmitAux_step (f : Nat) (st : B32Dec)
    (h : 8 ≤ st.bits ∧ st.res.length < 14) :
    b32DecEmitAux (f + 1) st
      = b32DecEmitAux f ⟨st.buf, st.bits - 8,
          st.res ++ [st.buf / 2 ^ (st.bits - 8) % 256]⟩ := by
  show (if 8 ≤ st.bits ∧ st.res.length < 14 then
      b32DecEmitAux f ⟨st.buf, st.bits - 8,
        st.res ++ [st.buf / 2 ^ (st.bits - 8) % 256]⟩
    else st) = _
  rw [if_pos h]

theorem pow_split8 {b : Nat} (hb : 8 ≤ b) : (2 : Nat) ^ b = 2 ^ (b - 8) * 256 := by
  have h256 : (256 : Nat) = 2 ^ 8 := by norm_num
  rw [h256, ← pow_add]
  congr 1
  omega

theorem b32DecPush_ok {D n : Nat} {st : B32Dec} (hn : n < 22) (d : Nat)
    (hd : d < 32) (hInv : DecOk D n st) : DecOk (D * 32 + d) (n + 1) (b32DecPush st d) := by
  obtain ⟨hbits, hbuf, hbytes, hval, hlen⟩ := hInv
  set b := st.bits with hb
  have hlen13 : st.res.length ≤ 13 := by omega
  have hbuf2 : (st.buf * 32 % 2 ^ 64 + d) % 2 ^ (b + 5) = (D * 32 + d) % 2 ^ (b + 5) := by
    have hdvd : (2 : Nat) ^ (b + 5) ∣ 2 ^ 64 := pow_dvd_pow 2 (by omega)
    have h1 : (st.buf * 32 % 2 ^ 64 + d) % 2 ^ (b + 5)
        = (st.buf * 32 + d) % 2 ^ (b + 5) := by
      rw [Nat.add_mod, Nat.mod_mod_of_dvd _ hdvd, ← Nat.add_mod]
    rw [h1, shift_mod32 _ _ _ hd, hbuf, ← shift_mod32 D d b hd]
  have hDm : (D * 32 + d) % 2 ^ (b + 5) = D % 2 ^ b * 32 + d := shift_mod32 _ _ _ hd
  have hval2 : beVal st.res * 2 ^ (b + 5) + (D * 32 + d) % 2 ^ (b + 5) = D * 32 + d := by
    rw [hDm]
    have hpow : (2 : Nat) ^ (b + 5) = 2 ^ b * 32 := by
      rw [pow_add]
      norm_num
    calc beVal st.res * 2 ^ (b + 5) + (D % 2 ^ b * 32 + d)
        = (beVal st.res * 2 ^ b + D % 2 ^ b) * 32 + d := by rw [hpow]; ring
      _ = D * 32 + d := by rw [hval]
  set st2 : B32Dec := ⟨st.buf * 32 % 2 ^ 64 + d, st.bits + 5, st.res⟩ with hst2
  by_cases h8 : b + 5 < 8
  · have hnoop : b32DecPush st d = st2 := by
      unfold b32DecPush
      exact b32DecEmitAux_noop _ _ (by show st.bits + 5 < 8; omega)
    rw [hnoop]
    exact ⟨by show st.bits + 5 < 8; omega, hbuf2, hbytes, hval2, by
      show st.res.length * 8 + (st.bits + 5) = 5 * (n + 1); omega⟩
  · -- exactly one byte is emitted
    have h8b : 8 ≤ b + 5 := by omega
    set D2 := D * 32 + d with hD2
    set byt := (st.buf * 32 % 2 ^ 64 + d) / 2 ^ (b + 5 - 8) % 256 with hbyt
    set st3 : B32Dec := ⟨st.buf * 32 % 2 ^ 64 + d, b + 5 - 8, st.res ++ [byt]⟩ with hst3
    have hstep : b32DecPush st d = st3 := by
      unfold b32DecPush
      have hcond : 8 ≤ st2.bits ∧ st2.res.length < 14 := by
        refine ⟨by show 8 ≤ st.bits + 5; omega, by show st.res.length < 14; omega⟩
      show b32DecEmitAux (st.bits + 5) st2 = st3
      have hfuel : st.bits + 5 = (st.bits + 4) + 1 := by omega
      rw [hfuel, b32DecEmitAux_step (st.bits + 4) st2 hcond]
      apply b32DecEmitAux_noop
      show st.bits + 5 - 8 < 8
      omega
    have hbytD : byt = D2 / 2 ^ (b + 5 - 8) % 256 := by
      have hsp : (2 : Nat) ^ (b + 5) = 2 ^ (b + 5 - 8) * 256 := pow_split8 h8b
      have h1 : (st.buf * 32 % 2 ^ 64 + d) % 2 ^ (b + 5) / 2 ^ (b + 5 - 8)
          = (st.buf * 32 % 2 ^ 64 + d) / 2 ^ (b + 5 - 8) % 256 := by
        rw [hsp, Nat.mod_mul_right_div_self]
      have h2 : D2 % 2 ^ (b + 5) / 2 ^ (b + 5 - 8) = D2 / 2 ^ (b + 5 - 8) % 256 := by
        rw [hsp, Nat.mod_mul_right_div_self]
      rw [hbyt, ← h1, hbuf2, h2]
    have hbuf3 : (st.buf * 32 % 2 ^ 64 + d) % 2 ^ (b + 5 - 8) = D2 % 2 ^ (b + 5 - 8) := by
      have hdvd : (2 : Nat) ^ (b + 5 - 8) ∣ 2 ^ (b + 5) := pow_dvd_pow 2 (by omega)
      calc (st.buf * 32 % 2 ^ 64 + d) % 2 ^ (b + 5 - 8)
          = (st.buf * 32 % 2 ^ 64 + d) % 2 ^ (b + 5) % 2 ^ (b + 5 - 8) :=
            (Nat.mod_mod_of_dvd _ hdvd).symm
        _ = D2 % 2 ^ (b + 5) % 2 ^ (b + 5 - 8) := by rw [hbuf2]
        _ = D2 % 2 ^ (b + 5 - 8) := Nat.mod_mod_of_dvd _ hdvd
    have hval3 : beVal (st.res ++ [byt]) * 2 ^ (b + 5 - 8) + D2 % 2 ^ (b + 5 - 8) = D2 := by
      rw [beVal_append, hbytD]
      simp only [List.length_cons, List.length_nil, beVal]
      have hsp : (2 : Nat) ^ (b + 5) = 2 ^ (b + 5 - 8) * 256 := pow_split8 h8b
      have hdc : D2 % 2 ^ (b + 5)
          = D2 / 2 ^ (b + 5 - 8) % 256 * 2 ^ (b + 5 - 8) + D2 % 2 ^ (b + 5 - 8) := by
        rw [hsp, Nat.mod_mul]
        ring
      have hfold : List.foldl (fun a b => a * 256 + b) 0 [D2 / 2 ^ (b + 5 - 8) % 256]
          = D2 / 2 ^ (b + 5 - 8) % 256 := by
        simp
      calc (beVal st.res * 2 ^ (8 * 1)
              + List.foldl (fun a b => a * 256 + b) 0 [D2 / 2 ^ (b + 5 - 8) % 256])
            * 2 ^ (b + 5 - 8) + D2 % 2 ^ (b + 5 - 8)
          = (beVal st.res * 256 + D2 / 2 ^ (b + 5 - 8) % 256) * 2 ^ (b + 5 - 8)
            + D2 % 2 ^ (b + 5 - 8) := by rw [hfold]; norm_num
        _ = beVal st.res * (2 ^ (b + 5 - 8) * 256)
            + (D2 / 2 ^ (b + 5 - 8) % 256 * 2 ^ (b + 5 - 8) + D2 % 2 ^ (b + 5 - 8)) := by
              ring
        _ = beVal st.res * 2 ^ (b + 5) + D2 % 2 ^ (b + 5) := by rw [← hsp, ← hdc]
        _ = beVal st.res * 2 ^ (b + 5) + (D % 2 ^ b * 32 + d) := by rw [hDm]
        _ = (beVal st.res * 2 ^ b + D % 2 ^ b) * 32 + d := by
              rw [show (2 : Nat) ^ (b + 5) = 2 ^ b * 32 from by rw [pow_add]; norm_num]
              ring
        _ = D2 := by rw [hval]
    rw [hstep]
    refine ⟨by show b + 5 - 8 < 8; omega, hbuf3, ?_, hval3, ?_⟩
    · intro x hx
      rcases List.mem_append.mp hx with h | h
      · exact hbytes x h
      · simp at h
        subst h
        exact Nat.mod_lt _ (by omega)
    · show (st.res ++ [byt]).length * 8 + (b + 5 - 8) = 5 * (n + 1)
      simp only [List.length_append, List.length_cons, List.length_nil]
      omega

theorem alpha_findIdx : ∀ d, d < 32 →
    List.findIdx? (fun x => x == alphaByte d) BASE32_ALPHABET = some d := by
  decide

theorem alphaByte_mem {d : Nat} (hd : d < 32) : alphaByte d ∈ BASE32_ALPHABET := by
  interval_cases d <;> decide

theorem alphaByte_inj : ∀ d1, d1 < 32 → ∀ d2, d2 < 32 →
    alphaByte d1 = alphaByte d2 → d1 = d2 := by
  decide

theorem b32DecGo_append (xs ys : List Nat) (st : B32Dec) :
    b32DecGo (xs ++ ys) st = match b32DecGo xs st with
      | none => none
      | some st2 => b32DecGo ys st2 := by
  induction xs generalizing st with
  | nil => rfl
  | cons c rest ih =>
    show b32DecGo (c :: (rest ++ ys)) st = _
    simp only [b32DecGo]
    cases List.findIdx? (fun x => x == c) BASE32_ALPHABET with
    | none => rfl
    | some v => exact ih (b32DecPush st v)

theorem b32DecGo_digits (ds : List Nat) : ∀ (st : B32Dec) (D n : Nat),
    (∀ d ∈ ds, d < 32) → DecOk D n st → n + ds.length ≤ 22 →
    ∃ st2, b32DecGo (ds.map alphaByte) st = some st2 ∧
      DecOk (ds.foldl (fun a d => a * 32 + d) D) (n + ds.length) st2 := by
  induction ds with
  | nil =>
    intro st D n _ hInv _
    exact ⟨st, rfl, hInv⟩
  | cons d rest ih =>
    intro st D n hall hInv hle
    have hd : d < 32 := hall d (by simp)
    have hstep : b32DecGo ((d :: rest).map alphaByte) st
        = b32DecGo (rest.map alphaByte) (b32DecPush st d) := by
      show b32DecGo (alphaByte d :: rest.map alphaByte) st = _
      simp only [b32DecGo, alpha_findIdx d hd]
    rw [hstep]
    have hInv2 : DecOk (D * 32 + d) (n + 1) (b32DecPush st d) :=
      b32DecPush_ok (by simp at hle; omega) d hd hInv
    obtain ⟨st2, h1, h2⟩ := ih (b32DecPush st d) (D * 32 + d) (n + 1)
      (fun x hx => hall x (by simp [hx])) hInv2 (by simp at hle ⊢; omega)
    refine ⟨st2, h1, ?_⟩
    have harr : n + (d :: rest).length = n + 1 + rest.length := by simp; omega
    rw [harr]
    exact h2

/-- The 23rd digit: the state is saturated to 14 bytes holding the top 112
of the 115 accumulated bits (the low 3 bits of the last digit are lost). -/
theorem b32DecPush_last {D : Nat} {st : B32Dec} (d : Nat) (hd : d < 32)
    (hInv : DecOk D 22 st) :
    (b32DecPush st d).res.length = 14 ∧
    beVal (b32DecPush st d).res = (D * 32 + d) / 8 ∧
    (∀ b ∈ (b32DecPush st d).res, b < 256) := by
  obtain ⟨hbits, hbuf, hbytes, hval, hlen⟩ := hInv
  have hb6 : st.bits = 6 := by omega
  have hlen13 : st.res.length = 13 := by omega
  set D2 := D * 32 + d with hD2
  have hbuf2 : (st.buf * 32 % 2 ^ 64 + d) % 2 ^ 11 = D2 % 2 ^ 11 := by
    have hdvd : (2 : Nat) ^ 11 ∣ 2 ^ 64 := pow_dvd_pow 2 (by omega)
    have h1 : (st.buf * 32 % 2 ^ 64 + d) % 2 ^ 11 = (st.buf * 32 + d) % 2 ^ 11 := by
      rw [Nat.add_mod, Nat.mod_mod_of_dvd _ hdvd, ← Nat.add_mod]
    have h2 : (st.buf * 32 + d) % 2 ^ (6 + 5) = st.buf % 2 ^ 6 * 32 + d :=
      shift_mod32 _ _ _ hd
    have h3 : D2 % 2 ^ (6 + 5) = D % 2 ^ 6 * 32 + d := shift_mod32 _ _ _ hd
    rw [hb6] at hbuf
    rw [h1]
    show (st.buf * 32 + d) % 2 ^ (6 + 5) = D2 % 2 ^ (6 + 5)
    rw [h2, h3, hbuf]
  set byt := (st.buf * 32 % 2 ^ 64 + d) / 2 ^ 3 % 256 with hbyt
  have hstep : b32DecPush st d
      = ⟨st.buf * 32 % 2 ^ 64 + d, 3, st.res ++ [byt]⟩ := by
    unfold b32DecPush
    rw [hb6]
    show b32DecEmitAux 11 ⟨st.buf * 32 % 2 ^ 64 + d, 11, st.res⟩ = _
    rw [show (11 : Nat) = 10 + 1 from rfl,
      b32DecEmitAux_step 10 ⟨st.buf * 32 % 2 ^ 64 + d, 11, st.res⟩
        ⟨by show 8 ≤ 11; omega, by show st.res.length < 14; omega⟩]
    exact b32DecEmitAux_noop _ _ (by show (11 : Nat) - 8 < 8; omega)
  have hbytD : byt = D2 / 2 ^ 3 % 256 := by
    have hsp : (2 : Nat) ^ 11 = 2 ^ 3 * 256 := by norm_num
    have h1 : (st.buf * 32 % 2 ^ 64 + d) % 2 ^ 11 / 2 ^ 3
        = (st.buf * 32 % 2 ^ 64 + d) / 2 ^ 3 % 256 := by
      rw [hsp, Nat.mod_mul_right_div_self]
    have h2 : D2 % 2 ^ 11 / 2 ^ 3 = D2 / 2 ^ 3 % 256 := by
      rw [hsp, Nat.mod_mul_right_div_self]
    rw [hbyt, ← h1, hbuf2, h2]
  have hD2val : D2 = beVal st.res * 2 ^ 11 + (D % 2 ^ 6 * 32 + d) := by
    rw [hb6] at hval
    calc D2 = D * 32 + d := rfl
      _ = (beVal st.res * 2 ^ 6 + D % 2 ^ 6) * 32 + d := by rw [hval]
      _ = beVal st.res * 2 ^ 11 + (D % 2 ^ 6 * 32 + d) := by ring
  have hr2lt : D % 2 ^ 6 * 32 + d < 2 ^ 11 := by
    have : D % 2 ^ 6 < 2 ^ 6 := Nat.mod_lt _ (by norm_num)
    omega
  have hDdiv : D2 / 8 = beVal st.res * 2 ^ 8 + (D % 2 ^ 6 * 32 + d) / 8 := by
    rw [hD2val]
    rw [show beVal st.res * 2 ^ 11 + (D % 2 ^ 6 * 32 + d)
        = (D % 2 ^ 6 * 32 + d) + 8 * (beVal st.res * 2 ^ 8) from by ring]
    rw [Nat.add_mul_div_left _ _ (by omega : (0 : Nat) < 8)]
    omega
  have hBval : byt = (D % 2 ^ 6 * 32 + d) / 8 := by
    rw [hbytD]
    rw [hD2val]
    rw [show beVal st.res * 2 ^ 11 + (D % 2 ^ 6 * 32 + d)
        = (D % 2 ^ 6 * 32 + d) + 2 ^ 3 * (2 ^ 8 * beVal st.res) from by ring]
    rw [Nat.add_mul_div_left _ _ (by omega : (0 : Nat) < 2 ^ 3),
      show (2 : Nat) ^ 3 = 8 from by norm_num]
    rw [show (2 : Nat) ^ 8 * beVal st.res = 256 * beVal st.res from by norm_num,
      Nat.add_mul_mod_self_left]
    apply Nat.mod_eq_of_lt
    omega
  rw [hstep]
  refine ⟨?_, ?_, ?_⟩
  · show (st.res ++ [byt]).length = 14
    simp [hlen13]
  · show beVal (st.res ++ [byt]) = D2 / 8
    rw [beVal_append]
    simp only [List.length_cons, List.length_nil]
    have hone : beVal [byt] = byt := by simp [beVal]
    rw [hone, hBval, hDdiv]
  · intro x hx
    rcases List.mem_append.mp hx with h | h
    · exact hbytes x h
    · simp at h
      subst h
      rw [hBval]
      omega

theorem stripPfx_append (pre rest : List Nat) :
    stripPfx pre (pre ++ rest) = some rest := by
  unfold stripPfx
  rw [if_pos]
  · rw [List.drop_left]
  · exact List.isPrefixOf_iff_prefix.mpr (List.prefix_append pre rest)

/-- `base32_decode` on 23 alphabet characters recovers the top 112 bits of
their base-32 value. -/
theorem base32Decode_digits (ds : List Nat) (h23 : ds.length = 23)
    (h32 : ∀ d ∈ ds, d < 32) :
    base32Decode (ds.map alphaByte) = some (toBEBytes 14 (val32 ds / 8)) := by
  have hne : ds ≠ [] := by
    intro h
    rw [h] at h23
    simp at h23
  have hsplit : ds.dropLast ++ [ds.getLast hne] = ds :=
    List.dropLast_append_getLast hne
  have h22 : ds.dropLast.length = 22 := by
    rw [List.length_dropLast, h23]
  have hmem22 : ∀ d ∈ ds.dropLast, d < 32 := by
    intro d hd
    apply h32
    rw [← hsplit]
    exact List.mem_append_left _ hd
  have hdL : ds.getLast hne < 32 := h32 _ (List.getLast_mem hne)
  have hinit : DecOk 0 0 ⟨0, 0, []⟩ :=
    ⟨by decide, by decide, by simp, by decide, by decide⟩
  obtain ⟨st22, hgo22, hInv22⟩ := b32DecGo_digits ds.dropLast ⟨0, 0, []⟩ 0 0
    hmem22 hinit (by omega)
  have hfoldv : ds.dropLast.foldl (fun a d => a * 32 + d) 0 = val32 ds.dropLast := rfl
  rw [hfoldv] at hInv22
  rw [show (0 + ds.dropLast.length) = 22 from by omega] at hInv22
  obtain ⟨hlen14, hbv, hbytes14⟩ := b32DecPush_last (ds.getLast hne) hdL hInv22
  have hgofull : b32DecGo (ds.map alphaByte) ⟨0, 0, []⟩
      = some (b32DecPush st22 (ds.getLast hne)) := by
    conv_lhs => rw [← hsplit, List.map_append]
    rw [b32DecGo_append, hgo22]
    show b32DecGo [alphaByte (ds.getLast hne)] st22 = _
    simp only [b32DecGo, alpha_findIdx _ hdL]
  have hvds : val32 ds = val32 ds.dropLast * 32 + ds.getLast hne := by
    conv_lhs => rw [← hsplit]
    exact val32_append_one _ _
  unfold base32Decode
  rw [if_neg (by rw [List.length_map, h23]; omega)]
  rw [hgofull]
  show (if (b32DecPush st22 (ds.getLast hne)).res.length ≠ 14 then none
      else some (b32DecPush st22 (ds.getLast hne)).res)
    = some (toBEBytes 14 (val32 ds / 8))
  rw [if_neg (by rw [hlen14]; omega)]
  congr 1
  rw [← hvds] at hbv
  calc (b32DecPush st22 (ds.getLast hne)).res
      = toBEBytes (b32DecPush st22 (ds.getLast hne)).res.length
          (beVal (b32DecPush st22 (ds.getLast hne)).res) :=
        (toBEBytes_beVal _ hbytes14).symm
    _ = toBEBytes 14 (val32 ds / 8) := by rw [hlen14, hbv]

/-- The 112-bit big-endian packing of the five id components. -/
theorem packVal_eq (l p t s e : Nat) (hl : l < 2 ^ 32) (hp : p < 256)
    (ht : t < 2 ^ 32) (hs : s < 256) (he : e < 2 ^ 32) :
    beVal ([0, 0] ++ (toBEBytes 4 l ++ [p % 256] ++ toBEBytes 4 t ++ [s % 256]
      ++ toBEBytes 4 e))
    = l * 2 ^ 80 + p * 2 ^ 72 + t * 2 ^ 40 + s * 2 ^ 32 + e := by
  have hp2 : p % 256 = p := Nat.mod_eq_of_lt hp
  have hs2 : s % 256 = s := Nat.mod_eq_of_lt hs
  have hL : beVal (toBEBytes 4 l) = l := by
    rw [beVal_toBEBytes]
    exact Nat.mod_eq_of_lt (by omega)
  have hT : beVal (toBEBytes 4 t) = t := by
    rw [beVal_toBEBytes]
    exact Nat.mod_eq_of_lt (by omega)
  have hE : beVal (toBEBytes 4 e) = e := by
    rw [beVal_toBEBytes]
    exact Nat.mod_eq_of_lt (by omega)
  simp only [List.append_assoc]
  rw [beVal_append, beVal_append, beVal_append, beVal_append, beVal_append]
  simp only [List.length_append, List.length_cons, List.length_nil,
    toBEBytes_length, beVal_cons, hp2, hs2, hL, hT, hE]
  have hnil : beVal ([] : List Nat) = 0 := rfl
  rw [hnil]
  norm_num
  ring

/-- What `encode_event_id` produces: the `evt_` prefix followed by the
alphabet image of 23 digits whose base-32 value is `8 *` the obfuscated
112-bit value. -/
theorem encodeEventId_spec (l p t s e : Nat) (hl : l < 2 ^ 32) (hp : p < 256)
    (ht : t < 2 ^ 32) (hs : s < 256) (he : e < 2 ^ 32) :
    ∃ ds, encodeEventId l p t s e = evtPfx ++ ds.map alphaByte ∧
      ds.length = 23 ∧ (∀ d ∈ ds, d < 32) ∧
      val32 ds
        = rev112 ((l * 2 ^ 80 + p * 2 ^ 72 + t * 2 ^ 40 + s * 2 ^ 32 + e)
            * MULTIPLIER_A % 2 ^ 112) * MULTIPLIER_B % 2 ^ 112 * 8 := by
  set P := l * 2 ^ 80 + p * 2 ^ 72 + t * 2 ^ 40 + s * 2 ^ 32 + e with hP
  set v3 := rev112 (P * MULTIPLIER_A % 2 ^ 112) * MULTIPLIER_B % 2 ^ 112 with hv3
  have hv3lt : v3 < 2 ^ 112 := Nat.mod_lt _ (by norm_num)
  have hdata : (toBEBytes 16 v3).drop 2 = toBEBytes 14 v3 :=
    toBEBytes_drop 2 16 v3 (by omega)
  have hlen : (toBEBytes 14 v3).length = 14 := toBEBytes_length _ _
  have hbytes : ∀ b ∈ toBEBytes 14 v3, b < 256 := toBEBytes_bytes _ _
  have hbeval : beVal (toBEBytes 14 v3) = v3 := by
    rw [beVal_toBEBytes]
    exact Nat.mod_eq_of_lt (by omega)
  obtain ⟨ds, hds1, hds2, hds3, hds4⟩ := base32Encode_spec (toBEBytes 14 v3) hlen hbytes
  refine ⟨ds, ?_, hds2, hds3, ?_⟩
  · show evtPfx ++ base32Encode ((toBEBytes 16
        (rev112 (beVal ([0, 0] ++ (toBEBytes 4 l ++ [p % 256] ++ toBEBytes 4 t
          ++ [s % 256] ++ toBEBytes 4 e)) * MULTIPLIER_A % 2 ^ 112)
          * MULTIPLIER_B % 2 ^ 112)).drop 2) = evtPfx ++ ds.map alphaByte
    rw [packVal_eq l p t s e hl hp ht hs he, ← hP, hdata, hds1]
  · rw [hds4, hbeval]

/-- `decode_event_id` on an `evt_`-prefixed string of 23 alphabet
characters, expressed in terms of the digit values. -/
theorem decodeEventId_payload (ds : List Nat) (h23 : ds.length = 23)
    (h32 : ∀ d ∈ ds, d < 32) :
    decodeEventId (evtPfx ++ ds.map alphaByte)
      = (let q := val32 ds / 8
         let val3 := rev112 (q * INVERSE_B % 2 ^ 112) * INVERSE_A % 2 ^ 112
         let bytes := toBEBytes 16 val3
         let p := bytes.getD 6 0
         let sb := bytes.getD 11 0
         if 2 < p ∨ 1 < sb then none
         else some (beVal ((bytes.drop 2).take 4), p,
           beVal ((bytes.drop 7).take 4), sb, beVal ((bytes.drop 12).take 4))) := by
  have hqlt : val32 ds / 8 < 2 ^ 112 := by
    have h1 : val32 ds < 32 ^ 23 := by
      have := val32_lt ds h32
      rw [h23] at this
      exact this
    have h2 : (32 : Nat) ^ 23 = 2 ^ 115 := by norm_num
    omega
  unfold decodeEventId
  rw [stripPfx_append, Option.some_bind, base32Decode_digits ds h23 h32,
    Option.some_bind]
  have hbv : beVal ([0, 0] ++ toBEBytes 14 (val32 ds / 8)) = val32 ds / 8 := by
    rw [beVal_append]
    have h00 : beVal [0, 0] = 0 := by simp [beVal]
    rw [h00, beVal_toBEBytes]
    simp only [toBEBytes_length]
    rw [Nat.mod_eq_of_lt (by omega : val32 ds / 8 < 2 ^ (8 * 14))]
    omega
  simp only [hbv]

/-- Extracting the five components from the 16-byte expansion of the
packed 112-bit value. -/
theorem decode_unpack (l p t s e : Nat) (hl : l < 2 ^ 32) (hp : p < 256)
    (ht : t < 2 ^ 32) (hs : s < 256) (he : e < 2 ^ 32) :
    beVal (((toBEBytes 16 (l * 2 ^ 80 + p * 2 ^ 72 + t * 2 ^ 40 + s * 2 ^ 32 + e)).drop 2).take 4) = l ∧
    (toBEBytes 16 (l * 2 ^ 80 + p * 2 ^ 72 + t * 2 ^ 40 + s * 2 ^ 32 + e)).getD 6 0 = p ∧
    beVal (((toBEBytes 16 (l * 2 ^ 80 + p * 2 ^ 72 + t * 2 ^ 40 + s * 2 ^ 32 + e)).drop 7).take 4) = t ∧
    (toBEBytes 16 (l * 2 ^ 80 + p * 2 ^ 72 + t * 2 ^ 40 + s * 2 ^ 32 + e)).getD 11 0 = s ∧
    beVal (((toBEBytes 16 (l * 2 ^ 80 + p * 2 ^ 72 + t * 2 ^ 40 + s * 2 ^ 32 + e)).drop 12).take 4) = e := by
  set P := l * 2 ^ 80 + p * 2 ^ 72 + t * 2 ^ 40 + s * 2 ^ 32 + e with hP
  refine ⟨?_, ?_, ?_, ?_, ?_⟩
  · rw [toBEBytes_drop 2 16 P (by omega), beVal_take_toBEBytes 4 14 P (by omega)]
    omega
  · rw [toBEBytes_getD 6 16 P (by omega)]
    omega
  · rw [toBEBytes_drop 7 16 P (by omega), beVal_take_toBEBytes 4 9 P (by omega)]
    omega
  · rw [toBEBytes_getD 11 16 P (by omega)]
    omega
  · rw [toBEBytes_drop 12 16 P (by omega), beVal_take_toBEBytes 4 4 P (by omega)]
    omega

/-- Decoding any 23-digit payload whose top 112 bits equal the obfuscated
packed value recovers the original components. -/
theorem decode_of_digits (l p t s e : Nat) (hl : l < 2 ^ 32) (hp : p ≤ 2)
    (ht : t < 2 ^ 32) (hs : s ≤ 1) (he : e < 2 ^ 32)
    (ds : List Nat) (h23 : ds.length = 23) (h32 : ∀ d ∈ ds, d < 32)
    (hq : val32 ds / 8
      = rev112 ((l * 2 ^ 80 + p * 2 ^ 72 + t * 2 ^ 40 + s * 2 ^ 32 + e)
          * MULTIPLIER_A % 2 ^ 112) * MULTIPLIER_B % 2 ^ 112) :
    decodeEventId (evtPfx ++ ds.map alphaByte) = some (l, p, t, s, e) := by
  set P := l * 2 ^ 80 + p * 2 ^ 72 + t * 2 ^ 40 + s * 2 ^ 32 + e with hP
  have hPlt : P < 2 ^ 112 := by omega
  have hv1lt : P * MULTIPLIER_A % 2 ^ 112 < 2 ^ 112 := Nat.mod_lt _ (by norm_num)
  have hv2lt : rev112 (P * MULTIPLIER_A % 2 ^ 112) < 2 ^ 112 := rev112_lt hv1lt
  have hcancel : rev112 (val32 ds / 8 * INVERSE_B % 2 ^ 112) * INVERSE_A % 2 ^ 112
      = P := by
    rw [hq]
    rw [mul_inv_cancel112 invB_ok _ hv2lt]
    rw [rev112_invol hv1lt]
    exact mul_inv_cancel112 invA_ok P hPlt
  rw [decodeEventId_payload ds h23 h32]
  simp only [hcancel]
  obtain ⟨hL, hp6, hT, hs11, hE⟩ :=
    decode_unpack l p t s e hl (by omega) ht (by omega) he
  rw [← hP] at hL hp6 hT hs11 hE
  rw [hp6, hs11, hL, hT, hE]
  rw [if_neg (by omega)]

/-- C3: for every component tuple with `phase ≤ 2` and `sub ≤ 1` (and u32
`ledger_sequence`, `tx_index`, `event_index`), `decode_event_id` inverts
`encode_event_id`, and the encoded string is 27 characters long: the
4-byte prefix `"evt_"` followed by 23 characters drawn from the custom
base32 alphabet. -/
theorem c3_codec_roundtrip (l p t s e : Nat) (hl : l < 2 ^ 32) (hp : p ≤ 2)
    (ht : t < 2 ^ 32) (hs : s ≤ 1) (he : e < 2 ^ 32) :
    decodeEventId (encodeEventId l p t s e) = some (l, p, t, s, e) ∧
    (encodeEventId l p t s e).length = 27 ∧
    (encodeEventId l p t s e).take 4 = evtPfx ∧
    ∀ c ∈ (encodeEventId l p t s e).drop 4, c ∈ BASE32_ALPHABET := by
  obtain ⟨ds, henc, h23, h32, hval⟩ :=
    encodeEventId_spec l p t s e hl (by omega) ht (by omega) he
  have hq : val32 ds / 8
      = rev112 ((l * 2 ^ 80 + p * 2 ^ 72 + t * 2 ^ 40 + s * 2 ^ 32 + e)
          * MULTIPLIER_A % 2 ^ 112) * MULTIPLIER_B % 2 ^ 112 := by
    rw [hval]
    omega
  refine ⟨?_, ?_, ?_, ?_⟩
  · rw [henc]
    exact decode_of_digits l p t s e hl hp ht hs he ds h23 h32 hq
  · rw [henc]
    simp [h23, evtPfx]
  · rw [henc]
    have h4 : evtPfx.length = 4 := rfl
    rw [← h4, List.take_left]
  · rw [henc]
    have h4 : evtPfx.length = 4 := rfl
    rw [← h4, List.drop_left]
    intro c hc
    obtain ⟨d, hd, hcd⟩ := List.mem_map.mp hc
    rw [← hcd]
    exact alphaByte_mem (h32 d hd)

/-- C3 (witness): the codec roundtrip at the concrete tuple from the
repository's own test (`58_000_000, 1, 3, 0, 7`). -/
theorem c3_codec_roundtrip_witness :
    decodeEventId (encodeEventId 58000000 1 3 0 7) = some (58000000, 1, 3, 0, 7) ∧
    (encodeEventId 58000000 1 3 0 7).length = 27 :=
  ⟨(c3_codec_roundtrip 58000000 1 3 0 7 (by norm_num) (by norm_num) (by norm_num)
      (by norm_num) (by norm_num)).1,
   (c3_codec_roundtrip 58000000 1 3 0 7 (by norm_num) (by norm_num) (by norm_num)
      (by norm_num) (by norm_num)).2.1⟩

theorem map_alphaByte_inj (ds1 : List Nat) : ∀ ds2, (∀ d ∈ ds1, d < 32) →
    (∀ d ∈ ds2, d < 32) → ds1.map alphaByte = ds2.map alphaByte → ds1 = ds2 := by
  induction ds1 with
  | nil =>
    intro ds2 _ _ h
    cases ds2 with
    | nil => rfl
    | cons b bs => simp at h
  | cons a as ih =>
    intro ds2 h1 h2 h
    cases ds2 with
    | nil => simp at h
    | cons b bs =>
      simp only [List.map_cons, List.cons.injEq] at h
      have ha : a = b := alphaByte_inj a (h1 a (by simp)) b (h2 b (by simp)) h.1
      rw [ha, ih bs (fun d hd => h1 d (by simp [hd])) (fun d hd => h2 d (by simp [hd])) h.2]

/-- C10: `decode_event_id` is not injective on the strings it accepts.
For every valid component tuple, the encoded external id admits a second,
distinct 27-character string — equal except for the final character, whose
low three bits are base32 padding that `base32_decode` discards — that
`decode_event_id` also accepts and maps to the same tuple; consequently
`encode_event_id` composed with `decode_event_id` is not the identity on
accepted strings. -/
theorem c10_decode_not_injective (l p t s e : Nat) (hl : l < 2 ^ 32) (hp : p ≤ 2)
    (ht : t < 2 ^ 32) (hs : s ≤ 1) (he : e < 2 ^ 32) :
    ∃ id2, id2 ≠ encodeEventId l p t s e ∧
      id2.length = (encodeEventId l p t s e).length ∧
      id2.dropLast = (encodeEventId l p t s e).dropLast ∧
      decodeEventId id2 = some (l, p, t, s, e) ∧
      decodeEventId (encodeEventId l p t s e) = some (l, p, t, s, e) ∧
      ∀ l2 p2 t2 s2 e2, decodeEventId id2 = some (l2, p2, t2, s2, e2) →
        encodeEventId l2 p2 t2 s2 e2 ≠ id2 := by
  obtain ⟨ds, henc, h23, h32, hval⟩ :=
    encodeEventId_spec l p t s e hl (by omega) ht (by omega) he
  have hq : val32 ds / 8
      = rev112 ((l * 2 ^ 80 + p * 2 ^ 72 + t * 2 ^ 40 + s * 2 ^ 32 + e)
          * MULTIPLIER_A % 2 ^ 112) * MULTIPLIER_B % 2 ^ 112 := by
    rw [hval]
    omega
  have hne : ds ≠ [] := by
    intro h
    rw [h] at h23
    simp at h23
  have hsplit : ds.dropLast ++ [ds.getLast hne] = ds :=
    List.dropLast_append_getLast hne
  have h22 : ds.dropLast.length = 22 := by
    rw [List.length_dropLast, h23]
  have hvds : val32 ds = val32 ds.dropLast * 32 + ds.getLast hne := by
    conv_lhs => rw [← hsplit]
    exact val32_append_one _ _
  have hdL32 : ds.getLast hne < 32 := h32 _ (List.getLast_mem hne)
  have hdLmod : ds.getLast hne % 8 = 0 := by
    have h8 : val32 ds % 8 = 0 := by
      rw [hval]
      omega
    omega
  have hdL24 : ds.getLast hne + 1 < 32 := by omega
  set ds2 := ds.dropLast ++ [ds.getLast hne + 1] with hds2
  have h23b : ds2.length = 23 := by
    rw [hds2]
    simp [h22]
  have h32b : ∀ d ∈ ds2, d < 32 := by
    intro d hd
    rw [hds2] at hd
    rcases List.mem_append.mp hd with h | h
    · apply h32
      rw [← hsplit]
      exact List.mem_append_left _ h
    · simp at h
      omega
  have hv2 : val32 ds2 = val32 ds + 1 := by
    rw [hds2, val32_append_one, hvds]
    omega
  have hq2 : val32 ds2 / 8
      = rev112 ((l * 2 ^ 80 + p * 2 ^ 72 + t * 2 ^ 40 + s * 2 ^ 32 + e)
          * MULTIPLIER_A % 2 ^ 112) * MULTIPLIER_B % 2 ^ 112 := by
    rw [hv2, ← hq]
    have h8 : val32 ds % 8 = 0 := by
      rw [hval]
      omega
    omega
  have hdsne : ds2 ≠ ds := by
    intro h
    have : val32 ds2 = val32 ds := by rw [h]
    omega
  refine ⟨evtPfx ++ ds2.map alphaByte, ?_, ?_, ?_, ?_, ?_, ?_⟩
  · rw [henc]
    intro h
    exact hdsne (map_alphaByte_inj ds2 ds h32b h32 (List.append_cancel_left h))
  · rw [henc]
    simp [h23b, h23]
  · rw [henc, hds2]
    conv_rhs => rw [← hsplit]
    rw [List.map_append, List.map_append, ← List.append_assoc, ← List.append_assoc]
    simp only [List.map_cons, List.map_nil]
    rw [List.dropLast_concat, List.dropLast_concat]
  · exact decode_of_digits l p t s e hl hp ht hs he ds2 h23b h32b hq2
  · rw [henc]
    exact decode_of_digits l p t s e hl hp ht hs he ds h23 h32 hq
  · intro l2 p2 t2 s2 e2 hdec
    have hdec2 : decodeEventId (evtPfx ++ ds2.map alphaByte) = some (l, p, t, s, e) :=
      decode_of_digits l p t s e hl hp ht hs he ds2 h23b h32b hq2
    rw [hdec2] at hdec
    simp only [Option.some.injEq, Prod.mk.injEq] at hdec
    obtain ⟨e1a, e2a, e3a, e4a, e5a⟩ := hdec
    rw [← e1a, ← e2a, ← e3a, ← e4a, ← e5a, henc]
    intro h
    exact hdsne (map_alphaByte_inj ds2 ds h32b h32 (List.append_cancel_left h.symm))

/-- C10 (witness): the non-injectivity instance at the concrete tuple
`(58_000_000, 1, 3, 0, 7)`. -/
theorem c10_decode_not_injective_witness :
    ∃ id2, id2 ≠ encodeEventId 58000000 1 3 0 7 ∧
      id2.length = (encodeEventId 58000000 1 3 0 7).length ∧
      id2.dropLast = (encodeEventId 58000000 1 3 0 7).dropLast ∧
      decodeEventId id2 = some (58000000, 1, 3, 0, 7) ∧
      decodeEventId (encodeEventId 58000000 1 3 0 7) = some (58000000, 1, 3, 0, 7) ∧
      ∀ l2 p2 t2 s2 e2, decodeEventId id2 = some (l2, p2, t2, s2, e2) →
        encodeEventId l2 p2 t2 s2 e2 ≠ id2 :=
  c10_decode_not_injective 58000000 1 3 0 7 (by norm_num) (by norm_num) (by norm_num)
    (by norm_num) (by norm_num)

/-! ### JSON values, filters, stored events (`src/db.rs`) -/

/-- A model of `serde_json::Value`.  The verified code only observes
values through `==` (serde `PartialEq`), `is_null` and `as_array`. -/
inductive Json where
  | null
  | bool (b : Bool)
  | num (n : Int)
  | str (s : List Nat)
  | arr (items : List Json)
  | obj (fields : List (List Nat × Json))

mutual

/-- Model of `serde_json::Value`'s `==`; the code under verification never
depends on anything but its being a fixed boolean-valued comparison. -/
def Json.beq : Json → Json → Bool
  | .null, .null => true
  | .bool a, .bool b => a == b
  | .num a, .num b => a == b
  | .str a, .str b => a == b
  | .arr a, .arr b => Json.beqList a b
  | .obj a, .obj b => Json.beqObj a b
  | _, _ => false

def Json.beqList : List Json → List Json → Bool
  | [], [] => true
  | a :: as2, b :: bs2 => Json.beq a b && Json.beqList as2 bs2
  | _, _ => false

def Json.beqObj : List (List Nat × Json) → List (List Nat × Json) → Bool
  | [], [] => true
  | a :: as2, b :: bs2 => a.1 == b.1 && Json.beq a.2 b.2 && Json.beqObj as2 bs2
  | _, _ => false

end

instance : BEq Json := ⟨Json.beq⟩

/-- `Value::is_null`. -/
def Json.isNull : Json → Bool
  | .null => true
  | _ => false

/-- `Value::as_array`. -/
def Json.asArray : Json → Option (List Json)
  | .arr items => some items
  | _ => none

/-- `EventFilter` — the fields of `src/db.rs` plus the `ledger`/`tx`
routing fields that `src/api/query_parser.rs` populates (the runtime
matcher reads only the first four). -/
structure EventFilter where
  contract_id : Option (List Nat) := none
  event_type : Option (List Nat) := none
  topics : Option (List Json) := none
  any_topics : Option (List Json) := none
  ledger : Option Nat := none
  tx : Option (List Nat) := none

/-- `StoredEvent`. -/
structure StoredEvent where
  id : List Nat
  external_id : List Nat
  ledger_sequence : Nat
  ledger_closed_at : List Nat
  contract_id : Option (List Nat)
  event_type : Nat
  event_type_str : List Nat
  topics : Json
  data : Json
  tx_hash : List Nat

instance : Inhabited StoredEvent :=
  ⟨{ id := [], external_id := [], ledger_sequence := 0, ledger_closed_at := [],
     contract_id := none, event_type := 0, event_type_str := [],
     topics := .null, data := .null, tx_hash := [] }⟩

/-- `EventRow`. -/
structure EventRow where
  id : List Nat
  ledger_sequence : Nat
  ledger_closed_at : List Nat
  contract_id : Option (List Nat)
  event_type : List Nat
  topics : Json
  data : Json
  tx_hash : List Nat

/-- `StoredEvent::to_event_row`. -/
def StoredEvent.toEventRow (e : StoredEvent) : EventRow :=
  { id := e.external_id, ledger_sequence := e.ledger_sequence,
    ledger_closed_at := e.ledger_closed_at, contract_id := e.contract_id,
    event_type := e.event_type_str, topics := e.topics, data := e.data,
    tx_hash := e.tx_hash }

/-- ASCII bytes of `"contract"`. -/
def strContract : List Nat := [99, 111, 110, 116, 114, 97, 99, 116]

/-- ASCII bytes of `"system"`. -/
def strSystem : List Nat := [115, 121, 115, 116, 101, 109]

/-- ASCII bytes of `"diagnostic"`. -/
def strDiagnostic : List Nat := [100, 105, 97, 103, 110, 111, 115, 116, 105, 99]

/-- The `contract_id` block of `StoredEvent::matches_filter`. -/
def StoredEvent.contractCond (e : StoredEvent) (f : EventFilter) : Bool :=
  match f.contract_id with
  | none => true
  | some cid =>
    match e.contract_id with
    | some eid => eid == cid
    | none => false

/-- The `event_type` block of `StoredEvent::matches_filter`. -/
def StoredEvent.typeCond (e : StoredEvent) (f : EventFilter) : Bool :=
  match f.event_type with
  | none => true
  | some et =>
    if et == strContract then e.event_type == 0
    else if et == strSystem then e.event_type == 1
    else if et == strDiagnostic then e.event_type == 2
    else false

/-- The positional loop of the `topics` block: position `i` of the filter
is a wildcard when `null`, otherwise `stored.get(i)` must equal it. -/
def topicsLoop : List Json → List Json → Bool
  | _, [] => true
  | [], tv :: rest => tv.isNull && topicsLoop [] rest
  | sv :: srest, tv :: rest => (tv.isNull || sv == tv) && topicsLoop srest rest

/-- The `topics` block of `StoredEvent::matches_filter`. -/
def StoredEvent.topicsCond (e : StoredEvent) (f : EventFilter) : Bool :=
  match f.topics with
  | none => true
  | some ts =>
    if ts.isEmpty then true
    else
      match e.topics.asArray with
      | none => false
      | some stored =>
        if stored.length < ts.length then false
        else topicsLoop stored ts

/-- The `any_topics` block of `StoredEvent::matches_filter`. -/
def StoredEvent.anyTopicsCond (e : StoredEvent) (f : EventFilter) : Bool :=
  match f.any_topics with
  | none => true
  | some reqs =>
    match e.topics.asArray with
    | none => false
    | some stored => reqs.all (fun r => stored.any (fun actual => actual == r))

/-- `StoredEvent::matches_filter` — the four early-return blocks in
sequence, i.e. their conjunction. -/
def StoredEvent.matchesFilter (e : StoredEvent) (f : EventFilter) : Bool :=
  e.contractCond f && e.typeCond f && e.topicsCond f && e.anyTopicsCond f

/-- `LedgerPartition`. -/
structure LedgerPartition where
  events : List StoredEvent
  expires_at : Int

/-- `EventStore`.  The `DashMap` is modelled as an association list (its
iteration order is arbitrary; every use in the verified code either sorts
the keys or is order-insensitive). -/
structure EventStore where
  ledgers : List (Nat × LedgerPartition)
  latest_ledger : Nat
  sync_state : List (List Nat × List Nat)
  cache_ttl_seconds : Int

/-- `self.ledgers.get(&seq)`. -/
def EventStore.lookupLedger (s : EventStore) (seq : Nat) : Option LedgerPartition :=
  (s.ledgers.find? (fun kv => kv.1 == seq)).map (fun kv => kv.2)

/-- `EventQueryParams`. -/
structure EventQueryParams where
  limit : Nat
  after : Option (List Nat) := none
  before : Option (List Nat) := none
  ledger : Option Nat := none
  tx : Option (List Nat) := none
  filters : List EventFilter := []

/-- `EventQueryResult`. -/
structure EventQueryResult where
  data : List EventRow
  next : Option (List Nat)

/-- `EventStore::event_matches`. -/
def eventMatches (params : EventQueryParams) (e : StoredEvent) : Bool :=
  (match params.tx with
   | some tx => e.tx_hash == tx
   | none => true) &&
  (params.filters.isEmpty || params.filters.any (fun f => e.matchesFilter f))

/-! ### `parse_event_id` (`src/ledger/event_id.rs`) -/

/-- Rust `str::split(sep)`: pieces between separator bytes, empty pieces
preserved. -/
def splitSep (sep : Nat) : List Nat → List (List Nat)
  | [] => [[]]
  | c :: rest =>
    match splitSep sep rest with
    | [] => [[]]
    | g :: gs => if c = sep then [] :: g :: gs else (c :: g) :: gs

/-- Digit accumulation of Rust integer `parse` (rejecting non-digits). -/
def digitsValGo : List Nat → Nat → Option Nat
  | [], acc => some acc
  | c :: rest, acc =>
    if 48 ≤ c ∧ c ≤ 57 then digitsValGo rest (acc * 10 + (c - 48)) else none

/-- Rust `str::parse::<uN>()`: an optional leading `'+'`, then one or more
digits; overflow (`value ≥ bound`) is an error. -/
def parseNatBounded (bound : Nat) (s : List Nat) : Option Nat :=
  let digits :=
    match s with
    | [] => []
    | c :: rest => if c = 43 then rest else c :: rest
  match digits with
  | [] => none
  | _ :: _ =>
    match digitsValGo digits 0 with
    | none => none
    | some v => if v < bound then some v else none

/-- `parse_event_id(id)`. -/
def parseEventId (id : List Nat) : Option (Nat × Nat × Nat × Nat × Nat) :=
  (stripPfx evtPfx id).bind (fun rest =>
    match splitSep 95 rest with
    | [a, b, c, d, e] =>
      (parseNatBounded (2 ^ 32) a).bind (fun ls =>
      (parseNatBounded (2 ^ 8) b).bind (fun ph =>
      (parseNatBounded (2 ^ 32) c).bind (fun tx =>
      (parseNatBounded (2 ^ 8) d).bind (fun sb =>
      (parseNatBounded (2 ^ 32) e).map (fun ev => (ls, ph, tx, sb, ev))))))
    | _ => none)

theorem splitSep_no_sep {sep : Nat} : ∀ {a : List Nat}, sep ∉ a → splitSep sep a = [a] := by
  intro a
  induction a with
  | nil => intro _; rfl
  | cons c rest ih =>
    intro h
    have hc : c ≠ sep := by
      intro hc
      exact h (by simp [hc])
    have hrest : sep ∉ rest := fun hr => h (by simp [hr])
    simp only [splitSep, ih hrest]
    rw [if_neg hc]

theorem splitSep_cons {sep : Nat} : ∀ {a : List Nat} (rest : List Nat), sep ∉ a →
    splitSep sep (a ++ sep :: rest) = a :: splitSep sep rest := by
  intro a
  induction a with
  | nil =>
    intro rest _
    show splitSep sep (sep :: rest) = [] :: splitSep sep rest
    simp only [splitSep]
    cases h : splitSep sep rest with
    | nil =>
      exfalso
      cases rest with
      | nil => simp [splitSep] at h
      | cons x xs =>
        simp only [splitSep] at h
        revert h
        cases splitSep sep xs with
        | nil => intro h; simp at h
        | cons g gs =>
          intro h
          by_cases hx : x = sep <;> simp [hx] at h
    | cons g gs => simp
  | cons c crest ih =>
    intro rest h
    have hc : c ≠ sep := by
      intro hc
      exact h (by simp [hc])
    have hrest : sep ∉ crest := fun hr => h (by simp [hr])
    show splitSep sep (c :: (crest ++ sep :: rest)) = (c :: crest) :: splitSep sep rest
    simp only [splitSep, ih rest hrest]
    rw [if_neg hc]

theorem digitsValGo_append (xs ys : List Nat) : ∀ acc,
    digitsValGo (xs ++ ys) acc = match digitsValGo xs acc with
      | none => none
      | some a => digitsValGo ys a := by
  induction xs with
  | nil => intro acc; rfl
  | cons c rest ih =>
    intro acc
    show digitsValGo (c :: (rest ++ ys)) acc = _
    simp only [digitsValGo]
    by_cases hc : 48 ≤ c ∧ c ≤ 57
    · rw [if_pos hc, if_pos hc, ih]
    · rw [if_neg hc, if_neg hc]

theorem digitsValGo_decBytes (n : Nat) : ∀ acc,
    digitsValGo (decBytes n) acc = some (acc * 10 ^ (decBytes n).length + n) := by
  induction n using Nat.strong_induction_on with
  | _ n ih =>
    intro acc
    by_cases hn : n < 10
    · have hdb : decBytes n = [48 + n] := by rw [decBytes_eq, if_pos hn]
      rw [hdb]
      show digitsValGo [48 + n] acc = some (acc * 10 ^ 1 + n)
      simp only [digitsValGo]
      rw [if_pos (by omega)]
      show some (acc * 10 + (48 + n - 48)) = some (acc * 10 ^ 1 + n)
      have h10 : (10 : Nat) ^ 1 = 10 := by norm_num
      rw [h10]
      congr 1
      omega
    · have hdb : decBytes n = decBytes (n / 10) ++ [48 + n % 10] := by
        rw [decBytes_eq, if_neg hn]
      rw [hdb, digitsValGo_append,
        ih (n / 10) (Nat.div_lt_self (by omega) (by omega)) acc]
      show digitsValGo [48 + n % 10] (acc * 10 ^ (decBytes (n / 10)).length + n / 10)
        = some (acc * 10 ^ (decBytes (n / 10) ++ [48 + n % 10]).length + n)
      simp only [digitsValGo]
      rw [if_pos (by omega)]
      show some ((acc * 10 ^ (decBytes (n / 10)).length + n / 10) * 10
          + (48 + n % 10 - 48))
        = some (acc * 10 ^ (decBytes (n / 10) ++ [48 + n % 10]).length + n)
      have hlen : (decBytes (n / 10) ++ [48 + n % 10]).length
          = (decBytes (n / 10)).length + 1 := by simp
      rw [hlen, pow_succ]
      have hsw : acc * (10 ^ (decBytes (n / 10)).length * 10)
          = acc * 10 ^ (decBytes (n / 10)).length * 10 := by ring
      rw [hsw]
      congr 1
      omega

theorem digitsValGo_replicate48 (k : Nat) : ∀ acc,
    digitsValGo (List.replicate k 48) acc = some (acc * 10 ^ k) := by
  induction k with
  | zero => intro acc; simp [digitsValGo]
  | succ k ih =>
    intro acc
    rw [List.replicate_succ]
    show digitsValGo (48 :: List.replicate k 48) acc = _
    simp only [digitsValGo]
    rw [if_pos (by omega), ih]
    congr 1
    rw [pow_succ]
    ring_nf

theorem parseNatBounded_fmtPad {w n bound : Nat} (hn : n < bound) :
    parseNatBounded bound (fmtPad w n) = some n := by
  have hne : decBytes n ≠ [] := by
    rw [decBytes_eq]
    by_cases h : n < 10 <;> simp [h]
  have hval : digitsValGo (fmtPad w n) 0 = some n := by
    unfold fmtPad
    rw [digitsValGo_append, digitsValGo_replicate48]
    show digitsValGo (decBytes n) (0 * 10 ^ (w - (decBytes n).length)) = some n
    rw [digitsValGo_decBytes]
    simp
  have hhead : ∃ c rest, fmtPad w n = c :: rest ∧ 48 ≤ c ∧ c ≤ 57 := by
    cases hfp : fmtPad w n with
    | nil =>
      exfalso
      unfold fmtPad at hfp
      rcases List.append_eq_nil.mp hfp with ⟨_, h2⟩
      exact hne h2
    | cons c rest =>
      have hc := fmtPad_digits (w := w) (n := n) c (by rw [hfp]; simp)
      exact ⟨c, rest, rfl, hc.1, hc.2⟩
  obtain ⟨c, rest, hfp, hc1, hc2⟩ := hhead
  unfold parseNatBounded
  rw [hfp] at hval ⊢
  have hc43 : c ≠ 43 := by omega
  simp only [if_neg hc43, hval, if_pos hn]

theorem fmtPad_no_sep {w n : Nat} : (95 : Nat) ∉ fmtPad w n := by
  intro h
  have := fmtPad_digits (w := w) (n := n) 95 h
  omega

/-- `parse_event_id` recovers the components of every well-formed internal
id whose components fit the widths that the `parse::<u32>`/`parse::<u8>`
calls enforce. -/
theorem parseEventId_eventIdStr {l p t s e : Nat} (hl : l < 2 ^ 32)
    (hp : p < 2 ^ 8) (ht : t < 2 ^ 32) (hs : s < 2 ^ 8) (he : e < 2 ^ 32) :
    parseEventId (eventIdStr l p t s e) = some (l, p, t, s, e) := by
  unfold parseEventId eventIdStr
  simp only [List.append_assoc]
  rw [stripPfx_append, Option.some_bind]
  simp only [List.singleton_append]
  rw [splitSep_cons _ fmtPad_no_sep, splitSep_cons _ fmtPad_no_sep,
    splitSep_cons _ fmtPad_no_sep, splitSep_cons _ fmtPad_no_sep,
    splitSep_no_sep fmtPad_no_sep]
  show (parseNatBounded (2 ^ 32) (fmtPad 10 l)).bind (fun ls =>
      (parseNatBounded (2 ^ 8) (fmtPad 1 p)).bind (fun ph =>
      (parseNatBounded (2 ^ 32) (fmtPad 4 t)).bind (fun tx =>
      (parseNatBounded (2 ^ 8) (fmtPad 1 s)).bind (fun sb =>
      (parseNatBounded (2 ^ 32) (fmtPad 4 e)).map (fun ev => (ls, ph, tx, sb, ev))))))
    = some (l, p, t, s, e)
  rw [parseNatBounded_fmtPad hl, parseNatBounded_fmtPad hp,
    parseNatBounded_fmtPad ht, parseNatBounded_fmtPad hs,
    parseNatBounded_fmtPad he]
  rfl

/-! ### Sorting the ledger keys (`ledger_seqs.sort_unstable()`)

`sort_unstable` on a `Vec<u32>` produces the unique ascending reordering
of the keys (they are distinct `DashMap` keys); we model it by insertion
sort, whose output is that reordering. -/

def insertAsc (x : Nat) : List Nat → List Nat
  | [] => [x]
  | y :: ys => if x ≤ y then x :: y :: ys else y :: insertAsc x ys

def sortAsc : List Nat → List Nat
  | [] => []
  | x :: xs => insertAsc x (sortAsc xs)

def insertDesc (x : Nat) : List Nat → List Nat
  | [] => [x]
  | y :: ys => if y ≤ x then x :: y :: ys else y :: insertDesc x ys

def sortDesc : List Nat → List Nat
  | [] => []
  | x :: xs => insertDesc x (sortDesc xs)

theorem insertAsc_perm (x : Nat) (l : List Nat) :
    List.Perm (insertAsc x l) (x :: l) := by
  induction l with
  | nil => exact List.Perm.refl _
  | cons y ys ih =>
    by_cases h : x ≤ y
    · simp [insertAsc, h]
    · simp only [insertAsc, if_neg h]
      exact (List.Perm.cons y ih).trans (List.Perm.swap x y ys)

theorem sortAsc_perm (l : List Nat) : List.Perm (sortAsc l) l := by
  induction l with
  | nil => exact List.Perm.refl _
  | cons x xs ih =>
    simp only [sortAsc]
    exact (insertAsc_perm x (sortAsc xs)).trans (List.Perm.cons x ih)

theorem insertAsc_sorted (x : Nat) {l : List Nat} (h : l.Pairwise (· ≤ ·)) :
    (insertAsc x l).Pairwise (· ≤ ·) := by
  induction l with
  | nil => simp [insertAsc]
  | cons y ys ih =>
    rcases List.pairwise_cons.mp h with ⟨hy, hys⟩
    by_cases hxy : x ≤ y
    · simp only [insertAsc, if_pos hxy]
      refine List.pairwise_cons.mpr ⟨?_, h⟩
      intro z hz
      rcases List.mem_cons.mp hz with rfl | hz
      · exact hxy
      · exact le_trans hxy (hy z hz)
    · simp only [insertAsc, if_neg hxy]
      refine List.pairwise_cons.mpr ⟨?_, ih hys⟩
      intro z hz
      rcases List.mem_cons.mp ((insertAsc_perm x ys).mem_iff.mp hz) with rfl | hz2
      · omega
      · exact hy z hz2

theorem sortAsc_sorted (l : List Nat) : (sortAsc l).Pairwise (· ≤ ·) := by
  induction l with
  | nil => simp [sortAsc]
  | cons x xs ih => exact insertAsc_sorted x ih

theorem sortAsc_pairwise_lt {l : List Nat} (h : l.Nodup) :
    (sortAsc l).Pairwise (· < ·) := by
  have h1 := sortAsc_sorted l
  have h2 : (sortAsc l).Nodup := ((sortAsc_perm l).nodup_iff).mpr h
  have h3 := h1.and h2
  exact h3.imp (fun hab => lt_of_le_of_ne hab.1 hab.2)

theorem insertDesc_perm (x : Nat) (l : List Nat) :
    List.Perm (insertDesc x l) (x :: l) := by
  induction l with
  | nil => exact List.Perm.refl _
  | cons y ys ih =>
    by_cases h : y ≤ x
    · simp [insertDesc, h]
    · simp only [insertDesc, if_neg h]
      exact (List.Perm.cons y ih).trans (List.Perm.swap x y ys)

theorem sortDesc_perm (l : List Nat) : List.Perm (sortDesc l) l := by
  induction l with
  | nil => exact List.Perm.refl _
  | cons x xs ih =>
    simp only [sortDesc]
    exact (insertDesc_perm x (sortDesc xs)).trans (List.Perm.cons x ih)

theorem insertDesc_sorted (x : Nat) {l : List Nat} (h : l.Pairwise (· ≥ ·)) :
    (insertDesc x l).Pairwise (· ≥ ·) := by
  induction l with
  | nil => simp [insertDesc]
  | cons y ys ih =>
    rcases List.pairwise_cons.mp h with ⟨hy, hys⟩
    by_cases hxy : y ≤ x
    · simp only [insertDesc, if_pos hxy]
      refine List.pairwise_cons.mpr ⟨?_, h⟩
      intro z hz
      rcases List.mem_cons.mp hz with rfl | hz
      · exact hxy
      · exact le_trans (hy z hz) hxy
    · simp only [insertDesc, if_neg hxy]
      refine List.pairwise_cons.mpr ⟨?_, ih hys⟩
      intro z hz
      rcases List.mem_cons.mp ((insertDesc_perm x ys).mem_iff.mp hz) with rfl | hz2
      · omega
      · exact hy z hz2

theorem sortDesc_sorted (l : List Nat) : (sortDesc l).Pairwise (· ≥ ·) := by
  induction l with
  | nil => simp [sortDesc]
  | cons x xs ih => exact insertDesc_sorted x ih

theorem sortDesc_pairwise_gt {l : List Nat} (h : l.Nodup) :
    (sortDesc l).Pairwise (· > ·) := by
  have h1 := sortDesc_sorted l
  have h2 : (sortDesc l).Nodup := ((sortDesc_perm l).nodup_iff).mpr h
  have h3 := h1.and h2
  exact h3.imp (fun hab => lt_of_le_of_ne hab.1 (Ne.symm hab.2))

/-! ### `slice::binary_search_by` (used with the comparator
`|e| e.id.as_str().cmp(cursor)`)

`Sum.inl pos` models Rust's `Ok(pos)` (exact hit), `Sum.inr pos` models
`Err(pos)` (insertion point).  The fuel argument makes the recursion
structural; `es.length + 1` steps always suffice because the interval
shrinks at every step. -/

def binarySearchGo (es : List StoredEvent) (c : List Nat) :
    Nat → Nat → Nat → Sum Nat Nat
  | 0, left, _ => Sum.inr left
  | fuel + 1, left, right =>
    if left < right then
      let mid := left + (right - left) / 2
      match listCmp (es.getD mid default).id c with
      | .lt => binarySearchGo es c fuel (mid + 1) right
      | .gt => binarySearchGo es c fuel left mid
      | .eq => Sum.inl mid
    else Sum.inr left

/-- `events.binary_search_by(|e| e.id.as_str().cmp(c))`. -/
def binarySearch (es : List StoredEvent) (c : List Nat) : Sum Nat Nat :=
  binarySearchGo es c (es.length + 1) 0 es.length

/-- Start index of the forward scan after an `after` cursor:
`Ok(pos) => pos + 1, Err(pos) => pos`. -/
def startAfter (es : List StoredEvent) (c : List Nat) : Nat :=
  match binarySearch es c with
  | Sum.inl pos => pos + 1
  | Sum.inr pos => pos

/-- End index of the backward scan under a `before` cursor:
`Ok(pos) => pos, Err(pos) => pos`. -/
def endBefore (es : List StoredEvent) (c : List Nat) : Nat :=
  match binarySearch es c with
  | Sum.inl pos => pos
  | Sum.inr pos => pos

theorem pairwise_lexLt_getD {es : List StoredEvent}
    (h : es.Pairwise (fun a b => lexLt a.id b.id)) {i j : Nat}
    (hij : i < j) (hj : j < es.length) :
    lexLt (es.getD i default).id (es.getD j default).id := by
  have hi : i < es.length := lt_trans hij hj
  rw [List.getD_eq_getElem es default hi, List.getD_eq_getElem es default hj]
  exact (List.pairwise_iff_getElem.mp h) i j hi hj hij

theorem binarySearchGo_spec (es : List StoredEvent) (c : List Nat)
    (hsorted : es.Pairwise (fun a b => lexLt a.id b.id)) :
    ∀ fuel left right, right ≤ es.length → left ≤ right → right - left ≤ fuel →
    (∀ i, i < left → lexLt (es.getD i default).id c) →
    (∀ i, right ≤ i → i < es.length → lexLt c (es.getD i default).id) →
    (match binarySearchGo es c fuel left right with
     | Sum.inl pos => pos < es.length ∧ (es.getD pos default).id = c
     | Sum.inr pos => pos ≤ es.length ∧
         (∀ i, i < pos → lexLt (es.getD i default).id c) ∧
         (∀ i, pos ≤ i → i < es.length → lexLt c (es.getD i default).id)) := by
  intro fuel
  induction fuel with
  | zero =>
    intro left right hr hlr hfuel hlow hhigh
    have : left = right := by omega
    subst this
    show (match Sum.inr left with
     | Sum.inl pos => pos < es.length ∧ (es.getD pos default).id = c
     | Sum.inr pos => pos ≤ es.length ∧
         (∀ i, i < pos → lexLt (es.getD i default).id c) ∧
         (∀ i, pos ≤ i → i < es.length → lexLt c (es.getD i default).id))
    exact ⟨hr, hlow, hhigh⟩
  | succ fuel ih =>
    intro left right hr hlr hfuel hlow hhigh
    by_cases hcase : left < right
    · have hmid1 : left ≤ left + (right - left) / 2 := by omega
      have hmid2 : left + (right - left) / 2 < right := by omega
      show (match (if left < right then
          match listCmp (es.getD (left + (right - left) / 2) default).id c with
          | .lt => binarySearchGo es c fuel (left + (right - left) / 2 + 1) right
          | .gt => binarySearchGo es c fuel left (left + (right - left) / 2)
          | .eq => Sum.inl (left + (right - left) / 2)
        else Sum.inr left) with
       | Sum.inl pos => pos < es.length ∧ (es.getD pos default).id = c
       | Sum.inr pos => pos ≤ es.length ∧
           (∀ i, i < pos → lexLt (es.getD i default).id c) ∧
           (∀ i, pos ≤ i → i < es.length → lexLt c (es.getD i default).id))
      rw [if_pos hcase]
      rcases hcmp : listCmp (es.getD (left + (right - left) / 2) default).id c with _ | _ | _
      · -- lt: everything up to mid is below the cursor
        have hmidlt : lexLt (es.getD (left + (right - left) / 2) default).id c := hcmp
        have hlow2 : ∀ i, i < left + (right - left) / 2 + 1 →
            lexLt (es.getD i default).id c := by
          intro i hi
          by_cases hil : i < left
          · exact hlow i hil
          · rcases Nat.lt_or_ge i (left + (right - left) / 2) with him | him
            · exact lexLt_trans
                (pairwise_lexLt_getD hsorted him (lt_of_lt_of_le hmid2 hr)) hmidlt
            · have : i = left + (right - left) / 2 := by omega
              rw [this]
              exact hmidlt
        exact ih (left + (right - left) / 2 + 1) right hr (by omega) (by omega) hlow2 hhigh
      · -- eq: exact hit
        exact ⟨lt_of_lt_of_le hmid2 hr, listCmp_eq_iff.mp hcmp⟩
      · -- gt: everything from mid on is above the cursor
        have hmidgt : lexLt c (es.getD (left + (right - left) / 2) default).id := by
          unfold lexLt
          rw [listCmp_swap, hcmp]
          rfl
        have hhigh2 : ∀ i, left + (right - left) / 2 ≤ i → i < es.length →
            lexLt c (es.getD i default).id := by
          intro i hi hilen
          rcases Nat.lt_or_ge i right with hir | hir
          · rcases Nat.eq_or_lt_of_le hi with heq | hlt
            · rw [← heq]
              exact hmidgt
            · exact lexLt_trans hmidgt (pairwise_lexLt_getD hsorted hlt hilen)
          · exact hhigh i hir hilen
        exact ih left (left + (right - left) / 2) (by omega) (by omega) (by omega)
          hlow hhigh2
    · have : left = right := by omega
      subst this
      show (match (if left < left then
          match listCmp (es.getD (left + (left - left) / 2) default).id c with
          | .lt => binarySearchGo es c fuel (left + (left - left) / 2 + 1) left
          | .gt => binarySearchGo es c fuel left (left + (left - left) / 2)
          | .eq => Sum.inl (left + (left - left) / 2)
        else Sum.inr left) with
       | Sum.inl pos => pos < es.length ∧ (es.getD pos default).id = c
       | Sum.inr pos => pos ≤ es.length ∧
           (∀ i, i < pos → lexLt (es.getD i default).id c) ∧
           (∀ i, pos ≤ i → i < es.length → lexLt c (es.getD i default).id))
      rw [if_neg hcase]
      exact ⟨hr, hlow, hhigh⟩

theorem binarySearch_spec (es : List StoredEvent) (c : List Nat)
    (hsorted : es.Pairwise (fun a b => lexLt a.id b.id)) :
    (match binarySearch es c with
     | Sum.inl pos => pos < es.length ∧ (es.getD pos default).id = c
     | Sum.inr pos => pos ≤ es.length ∧
         (∀ i, i < pos → lexLt (es.getD i default).id c) ∧
         (∀ i, pos ≤ i → i < es.length → lexLt c (es.getD i default).id)) :=
  binarySearchGo_spec es c hsorted (es.length + 1) 0 es.length le_rfl
    (Nat.zero_le _) (by omega) (fun i hi => absurd hi (Nat.not_lt_zero i))
    (fun i hi hilen => absurd hilen (by omega))

theorem mem_drop_getD {es : List StoredEvent} {n : Nat} {e : StoredEvent}
    (h : e ∈ es.drop n) :
    ∃ i, n ≤ i ∧ i < es.length ∧ es.getD i default = e := by
  obtain ⟨j, hj, hget⟩ := List.mem_iff_getElem.mp h
  have hlen : n + j < es.length := by
    have := List.length_drop n es
    omega
  refine ⟨n + j, Nat.le_add_right _ _, hlen, ?_⟩
  rw [List.getD_eq_getElem es default hlen, ← List.getElem_drop ..]
  exact hget

theorem mem_take_getD {es : List StoredEvent} {n : Nat} {e : StoredEvent}
    (h : e ∈ es.take n) :
    ∃ i, i < n ∧ i < es.length ∧ es.getD i default = e := by
  obtain ⟨j, hj, hget⟩ := List.mem_iff_getElem.mp h
  have hlen : j < es.length ∧ j < n := by
    have := List.length_take n es
    omega
  refine ⟨j, hlen.2, hlen.1, ?_⟩
  rw [List.getD_eq_getElem es default hlen.1, ← List.getElem_take ..]
  exact hget

/-- Every event at or past `startAfter es c` has id strictly above `c`. -/
theorem startAfter_bound {es : List StoredEvent} {c : List Nat}
    (hsorted : es.Pairwise (fun a b => lexLt a.id b.id)) :
    ∀ e ∈ es.drop (startAfter es c), lexLt c e.id := by
  intro e he
  obtain ⟨i, hfi, hlen, hget⟩ := mem_drop_getD he
  have hspec := binarySearch_spec es c hsorted
  unfold startAfter at hfi
  rcases hbs : binarySearch es c with pos | pos <;> rw [hbs] at hspec hfi
  · simp only at hspec hfi
    have hgt : lexLt (es.getD pos default).id (es.getD i default).id :=
      pairwise_lexLt_getD hsorted (by omega) hlen
    rw [hspec.2] at hgt
    rw [← hget]
    exact hgt
  · simp only at hspec hfi
    rw [← hget]
    exact hspec.2.2 i hfi hlen

/-- Every event strictly before `endBefore es c` has id strictly below `c`. -/
theorem endBefore_bound {es : List StoredEvent} {c : List Nat}
    (hsorted : es.Pairwise (fun a b => lexLt a.id b.id)) :
    ∀ e ∈ es.take (endBefore es c), lexLt e.id c := by
  intro e he
  obtain ⟨i, hfi, hlen, hget⟩ := mem_take_getD he
  have hspec := binarySearch_spec es c hsorted
  unfold endBefore at hfi
  rcases hbs : binarySearch es c with pos | pos <;> rw [hbs] at hspec hfi
  · simp only at hspec hfi
    have hlt : lexLt (es.getD i default).id (es.getD pos default).id :=
      pairwise_lexLt_getD hsorted hfi hspec.1
    rw [hspec.2] at hlt
    rw [← hget]
    exact hlt
  · simp only at hspec hfi
    rw [← hget]
    exact hspec.2.1 i hfi

/-! ### The query paths of `EventStore::query_events` -/

/-- The shared scan body of the query loops.  `st` is the accumulator pair
`(results, last_examined_id)`: each examined event first checks the limit
(`results.len() >= limit` breaks), then records itself as last examined,
then is appended when `event_matches` accepts it. -/
def scanGo (params : EventQueryParams) :
    List StoredEvent → List EventRow × Option (List Nat) →
      List EventRow × Option (List Nat)
  | [], st => st
  | e :: rest, st =>
    if params.limit ≤ st.1.length then st
    else if eventMatches params e then
      scanGo params rest (st.1 ++ [e.toEventRow], some e.external_id)
    else scanGo params rest (st.1, some e.external_id)

/-- `EventStore::query_single_ledger`. -/
def querySingleLedger (s : EventStore) (seq : Nat) (params : EventQueryParams) :
    EventQueryResult :=
  match s.lookupLedger seq with
  | none => ⟨[], none⟩
  | some part =>
    match params.after with
    | some a =>
      let st := scanGo params (part.events.drop (startAfter part.events a)) ([], none)
      ⟨st.1.reverse, st.2⟩
    | none =>
      let endIdx :=
        match params.before with
        | some b => endBefore part.events b
        | none => part.events.length
      let st := scanGo params ((part.events.take endIdx).reverse) ([], none)
      ⟨st.1, st.2⟩

/-- The `seq < cursor_ledger` skip test of `query_cross_ledger_after`. -/
def skipBelow (cursorLedger : Option Nat) (seq : Nat) : Bool :=
  match cursorLedger with
  | some cl => decide (seq < cl)
  | none => false

/-- The `seq > cursor_ledger` skip test of `query_cross_ledger_before`. -/
def skipAbove (cursorLedger : Option Nat) (seq : Nat) : Bool :=
  match cursorLedger with
  | some cl => decide (cl < seq)
  | none => false

/-- Loop of `query_cross_ledger_after` over the ascending ledger keys. -/
def crossAfterGo (s : EventStore) (a : List Nat) (params : EventQueryParams)
    (cursorLedger : Option Nat) :
    List Nat → List EventRow × Option (List Nat) →
      List EventRow × Option (List Nat)
  | [], st => st
  | seq :: seqs, st =>
    if skipBelow cursorLedger seq then crossAfterGo s a params cursorLedger seqs st
    else if params.limit ≤ st.1.length then st
    else
      match s.lookupLedger seq with
      | none => crossAfterGo s a params cursorLedger seqs st
      | some part =>
        crossAfterGo s a params cursorLedger seqs
          (scanGo params (part.events.drop
            (if cursorLedger = some seq then startAfter part.events a else 0)) st)

/-- `EventStore::query_cross_ledger_after`. -/
def queryCrossLedgerAfter (s : EventStore) (a : List Nat)
    (params : EventQueryParams) : EventQueryResult :=
  let seqs := sortAsc (s.ledgers.map Prod.fst)
  let cursorLedger := (parseEventId a).map (fun q => q.1)
  let st := crossAfterGo s a params cursorLedger seqs ([], none)
  ⟨st.1.reverse, st.2⟩

/-- Loop of `query_cross_ledger_before` over the descending ledger keys. -/
def crossBeforeGo (s : EventStore) (b : List Nat) (params : EventQueryParams)
    (cursorLedger : Option Nat) :
    List Nat → List EventRow × Option (List Nat) →
      List EventRow × Option (List Nat)
  | [], st => st
  | seq :: seqs, st =>
    if skipAbove cursorLedger seq then crossBeforeGo s b params cursorLedger seqs st
    else if params.limit ≤ st.1.length then st
    else
      match s.lookupLedger seq with
      | none => crossBeforeGo s b params cursorLedger seqs st
      | some part =>
        crossBeforeGo s b params cursorLedger seqs
          (scanGo params ((part.events.take
            (if cursorLedger = some seq then endBefore part.events b
             else part.events.length)).reverse) st)

/-- `EventStore::query_cross_ledger_before`. -/
def queryCrossLedgerBefore (s : EventStore) (b : List Nat)
    (params : EventQueryParams) : EventQueryResult :=
  let seqs := sortDesc (s.ledgers.map Prod.fst)
  let cursorLedger := (parseEventId b).map (fun q => q.1)
  let st := crossBeforeGo s b params cursorLedger seqs ([], none)
  ⟨st.1, st.2⟩

/-- `EventStore::query_events` (the dispatch). -/
def queryEvents (s : EventStore) (params : EventQueryParams) : EventQueryResult :=
  let pinned : Option Nat :=
    match params.after.or params.before, params.ledger with
    | none, none => if s.latest_ledger = 0 then none else some s.latest_ledger
    | _, _ => params.ledger
  match pinned with
  | some seq => querySingleLedger s seq params
  | none =>
    match params.after with
    | some a => queryCrossLedgerAfter s a params
    | none =>
      match params.before with
      | some b => queryCrossLedgerBefore s b params
      | none => ⟨[], none⟩

theorem scanGo_stop {params : EventQueryParams} {es : List StoredEvent}
    {st : List EventRow × Option (List Nat)} (h : params.limit ≤ st.1.length) :
    scanGo params es st = st := by
  cases es with
  | nil => rfl
  | cons e rest =>
    show (if params.limit ≤ st.1.length then st else _) = st
    rw [if_pos h]

theorem scanGo_append (params : EventQueryParams) (xs ys : List StoredEvent) :
    ∀ st, scanGo params (xs ++ ys) st = scanGo params ys (scanGo params xs st) := by
  induction xs with
  | nil => intro st; rfl
  | cons e rest ih =>
    intro st
    by_cases hlim : params.limit ≤ st.1.length
    · rw [scanGo_stop hlim, scanGo_stop hlim, scanGo_stop hlim]
    · show (if params.limit ≤ st.1.length then st
        else if eventMatches params e then
          scanGo params (rest ++ ys) (st.1 ++ [e.toEventRow], some e.external_id)
        else scanGo params (rest ++ ys) (st.1, some e.external_id))
        = scanGo params ys (scanGo params (e :: rest) st)
      rw [if_neg hlim]
      show _ = scanGo params ys (if params.limit ≤ st.1.length then st
        else if eventMatches params e then
          scanGo params rest (st.1 ++ [e.toEventRow], some e.external_id)
        else scanGo params rest (st.1, some e.external_id))
      rw [if_neg hlim]
      by_cases hm : eventMatches params e
      · rw [if_pos hm, if_pos hm, ih]
      · rw [if_neg hm, if_neg hm, ih]

/-- The scan appends the rows of a matching subsequence of its input. -/
theorem scanGo_decomp (params : EventQueryParams) :
    ∀ (es : List StoredEvent) (st : List EventRow × Option (List Nat)),
    ∃ sub : List StoredEvent,
      (scanGo params es st).1 = st.1 ++ sub.map StoredEvent.toEventRow ∧
      List.Sublist sub es ∧ ∀ e ∈ sub, eventMatches params e = true := by
  intro es
  induction es with
  | nil =>
    intro st
    exact ⟨[], by simp [scanGo], List.nil_sublist _, by simp⟩
  | cons e rest ih =>
    intro st
    by_cases hlim : params.limit ≤ st.1.length
    · refine ⟨[], ?_, List.nil_sublist _, by simp⟩
      rw [scanGo_stop hlim]
      simp
    · by_cases hm : eventMatches params e
      · obtain ⟨sub, h1, h2, h3⟩ := ih (st.1 ++ [e.toEventRow], some e.external_id)
        refine ⟨e :: sub, ?_, List.Sublist.cons₂ e h2, ?_⟩
        · have hstep : scanGo params (e :: rest) st
              = scanGo params rest (st.1 ++ [e.toEventRow], some e.external_id) := by
            show (if params.limit ≤ st.1.length then st else _) = _
            rw [if_neg hlim, if_pos hm]
          rw [hstep, h1]
          simp
        · intro x hx
          rcases List.mem_cons.mp hx with rfl | hx2
          · exact hm
          · exact h3 x hx2
      · obtain ⟨sub, h1, h2, h3⟩ := ih (st.1, some e.external_id)
        refine ⟨sub, ?_, List.Sublist.cons e h2, h3⟩
        have hstep : scanGo params (e :: rest) st
            = scanGo params rest (st.1, some e.external_id) := by
          show (if params.limit ≤ st.1.length then st else _) = _
          rw [if_neg hlim, if_neg hm]
        rw [hstep, h1]

/-- The events that the iteration of `query_cross_ledger_after` examines
for one ledger key (empty when the key is skipped or the partition is
gone). -/
def afterChunk (s : EventStore) (a : List Nat) (cursorLedger : Option Nat)
    (seq : Nat) : List StoredEvent :=
  if skipBelow cursorLedger seq then []
  else
    match s.lookupLedger seq with
    | none => []
    | some part =>
      part.events.drop
        (if cursorLedger = some seq then startAfter part.events a else 0)

def chunksAfter (s : EventStore) (a : List Nat) (cursorLedger : Option Nat) :
    List Nat → List StoredEvent
  | [] => []
  | seq :: seqs => afterChunk s a cursorLedger seq ++ chunksAfter s a cursorLedger seqs

/-- The events that the iteration of `query_cross_ledger_before` examines
for one ledger key, in examination (reversed) order. -/
def beforeChunk (s : EventStore) (b : List Nat) (cursorLedger : Option Nat)
    (seq : Nat) : List StoredEvent :=
  if skipAbove cursorLedger seq then []
  else
    match s.lookupLedger seq with
    | none => []
    | some part =>
      (part.events.take
        (if cursorLedger = some seq then endBefore part.events b
         else part.events.length)).reverse

def chunksBefore (s : EventStore) (b : List Nat) (cursorLedger : Option Nat) :
    List Nat → List StoredEvent
  | [] => []
  | seq :: seqs => beforeChunk s b cursorLedger seq ++ chunksBefore s b cursorLedger seqs

/-- The cross-ledger `after` loop is the scan of the concatenated chunks. -/
theorem crossAfterGo_eq (s : EventStore) (a : List Nat)
    (params : EventQueryParams) (cl : Option Nat) :
    ∀ (seqs : List Nat) (st : List EventRow × Option (List Nat)),
    crossAfterGo s a params cl seqs st
      = scanGo params (chunksAfter s a cl seqs) st := by
  intro seqs
  induction seqs with
  | nil => intro st; rfl
  | cons seq seqs ih =>
    intro st
    simp only [crossAfterGo, chunksAfter, afterChunk]
    rw [scanGo_append]
    by_cases hskip : skipBelow cl seq = true
    · rw [if_pos hskip, if_pos hskip]
      exact ih st
    · rw [if_neg hskip, if_neg hskip]
      by_cases hlim : params.limit ≤ st.1.length
      · rw [if_pos hlim, scanGo_stop hlim, scanGo_stop hlim]
      · rw [if_neg hlim]
        cases hl : s.lookupLedger seq with
        | none => exact ih st
        | some part => exact ih _

/-- The cross-ledger `before` loop is the scan of the concatenated chunks. -/
theorem crossBeforeGo_eq (s : EventStore) (b : List Nat)
    (params : EventQueryParams) (cl : Option Nat) :
    ∀ (seqs : List Nat) (st : List EventRow × Option (List Nat)),
    crossBeforeGo s b params cl seqs st
      = scanGo params (chunksBefore s b cl seqs) st := by
  intro seqs
  induction seqs with
  | nil => intro st; rfl
  | cons seq seqs ih =>
    intro st
    simp only [crossBeforeGo, chunksBefore, beforeChunk]
    rw [scanGo_append]
    by_cases hskip : skipAbove cl seq = true
    · rw [if_pos hskip, if_pos hskip]
      exact ih st
    · rw [if_neg hskip, if_neg hskip]
      by_cases hlim : params.limit ≤ st.1.length
      · rw [if_pos hlim, scanGo_stop hlim, scanGo_stop hlim]
      · rw [if_neg hlim]
        cases hl : s.lookupLedger seq with
        | none => exact ih st
        | some part => exact ih _

/-- Membership of an event in some partition of the store. -/
def MemStore (s : EventStore) (e : StoredEvent) : Prop :=
  ∃ kv ∈ s.ledgers, e ∈ kv.2.events

/-- The store invariants the maintenance code establishes: distinct ledger
keys that fit `u32`, partitions sorted strictly ascending by internal id,
and every stored event's id in the `event_id` format for its partition's
ledger sequence. -/
def StoreWF (s : EventStore) : Prop :=
  (s.ledgers.map Prod.fst).Nodup ∧
  ∀ kv ∈ s.ledgers, kv.1 < 2 ^ 32 ∧
    kv.2.events.Pairwise (fun x y => lexLt x.id y.id) ∧
    ∀ e ∈ kv.2.events, ∃ p t2 sb ev, e.id = eventIdStr kv.1 p t2 sb ev

/-- A well-formed internal event id: the `event_id` format with components
in the ranges `parse_event_id` accepts. -/
def WFCursor (c : List Nat) : Prop :=
  ∃ cl pa ta sa ea, cl < 2 ^ 32 ∧ pa < 2 ^ 8 ∧ ta < 2 ^ 32 ∧ sa < 2 ^ 8 ∧
    ea < 2 ^ 32 ∧ c = eventIdStr cl pa ta sa ea

theorem lookupLedger_mem {s : EventStore} {seq : Nat} {part : LedgerPartition}
    (h : s.lookupLedger seq = some part) : (seq, part) ∈ s.ledgers := by
  unfold EventStore.lookupLedger at h
  cases hf : s.ledgers.find? (fun kv => kv.1 == seq) with
  | none => rw [hf] at h; simp at h
  | some kv =>
    rw [hf] at h
    simp only [Option.map_some'] at h
    have hmem := List.mem_of_find?_eq_some hf
    have hpred := List.find?_some hf
    have hkey : kv.1 = seq := by simpa using hpred
    have hval : kv.2 = part := by simpa using h
    have : kv = (seq, part) := by
      cases kv
      simp only at hkey hval
      rw [hkey, hval]
    rw [← this]
    exact hmem

theorem afterChunk_mem {s : EventStore} {a : List Nat} {cl : Option Nat}
    {seq : Nat} {e : StoredEvent} (h : e ∈ afterChunk s a cl seq) :
    ∃ part, s.lookupLedger seq = some part ∧ e ∈ part.events := by
  unfold afterChunk at h
  by_cases hskip : skipBelow cl seq = true
  · rw [if_pos hskip] at h
    simp at h
  · rw [if_neg hskip] at h
    cases hl : s.lookupLedger seq with
    | none => rw [hl] at h; simp at h
    | some part =>
      rw [hl] at h
      exact ⟨part, rfl, List.mem_of_mem_drop h⟩

theorem beforeChunk_mem {s : EventStore} {b : List Nat} {cl : Option Nat}
    {seq : Nat} {e : StoredEvent} (h : e ∈ beforeChunk s b cl seq) :
    ∃ part, s.lookupLedger seq = some part ∧ e ∈ part.events := by
  unfold beforeChunk at h
  by_cases hskip : skipAbove cl seq = true
  · rw [if_pos hskip] at h
    simp at h
  · rw [if_neg hskip] at h
    cases hl : s.lookupLedger seq with
    | none => rw [hl] at h; simp at h
    | some part =>
      rw [hl] at h
      rw [List.mem_reverse] at h
      exact ⟨part, rfl, List.mem_of_mem_take h⟩

theorem afterChunk_sorted {s : EventStore} (hwf : StoreWF s) (a : List Nat)
    (cl : Option Nat) (seq : Nat) :
    (afterChunk s a cl seq).Pairwise (fun x y => lexLt x.id y.id) := by
  unfold afterChunk
  by_cases hskip : skipBelow cl seq = true
  · rw [if_pos hskip]
    simp
  · rw [if_neg hskip]
    cases hl : s.lookupLedger seq with
    | none => simp
    | some part =>
      have hp := (hwf.2 _ (lookupLedger_mem hl)).2.1
      exact hp.sublist (List.drop_sublist _ _)

theorem beforeChunk_sorted {s : EventStore} (hwf : StoreWF s) (b : List Nat)
    (cl : Option Nat) (seq : Nat) :
    (beforeChunk s b cl seq).Pairwise (fun x y => lexLt y.id x.id) := by
  unfold beforeChunk
  by_cases hskip : skipAbove cl seq = true
  · rw [if_pos hskip]
    simp
  · rw [if_neg hskip]
    cases hl : s.lookupLedger seq with
    | none => simp
    | some part =>
      have hp := (hwf.2 _ (lookupLedger_mem hl)).2.1
      rw [List.pairwise_reverse]
      exact hp.sublist (List.take_sublist _ _)

theorem afterChunk_form {s : EventStore} (hwf : StoreWF s) {a : List Nat}
    {cl : Option Nat} {seq : Nat} {e : StoredEvent}
    (h : e ∈ afterChunk s a cl seq) :
    seq < 2 ^ 32 ∧ ∃ p t2 sb ev, e.id = eventIdStr seq p t2 sb ev := by
  obtain ⟨part, hl, hmem⟩ := afterChunk_mem h
  have hkv := hwf.2 _ (lookupLedger_mem hl)
  exact ⟨hkv.1, hkv.2.2 e hmem⟩

theorem beforeChunk_form {s : EventStore} (hwf : StoreWF s) {b : List Nat}
    {cl : Option Nat} {seq : Nat} {e : StoredEvent}
    (h : e ∈ beforeChunk s b cl seq) :
    seq < 2 ^ 32 ∧ ∃ p t2 sb ev, e.id = eventIdStr seq p t2 sb ev := by
  obtain ⟨part, hl, hmem⟩ := beforeChunk_mem h
  have hkv := hwf.2 _ (lookupLedger_mem hl)
  exact ⟨hkv.1, hkv.2.2 e hmem⟩

theorem pow32_lt_pow10 : (2 : Nat) ^ 32 < 10 ^ 10 := by norm_num

theorem afterChunk_bound {s : EventStore} (hwf : StoreWF s)
    {clv pa ta sa ea : Nat} (hclv : clv < 2 ^ 32)
    {seq : Nat} {e : StoredEvent}
    (h : e ∈ afterChunk s (eventIdStr clv pa ta sa ea) (some clv) seq) :
    lexLt (eventIdStr clv pa ta sa ea) e.id := by
  have hform := afterChunk_form hwf h
  unfold afterChunk at h
  by_cases hskip : skipBelow (some clv) seq = true
  · rw [if_pos hskip] at h
    simp at h
  · rw [if_neg hskip] at h
    have hge : clv ≤ seq := by
      unfold skipBelow at hskip
      simp at hskip
      omega
    cases hl : s.lookupLedger seq with
    | none => rw [hl] at h; simp at h
    | some part =>
      simp only [hl] at h
      by_cases heq : (some clv : Option Nat) = some seq
      · rw [if_pos heq] at h
        have hsorted := (hwf.2 _ (lookupLedger_mem hl)).2.1
        exact startAfter_bound hsorted e h
      · rw [if_neg heq] at h
        have hne : clv ≠ seq := fun hcc => heq (by rw [hcc])
        obtain ⟨hseq32, p, t2, sb, ev, hid⟩ := hform
        rw [hid]
        unfold lexLt
        rw [listCmp_eventIdStr_ledger pa ta sa ea p t2 sb ev
          (lt_trans hclv pow32_lt_pow10) (lt_trans hseq32 pow32_lt_pow10) hne]
        exact natCmp_lt_iff.mpr (by omega)

theorem beforeChunk_bound {s : EventStore} (hwf : StoreWF s)
    {clv pa ta sa ea : Nat} (hclv : clv < 2 ^ 32)
    {seq : Nat} {e : StoredEvent}
    (h : e ∈ beforeChunk s (eventIdStr clv pa ta sa ea) (some clv) seq) :
    lexLt e.id (eventIdStr clv pa ta sa ea) := by
  have hform := beforeChunk_form hwf h
  unfold beforeChunk at h
  by_cases hskip : skipAbove (some clv) seq = true
  · rw [if_pos hskip] at h
    simp at h
  · rw [if_neg hskip] at h
    have hge : seq ≤ clv := by
      unfold skipAbove at hskip
      simp at hskip
      omega
    cases hl : s.lookupLedger seq with
    | none => rw [hl] at h; simp at h
    | some part =>
      simp only [hl] at h
      rw [List.mem_reverse] at h
      by_cases heq : (some clv : Option Nat) = some seq
      · rw [if_pos heq] at h
        have hsorted := (hwf.2 _ (lookupLedger_mem hl)).2.1
        exact endBefore_bound hsorted e h
      · rw [if_neg heq] at h
        have hne : clv ≠ seq := fun hcc => heq (by rw [hcc])
        obtain ⟨hseq32, p, t2, sb, ev, hid⟩ := hform
        rw [hid]
        unfold lexLt
        rw [listCmp_eventIdStr_ledger p t2 sb ev pa ta sa ea
          (lt_trans hseq32 pow32_lt_pow10) (lt_trans hclv pow32_lt_pow10)
          (Ne.symm hne)]
        exact natCmp_lt_iff.mpr (by omega)

theorem afterChunk_cross {s : EventStore} (hwf : StoreWF s) {a : List Nat}
    {cl : Option Nat} {seq1 seq2 : Nat} (hlt : seq1 < seq2)
    {e1 e2 : StoredEvent} (h1 : e1 ∈ afterChunk s a cl seq1)
    (h2 : e2 ∈ afterChunk s a cl seq2) : lexLt e1.id e2.id := by
  obtain ⟨hs1, p1, t1, sb1, ev1, hid1⟩ := afterChunk_form hwf h1
  obtain ⟨hs2, p2, t2, sb2, ev2, hid2⟩ := afterChunk_form hwf h2
  rw [hid1, hid2]
  unfold lexLt
  rw [listCmp_eventIdStr_ledger p1 t1 sb1 ev1 p2 t2 sb2 ev2
    (lt_trans hs1 pow32_lt_pow10) (lt_trans hs2 pow32_lt_pow10) (by omega)]
  exact natCmp_lt_iff.mpr hlt

theorem beforeChunk_cross {s : EventStore} (hwf : StoreWF s) {b : List Nat}
    {cl : Option Nat} {seq1 seq2 : Nat} (hgt : seq2 < seq1)
    {e1 e2 : StoredEvent} (h1 : e1 ∈ beforeChunk s b cl seq1)
    (h2 : e2 ∈ beforeChunk s b cl seq2) : lexLt e2.id e1.id := by
  obtain ⟨hs1, p1, t1, sb1, ev1, hid1⟩ := beforeChunk_form hwf h1
  obtain ⟨hs2, p2, t2, sb2, ev2, hid2⟩ := beforeChunk_form hwf h2
  rw [hid1, hid2]
  unfold lexLt
  rw [listCmp_eventIdStr_ledger p2 t2 sb2 ev2 p1 t1 sb1 ev1
    (lt_trans hs2 pow32_lt_pow10) (lt_trans hs1 pow32_lt_pow10) (by omega)]
  exact natCmp_lt_iff.mpr hgt

theorem mem_chunksAfter {s : EventStore} {a : List Nat} {cl : Option Nat} :
    ∀ {seqs : List Nat} {e : StoredEvent}, e ∈ chunksAfter s a cl seqs →
    ∃ seq ∈ seqs, e ∈ afterChunk s a cl seq := by
  intro seqs
  induction seqs with
  | nil => intro e h; simp [chunksAfter] at h
  | cons seq seqs ih =>
    intro e h
    rcases List.mem_append.mp h with h1 | h2
    · exact ⟨seq, List.mem_cons_self seq seqs, h1⟩
    · obtain ⟨seq2, hseq2, h3⟩ := ih h2
      exact ⟨seq2, List.mem_cons_of_mem seq hseq2, h3⟩

theorem mem_chunksBefore {s : EventStore} {b : List Nat} {cl : Option Nat} :
    ∀ {seqs : List Nat} {e : StoredEvent}, e ∈ chunksBefore s b cl seqs →
    ∃ seq ∈ seqs, e ∈ beforeChunk s b cl seq := by
  intro seqs
  induction seqs with
  | nil => intro e h; simp [chunksBefore] at h
  | cons seq seqs ih =>
    intro e h
    rcases List.mem_append.mp h with h1 | h2
    · exact ⟨seq, List.mem_cons_self seq seqs, h1⟩
    · obtain ⟨seq2, hseq2, h3⟩ := ih h2
      exact ⟨seq2, List.mem_cons_of_mem seq hseq2, h3⟩

theorem chunksAfter_sorted {s : EventStore} (hwf : StoreWF s) (a : List Nat)
    (cl : Option Nat) :
    ∀ {seqs : List Nat}, seqs.Pairwise (· < ·) →
    (chunksAfter s a cl seqs).Pairwise (fun x y => lexLt x.id y.id) := by
  intro seqs
  induction seqs with
  | nil => intro _; simp [chunksAfter]
  | cons seq seqs ih =>
    intro h
    rcases List.pairwise_cons.mp h with ⟨hseq, hseqs⟩
    show (afterChunk s a cl seq ++ chunksAfter s a cl seqs).Pairwise _
    rw [List.pairwise_append]
    refine ⟨afterChunk_sorted hwf a cl seq, ih hseqs, ?_⟩
    intro x hx y hy
    obtain ⟨seq2, hseq2, hy2⟩ := mem_chunksAfter hy
    exact afterChunk_cross hwf (hseq seq2 hseq2) hx hy2

theorem chunksBefore_sorted {s : EventStore} (hwf : StoreWF s) (b : List Nat)
    (cl : Option Nat) :
    ∀ {seqs : List Nat}, seqs.Pairwise (· > ·) →
    (chunksBefore s b cl seqs).Pairwise (fun x y => lexLt y.id x.id) := by
  intro seqs
  induction seqs with
  | nil => intro _; simp [chunksBefore]
  | cons seq seqs ih =>
    intro h
    rcases List.pairwise_cons.mp h with ⟨hseq, hseqs⟩
    show (beforeChunk s b cl seq ++ chunksBefore s b cl seqs).Pairwise _
    rw [List.pairwise_append]
    refine ⟨beforeChunk_sorted hwf b cl seq, ih hseqs, ?_⟩
    intro x hx y hy
    obtain ⟨seq2, hseq2, hy2⟩ := mem_chunksBefore hy
    exact beforeChunk_cross hwf (hseq seq2 hseq2) hx hy2

theorem querySingleLedger_decomp {s : EventStore} (hwf : StoreWF s)
    (seq : Nat) (params : EventQueryParams) :
    ∃ es : List StoredEvent,
      (querySingleLedger s seq params).data = es.map StoredEvent.toEventRow ∧
      (∀ e ∈ es, MemStore s e) ∧
      es.Pairwise (fun x y => lexLt y.id x.id) ∧
      (∀ a, params.after = some a → ∀ e ∈ es, lexLt a e.id) ∧
      (params.after = none → ∀ b, params.before = some b → ∀ e ∈ es, lexLt e.id b) := by
  unfold querySingleLedger
  cases hl : s.lookupLedger seq with
  | none =>
    refine ⟨[], by simp, by simp, by simp, ?_, ?_⟩
    · intro a _ e he
      simp at he
    · intro _ b _ e he
      simp at he
  | some part =>
    have hkv := hwf.2 _ (lookupLedger_mem hl)
    have hsorted := hkv.2.1
    cases hpa : params.after with
    | some a =>
      obtain ⟨sub, h1, h2, h3⟩ :=
        scanGo_decomp params (part.events.drop (startAfter part.events a)) ([], none)
      refine ⟨sub.reverse, ?_, ?_, ?_, ?_, ?_⟩
      · show (scanGo params (part.events.drop (startAfter part.events a))
            ([], none)).1.reverse = sub.reverse.map StoredEvent.toEventRow
        rw [h1]
        simp [List.map_reverse]
      · intro e he
        rw [List.mem_reverse] at he
        exact ⟨(seq, part), lookupLedger_mem hl,
          List.mem_of_mem_drop (h2.mem he)⟩
      · rw [List.pairwise_reverse]
        exact (hsorted.sublist (List.drop_sublist _ _)).sublist h2
      · intro a' ha' e he
        have haa : a' = a := (Option.some.inj ha').symm
        rw [haa]
        rw [List.mem_reverse] at he
        exact startAfter_bound hsorted e (h2.mem he)
      · intro hnone
        exact absurd hnone (by simp)
    | none =>
      cases hpb : params.before with
      | some b =>
        obtain ⟨sub, h1, h2, h3⟩ :=
          scanGo_decomp params ((part.events.take (endBefore part.events b)).reverse)
            ([], none)
        refine ⟨sub, ?_, ?_, ?_, ?_, ?_⟩
        · show (scanGo params ((part.events.take (endBefore part.events b)).reverse)
              ([], none)).1 = sub.map StoredEvent.toEventRow
          rw [h1]
          simp
        · intro e he
          have := h2.mem he
          rw [List.mem_reverse] at this
          exact ⟨(seq, part), lookupLedger_mem hl, List.mem_of_mem_take this⟩
        · refine List.Pairwise.sublist h2 ?_
          rw [List.pairwise_reverse]
          exact hsorted.sublist (List.take_sublist _ _)
        · intro a' ha' e he
          exact absurd ha' (by simp)
        · intro _ b' hb' e he
          have hbb : b' = b := (Option.some.inj hb').symm
          rw [hbb]
          have := h2.mem he
          rw [List.mem_reverse] at this
          exact endBefore_bound hsorted e this
      | none =>
        obtain ⟨sub, h1, h2, h3⟩ :=
          scanGo_decomp params ((part.events.take part.events.length).reverse)
            ([], none)
        refine ⟨sub, ?_, ?_, ?_, ?_, ?_⟩
        · show (scanGo params ((part.events.take part.events.length).reverse)
              ([], none)).1 = sub.map StoredEvent.toEventRow
          rw [h1]
          simp
        · intro e he
          have := h2.mem he
          rw [List.mem_reverse] at this
          exact ⟨(seq, part), lookupLedger_mem hl, List.mem_of_mem_take this⟩
        · refine List.Pairwise.sublist h2 ?_
          rw [List.pairwise_reverse]
          exact hsorted.sublist (List.take_sublist _ _)
        · intro a' ha' e he
          exact absurd ha' (by simp)
        · intro _ b' hb' e he
          exact absurd hb' (by simp)

theorem queryCrossAfter_decomp {s : EventStore} (hwf : StoreWF s)
    (a : List Nat) (params : EventQueryParams) :
    ∃ es : List StoredEvent,
      (queryCrossLedgerAfter s a params).data = es.map StoredEvent.toEventRow ∧
      (∀ e ∈ es, MemStore s e) ∧
      es.Pairwise (fun x y => lexLt y.id x.id) ∧
      (WFCursor a → ∀ e ∈ es, lexLt a e.id) := by
  obtain ⟨sub, h1, h2, h3⟩ := scanGo_decomp params
    (chunksAfter s a ((parseEventId a).map (fun q => q.1))
      (sortAsc (s.ledgers.map Prod.fst))) ([], none)
  refine ⟨sub.reverse, ?_, ?_, ?_, ?_⟩
  · show (crossAfterGo s a params ((parseEventId a).map (fun q => q.1))
        (sortAsc (s.ledgers.map Prod.fst)) ([], none)).1.reverse
      = sub.reverse.map StoredEvent.toEventRow
    rw [crossAfterGo_eq, h1]
    simp [List.map_reverse]
  · intro e he
    rw [List.mem_reverse] at he
    obtain ⟨seq2, hseq2, hch⟩ := mem_chunksAfter (h2.mem he)
    obtain ⟨part, hl, hmem⟩ := afterChunk_mem hch
    exact ⟨(seq2, part), lookupLedger_mem hl, hmem⟩
  · rw [List.pairwise_reverse]
    exact (chunksAfter_sorted hwf a _ (sortAsc_pairwise_lt hwf.1)).sublist h2
  · intro hcur e he
    rw [List.mem_reverse] at he
    obtain ⟨clv, pa2, ta2, sa2, ea2, hclv, hpa2, hta2, hsa2, hea2, hceq⟩ := hcur
    have hparse : parseEventId a = some (clv, pa2, ta2, sa2, ea2) := by
      rw [hceq]
      exact parseEventId_eventIdStr hclv hpa2 hta2 hsa2 hea2
    obtain ⟨seq2, hseq2, hch⟩ := mem_chunksAfter (h2.mem he)
    simp only [hparse, Option.map_some'] at hch
    rw [hceq] at hch ⊢
    exact afterChunk_bound hwf hclv hch

theorem queryCrossBefore_decomp {s : EventStore} (hwf : StoreWF s)
    (b : List Nat) (params : EventQueryParams) :
    ∃ es : List StoredEvent,
      (queryCrossLedgerBefore s b params).data = es.map StoredEvent.toEventRow ∧
      (∀ e ∈ es, MemStore s e) ∧
      es.Pairwise (fun x y => lexLt y.id x.id) ∧
      (WFCursor b → ∀ e ∈ es, lexLt e.id b) := by
  obtain ⟨sub, h1, h2, h3⟩ := scanGo_decomp params
    (chunksBefore s b ((parseEventId b).map (fun q => q.1))
      (sortDesc (s.ledgers.map Prod.fst))) ([], none)
  refine ⟨sub, ?_, ?_, ?_, ?_⟩
  · show (crossBeforeGo s b params ((parseEventId b).map (fun q => q.1))
        (sortDesc (s.ledgers.map Prod.fst)) ([], none)).1
      = sub.map StoredEvent.toEventRow
    rw [crossBeforeGo_eq, h1]
    simp
  · intro e he
    obtain ⟨seq2, hseq2, hch⟩ := mem_chunksBefore (h2.mem he)
    obtain ⟨part, hl, hmem⟩ := beforeChunk_mem hch
    exact ⟨(seq2, part), lookupLedger_mem hl, hmem⟩
  · exact (chunksBefore_sorted hwf b _ (sortDesc_pairwise_gt hwf.1)).sublist h2
  · intro hcur e he
    obtain ⟨clv, pa2, ta2, sa2, ea2, hclv, hpa2, hta2, hsa2, hea2, hceq⟩ := hcur
    have hparse : parseEventId b = some (clv, pa2, ta2, sa2, ea2) := by
      rw [hceq]
      exact parseEventId_eventIdStr hclv hpa2 hta2 hsa2 hea2
    obtain ⟨seq2, hseq2, hch⟩ := mem_chunksBefore (h2.mem he)
    simp only [hparse, Option.map_some'] at hch
    rw [hceq] at hch ⊢
    exact beforeChunk_bound hwf hclv hch

theorem queryEvents_after_ledger {s : EventStore} {params : EventQueryParams}
    {a : List Nat} {seq : Nat} (hpa : params.after = some a)
    (hpl : params.ledger = some seq) :
    queryEvents s params = querySingleLedger s seq params := by
  unfold queryEvents
  rw [hpa, hpl]
  rfl

theorem queryEvents_after_noledger {s : EventStore} {params : EventQueryParams}
    {a : List Nat} (hpa : params.after = some a) (hpl : params.ledger = none) :
    queryEvents s params = queryCrossLedgerAfter s a params := by
  unfold queryEvents
  rw [hpa, hpl]
  rfl

theorem queryEvents_before_ledger {s : EventStore} {params : EventQueryParams}
    {b : List Nat} {seq : Nat} (hpa : params.after = none)
    (hpb : params.before = some b) (hpl : params.ledger = some seq) :
    queryEvents s params = querySingleLedger s seq params := by
  unfold queryEvents
  rw [hpa, hpb, hpl]
  rfl

theorem queryEvents_before_noledger {s : EventStore} {params : EventQueryParams}
    {b : List Nat} (hpa : params.after = none) (hpb : params.before = some b)
    (hpl : params.ledger = none) :
    queryEvents s params = queryCrossLedgerBefore s b params := by
  unfold queryEvents
  rw [hpa, hpb, hpl]
  rfl

theorem queryEvents_nocursor_ledger {s : EventStore} {params : EventQueryParams}
    {seq : Nat} (hpa : params.after = none) (hpb : params.before = none)
    (hpl : params.ledger = some seq) :
    queryEvents s params = querySingleLedger s seq params := by
  unfold queryEvents
  rw [hpa, hpb, hpl]
  rfl

theorem queryEvents_nocursor_noledger {s : EventStore} {params : EventQueryParams}
    (hpa : params.after = none) (hpb : params.before = none)
    (hpl : params.ledger = none) :
    queryEvents s params = (if s.latest_ledger = 0 then ⟨[], none⟩
      else querySingleLedger s s.latest_ledger params) := by
  unfold queryEvents
  rw [hpa, hpb, hpl]
  by_cases h : s.latest_ledger = 0
  · rw [if_pos h, if_pos h]
    rfl
  · rw [if_neg h, if_neg h]
    rfl

/-- Master decomposition of `query_events`: the returned rows are the
row images of a descending chain of store events, with the cursor bounds
when the cursor is a well-formed internal id. -/
theorem queryEvents_decomp {s : EventStore} (hwf : StoreWF s)
    (params : EventQueryParams) :
    ∃ es : List StoredEvent,
      (queryEvents s params).data = es.map StoredEvent.toEventRow ∧
      (∀ e ∈ es, MemStore s e) ∧
      es.Pairwise (fun x y => lexLt y.id x.id) ∧
      (∀ a, params.after = some a → WFCursor a → ∀ e ∈ es, lexLt a e.id) ∧
      (params.after = none → ∀ b, params.before = some b → WFCursor b →
        ∀ e ∈ es, lexLt e.id b) := by
  cases hpa : params.after with
  | some a =>
    cases hpl : params.ledger with
    | some seq =>
      rw [queryEvents_after_ledger hpa hpl]
      obtain ⟨es, h1, h2, h3, h4, h5⟩ := querySingleLedger_decomp hwf seq params
      refine ⟨es, h1, h2, h3, ?_, ?_⟩
      · intro a' ha' _ e he
        have haa : a' = a := (Option.some.inj ha').symm
        rw [haa]
        exact h4 a hpa e he
      · intro hnone
        exact absurd hnone (by simp)
    | none =>
      rw [queryEvents_after_noledger hpa hpl]
      obtain ⟨es, h1, h2, h3, h4⟩ := queryCrossAfter_decomp hwf a params
      refine ⟨es, h1, h2, h3, ?_, ?_⟩
      · intro a' ha' hcur e he
        have haa : a' = a := (Option.some.inj ha').symm
        rw [haa] at hcur ⊢
        exact h4 hcur e he
      · intro hnone
        exact absurd hnone (by simp)
  | none =>
    cases hpb : params.before with
    | some b =>
      cases hpl : params.ledger with
      | some seq =>
        rw [queryEvents_before_ledger hpa hpb hpl]
        obtain ⟨es, h1, h2, h3, h4, h5⟩ := querySingleLedger_decomp hwf seq params
        refine ⟨es, h1, h2, h3, ?_, ?_⟩
        · intro a' ha' _ e he
          exact absurd ha' (by simp)
        · intro _ b' hb' _ e he
          have hbb : b' = b := (Option.some.inj hb').symm
          rw [hbb]
          exact h5 hpa b hpb e he
      | none =>
        rw [queryEvents_before_noledger hpa hpb hpl]
        obtain ⟨es, h1, h2, h3, h4⟩ := queryCrossBefore_decomp hwf b params
        refine ⟨es, h1, h2, h3, ?_, ?_⟩
        · intro a' ha' _ e he
          exact absurd ha' (by simp)
        · intro _ b' hb' hcur e he
          have hbb : b' = b := (Option.some.inj hb').symm
          rw [hbb] at hcur ⊢
          exact h4 hcur e he
    | none =>
      cases hpl : params.ledger with
      | some seq =>
        rw [queryEvents_nocursor_ledger hpa hpb hpl]
        obtain ⟨es, h1, h2, h3, h4, h5⟩ := querySingleLedger_decomp hwf seq params
        refine ⟨es, h1, h2, h3, ?_, ?_⟩
        · intro a' ha' _ e he
          exact absurd ha' (by simp)
        · intro _ b' hb' _ e he
          exact absurd hb' (by simp)
      | none =>
        rw [queryEvents_nocursor_noledger hpa hpb hpl]
        by_cases hz : s.latest_ledger = 0
        · rw [if_pos hz]
          refine ⟨[], by simp, by simp, by simp, ?_, ?_⟩
          · intro a' ha' _ e he
            simp at he
          · intro _ b' hb' _ e he
            simp at he
        · rw [if_neg hz]
          obtain ⟨es, h1, h2, h3, h4, h5⟩ :=
            querySingleLedger_decomp hwf s.latest_ledger params
          refine ⟨es, h1, h2, h3, ?_, ?_⟩
          · intro a' ha' _ e he
            exact absurd ha' (by simp)
          · intro _ b' hb' _ e he
            exact absurd hb' (by simp)

/-- C1: for every well-formed store and every query whose cursor is a
well-formed internal event id `c`, `query_events` with `after = c` returns
only events whose internal id is strictly above `c` (so none with id ≤ c),
and with `before = c` (and no `after`) only events whose internal id is
strictly below `c` (so none with id ≥ c); this covers the single-ledger
path and both cross-ledger paths, which `query_events` dispatches to. -/
theorem c1_cursor_bounds (s : EventStore) (params : EventQueryParams)
    (c : List Nat) (hwf : StoreWF s) (hc : WFCursor c) :
    (params.after = some c →
      ∃ es : List StoredEvent,
        (queryEvents s params).data = es.map StoredEvent.toEventRow ∧
        ∀ e ∈ es, MemStore s e ∧ lexLt c e.id ∧
          ¬ (lexLt e.id c ∨ e.id = c)) ∧
    (params.after = none → params.before = some c →
      ∃ es : List StoredEvent,
        (queryEvents s params).data = es.map StoredEvent.toEventRow ∧
        ∀ e ∈ es, MemStore s e ∧ lexLt e.id c ∧
          ¬ (lexLt c e.id ∨ e.id = c)) := by
  obtain ⟨es, h1, h2, h3, h4, h5⟩ := queryEvents_decomp hwf params
  constructor
  · intro hpa
    refine ⟨es, h1, ?_⟩
    intro e he
    have hgt := h4 c hpa hc e he
    refine ⟨h2 e he, hgt, ?_⟩
    rintro (hlt | heq)
    · exact lexLt_irrefl _ (lexLt_trans hlt hgt)
    · exact lexLt_irrefl c (heq ▸ hgt)
  · intro hpa hpb
    refine ⟨es, h1, ?_⟩
    intro e he
    have hlt := h5 hpa c hpb hc e he
    refine ⟨h2 e he, hlt, ?_⟩
    rintro (hgt | heq)
    · exact lexLt_irrefl _ (lexLt_trans hlt hgt)
    · rw [heq] at hlt
      exact lexLt_irrefl c hlt

/-- C2: for every well-formed store and every query, the `data` list
returned by `query_events` is the row image of a list of store events that
is strictly descending in the byte-wise order of their internal ids —
on the single-ledger path and on both cross-ledger paths. -/
theorem c2_descending_order (s : EventStore) (params : EventQueryParams)
    (hwf : StoreWF s) :
    ∃ es : List StoredEvent,
      (queryEvents s params).data = es.map StoredEvent.toEventRow ∧
      (∀ e ∈ es, MemStore s e) ∧
      es.Pairwise (fun x y => lexLt y.id x.id) := by
  obtain ⟨es, h1, h2, h3, _, _⟩ := queryEvents_decomp hwf params
  exact ⟨es, h1, h2, h3⟩

/-- A concrete stored event (ledger 5, phase 0). -/
def evA : StoredEvent :=
  { id := eventIdStr 5 0 0 0 0, external_id := [97], ledger_sequence := 5,
    ledger_closed_at := [], contract_id := none, event_type := 0,
    event_type_str := strContract, topics := .arr [], data := .null,
    tx_hash := [] }

/-- A concrete stored event (ledger 5, phase 1). -/
def evB : StoredEvent :=
  { id := eventIdStr 5 1 2 0 3, external_id := [98], ledger_sequence := 5,
    ledger_closed_at := [], contract_id := none, event_type := 0,
    event_type_str := strContract, topics := .arr [], data := .null,
    tx_hash := [] }

/-- A concrete well-formed store with one two-event partition. -/
def storeW : EventStore :=
  { ledgers := [(5, ⟨[evA, evB], 100⟩)], latest_ledger := 5,
    sync_state := [], cache_ttl_seconds := 3600 }

theorem storeW_wf : StoreWF storeW := by
  refine ⟨by decide, ?_⟩
  intro kv hkv
  have hkv2 : kv = (5, ⟨[evA, evB], 100⟩) := by
    simpa [storeW] using hkv
  subst hkv2
  refine ⟨by decide, ?_, ?_⟩
  · refine List.pairwise_cons.mpr ⟨?_, ?_⟩
    · intro e he
      have he2 : e = evB := by simpa using he
      subst he2
      decide
    · simp
  · intro e he
    rcases (by simpa using he : e = evA ∨ e = evB) with rfl | rfl
    · exact ⟨0, 0, 0, 0, rfl⟩
    · exact ⟨1, 2, 0, 3, rfl⟩

theorem wfCursorW : WFCursor (eventIdStr 5 0 0 0 0) :=
  ⟨5, 0, 0, 0, 0, by decide, by decide, by decide, by decide, by decide, rfl⟩

/-- Witness for C1 at a concrete store, query and cursor. -/
theorem c1_witness :
    StoreWF storeW ∧ WFCursor (eventIdStr 5 0 0 0 0) ∧
    (∃ es : List StoredEvent,
      (queryEvents storeW
          { limit := 10, after := some (eventIdStr 5 0 0 0 0) }).data
        = es.map StoredEvent.toEventRow ∧
      ∀ e ∈ es, MemStore storeW e ∧ lexLt (eventIdStr 5 0 0 0 0) e.id ∧
        ¬ (lexLt e.id (eventIdStr 5 0 0 0 0) ∨ e.id = eventIdStr 5 0 0 0 0)) :=
  ⟨storeW_wf, wfCursorW,
    (c1_cursor_bounds storeW
        { limit := 10, after := some (eventIdStr 5 0 0 0 0) }
        (eventIdStr 5 0 0 0 0) storeW_wf wfCursorW).1 rfl⟩

/-- Witness for C2 at a concrete store and query. -/
theorem c2_witness :
    ∃ es : List StoredEvent,
      (queryEvents storeW { limit := 10 }).data = es.map StoredEvent.toEventRow ∧
      (∀ e ∈ es, MemStore storeW e) ∧
      es.Pairwise (fun x y => lexLt y.id x.id) :=
  c2_descending_order storeW { limit := 10 } storeW_wf

/-! ### Store maintenance (`insert_events`, `record_ledger_cached`,
`cleanup_expired`)

`insert_events` processes each ledger group: if the key is already cached
it skips it, otherwise it builds the partition (sorted events, an
`expires_at` of `now + cache_ttl_seconds`), inserts it and raises
`latest_ledger` with `fetch_max`.  The contents of the built partition
never influence the key set or `latest_ledger`, so the per-group step is
modelled with the stored-event vector as a parameter. -/

/-- One per-ledger group iteration of `insert_events`. -/
def EventStore.insertLedgerStep (s : EventStore) (seq : Nat)
    (es : List StoredEvent) (now : Int) : EventStore :=
  if seq ∈ s.ledgers.map Prod.fst then s
  else
    { s with
      ledgers := (seq, ⟨es, now + s.cache_ttl_seconds⟩) :: s.ledgers,
      latest_ledger := max s.latest_ledger seq }

/-- `record_ledger_cached`: insert an empty partition when the key is not
present, raising `latest_ledger` with `fetch_max`. -/
def EventStore.recordLedgerCached (s : EventStore) (seq : Nat) (now : Int) :
    EventStore :=
  if seq ∈ s.ledgers.map Prod.fst then s
  else
    { s with
      ledgers := (seq, ⟨[], now + s.cache_ttl_seconds⟩) :: s.ledgers,
      latest_ledger := max s.latest_ledger seq }

/-- `self.ledgers.iter().map(|kv| *kv.key()).max().unwrap_or(0)`. -/
def maxKey (l : List (Nat × LedgerPartition)) : Nat :=
  (l.map Prod.fst).foldr max 0

/-- `cleanup_expired`: drop every partition with `expires_at <= now`
(the collected `expired` keys), count them, and recompute `latest_ledger`
(only) when at least one was removed.  Returns the new store and the
removed count. -/
def EventStore.cleanupExpired (s : EventStore) (now : Int) : EventStore × Nat :=
  if 0 < ((s.ledgers.filter (fun kv => decide (kv.2.expires_at ≤ now))).map Prod.fst).length then
    ({ s with
       ledgers := s.ledgers.filter (fun kv => decide (now < kv.2.expires_at)),
       latest_ledger :=
         maxKey (s.ledgers.filter (fun kv => decide (now < kv.2.expires_at))) },
      ((s.ledgers.filter (fun kv => decide (kv.2.expires_at ≤ now))).map Prod.fst).length)
  else
    ({ s with ledgers := s.ledgers.filter (fun kv => decide (now < kv.2.expires_at)) },
      ((s.ledgers.filter (fun kv => decide (kv.2.expires_at ≤ now))).map Prod.fst).length)

/-- The store states reachable from `EventStore::new` by any sequence of
`insert_events` groups, `record_ledger_cached` and `cleanup_expired`
calls, at arbitrary clock readings. -/
inductive Reachable : EventStore → Prop where
  | init (ttl : Int) :
      Reachable
        { ledgers := [], latest_ledger := 0, sync_state := [],
          cache_ttl_seconds := ttl }
  | insert {s : EventStore} (h : Reachable s) (seq : Nat)
      (es : List StoredEvent) (now : Int) :
      Reachable (s.insertLedgerStep seq es now)
  | record {s : EventStore} (h : Reachable s) (seq : Nat) (now : Int) :
      Reachable (s.recordLedgerCached seq now)
  | cleanup {s : EventStore} (h : Reachable s) (now : Int) :
      Reachable (s.cleanupExpired now).1

theorem maxKey_cons (kv : Nat × LedgerPartition) (l : List (Nat × LedgerPartition)) :
    maxKey (kv :: l) = max kv.1 (maxKey l) := rfl

theorem filter_all_of_none_expired {l : List (Nat × LedgerPartition)} {now : Int}
    (h : (l.filter (fun kv => decide (kv.2.expires_at ≤ now))).length = 0) :
    l.filter (fun kv => decide (now < kv.2.expires_at)) = l := by
  induction l with
  | nil => rfl
  | cons kv rest ih =>
    rw [List.filter_cons] at h ⊢
    by_cases hkv : kv.2.expires_at ≤ now
    · rw [if_pos (by simpa using hkv)] at h
      simp at h
    · rw [if_neg (by simpa using hkv)] at h
      rw [if_pos (by simp; omega)]
      rw [ih h]

/-- Invariant: `latest_ledger` is always the maximum ledger key (0 when
the map is empty). -/
theorem reachable_latest_eq_maxKey {s : EventStore} (h : Reachable s) :
    s.latest_ledger = maxKey s.ledgers := by
  induction h with
  | init ttl => rfl
  | @insert s h seq es now ih =>
    show (s.insertLedgerStep seq es now).latest_ledger
      = maxKey (s.insertLedgerStep seq es now).ledgers
    unfold EventStore.insertLedgerStep
    by_cases hc : seq ∈ s.ledgers.map Prod.fst
    · rw [if_pos hc]
      exact ih
    · rw [if_neg hc]
      show max s.latest_ledger seq
        = maxKey ((seq, ⟨es, now + s.cache_ttl_seconds⟩) :: s.ledgers)
      rw [maxKey_cons, ← ih]
      show max s.latest_ledger seq = max seq s.latest_ledger
      omega
  | @record s h seq now ih =>
    show (s.recordLedgerCached seq now).latest_ledger
      = maxKey (s.recordLedgerCached seq now).ledgers
    unfold EventStore.recordLedgerCached
    by_cases hc : seq ∈ s.ledgers.map Prod.fst
    · rw [if_pos hc]
      exact ih
    · rw [if_neg hc]
      show max s.latest_ledger seq
        = maxKey ((seq, ⟨[], now + s.cache_ttl_seconds⟩) :: s.ledgers)
      rw [maxKey_cons, ← ih]
      show max s.latest_ledger seq = max seq s.latest_ledger
      omega
  | @cleanup s h now ih =>
    show (s.cleanupExpired now).1.latest_ledger
      = maxKey (s.cleanupExpired now).1.ledgers
    unfold EventStore.cleanupExpired
    by_cases hc : 0 < ((s.ledgers.filter
        (fun kv => decide (kv.2.expires_at ≤ now))).map Prod.fst).length
    · rw [if_pos hc]
    · rw [if_neg hc]
      have h0 : (s.ledgers.filter
          (fun kv => decide (kv.2.expires_at ≤ now))).length = 0 := by
        rw [List.length_map] at hc
        omega
      show s.latest_ledger
        = maxKey (s.ledgers.filter (fun kv => decide (now < kv.2.expires_at)))
      rw [filter_all_of_none_expired h0]
      exact ih

/-- `EventStore::new(3600)`. -/
def freshStore : EventStore :=
  { ledgers := [], latest_ledger := 0, sync_state := [], cache_ttl_seconds := 3600 }

theorem maxKey_pos_iff (l : List (Nat × LedgerPartition)) :
    0 < maxKey l ↔ ∃ kv ∈ l, 0 < kv.1 := by
  induction l with
  | nil => simp [maxKey]
  | cons kv rest ih =>
    rw [maxKey_cons]
    constructor
    · intro h
      rcases Nat.lt_or_ge 0 kv.1 with h1 | h1
      · exact ⟨kv, List.mem_cons_self _ _, h1⟩
      · have h2 : 0 < maxKey rest := by omega
        obtain ⟨kv2, hm, hp⟩ := ih.mp h2
        exact ⟨kv2, List.mem_cons_of_mem _ hm, hp⟩
    · rintro ⟨kv2, hm, hp⟩
      rcases List.mem_cons.mp hm with rfl | hm2
      · omega
      · have := ih.mpr ⟨kv2, hm2, hp⟩
        omega

/-- C5 (counterexample): recording empty ledger 0 into a fresh store
yields a reachable state whose ledgers map is nonempty while
`latest_ledger` is still 0 (`fetch_max(0)` cannot register ledger 0), so
"`latest_ledger > 0` iff the map is nonempty" fails on reachable states. -/
theorem c5_counterexample :
    Reachable (freshStore.recordLedgerCached 0 0) ∧
    (freshStore.recordLedgerCached 0 0).ledgers ≠ [] ∧
    (freshStore.recordLedgerCached 0 0).latest_ledger = 0 := by
  refine ⟨Reachable.record (Reachable.init 3600) 0 0, ?_, rfl⟩
  show ((0, ⟨[], (0 : Int) + 3600⟩) :: []) ≠ ([] : List (Nat × LedgerPartition))
  exact List.cons_ne_nil _ _

/-- C5 (amended): in every store state reachable from a fresh store by
`insert_events`, `record_ledger_cached` and `cleanup_expired`,
`latest_ledger > 0` iff the ledgers map contains a partition with a
positive ledger key.  (For ledger key 0 the original biconditional fails;
see the counterexample.) -/
theorem c5_latest_pos_iff {s : EventStore} (h : Reachable s) :
    0 < s.latest_ledger ↔ ∃ kv ∈ s.ledgers, 0 < kv.1 := by
  rw [reachable_latest_eq_maxKey h]
  exact maxKey_pos_iff s.ledgers

/-- Witness for C5 at a concrete reachable store. -/
theorem c5_witness :
    0 < (freshStore.recordLedgerCached 7 0).latest_ledger ↔
      ∃ kv ∈ (freshStore.recordLedgerCached 7 0).ledgers, 0 < kv.1 :=
  c5_latest_pos_iff (Reachable.record (Reachable.init 3600) 7 0)

theorem filter_length_partition (l : List (Nat × LedgerPartition)) (now : Int) :
    (l.filter (fun kv => decide (kv.2.expires_at ≤ now))).length
      + (l.filter (fun kv => decide (now < kv.2.expires_at))).length
      = l.length := by
  induction l with
  | nil => rfl
  | cons kv rest ih =>
    rw [List.filter_cons, List.filter_cons]
    by_cases hkv : kv.2.expires_at ≤ now
    · rw [if_pos (by simpa using hkv), if_neg (by simp; omega)]
      simp only [List.length_cons]
      omega
    · rw [if_neg (by simpa using hkv), if_pos (by simp; omega)]
      simp only [List.length_cons]
      omega

theorem cleanupExpired_ledgers (s : EventStore) (now : Int) :
    (s.cleanupExpired now).1.ledgers
      = s.ledgers.filter (fun kv => decide (now < kv.2.expires_at)) := by
  unfold EventStore.cleanupExpired
  by_cases hc : 0 < ((s.ledgers.filter
      (fun kv => decide (kv.2.expires_at ≤ now))).map Prod.fst).length
  · rw [if_pos hc]
  · rw [if_neg hc]

theorem cleanupExpired_count (s : EventStore) (now : Int) :
    (s.cleanupExpired now).2
      = (s.ledgers.filter (fun kv => decide (kv.2.expires_at ≤ now))).length := by
  unfold EventStore.cleanupExpired
  by_cases hc : 0 < ((s.ledgers.filter
      (fun kv => decide (kv.2.expires_at ≤ now))).map Prod.fst).length
  · rw [if_pos hc]
    exact List.length_map _ _
  · rw [if_neg hc]
    exact List.length_map _ _

/-- C6: after `cleanup_expired()` on a reachable store state: no partition
whose `expires_at` is ≤ the observed time remains, `latest_ledger` equals
the maximum remaining ledger key (0 when the map is empty), and the
returned count equals the number of partitions removed (count plus
remaining partitions account for all previous ones). -/
theorem c6_cleanup_expired {s : EventStore} (now : Int) (h : Reachable s) :
    (∀ kv ∈ (s.cleanupExpired now).1.ledgers, now < kv.2.expires_at) ∧
    (s.cleanupExpired now).1.latest_ledger
      = maxKey (s.cleanupExpired now).1.ledgers ∧
    (s.cleanupExpired now).2 + (s.cleanupExpired now).1.ledgers.length
      = s.ledgers.length := by
  refine ⟨?_, ?_, ?_⟩
  · intro kv hkv
    rw [cleanupExpired_ledgers] at hkv
    have := List.of_mem_filter hkv
    simpa using this
  · exact reachable_latest_eq_maxKey (Reachable.cleanup h now)
  · rw [cleanupExpired_count, cleanupExpired_ledgers]
    exact filter_length_partition s.ledgers now

/-- Witness for C6 at a concrete reachable store and time. -/
theorem c6_witness :
    (∀ kv ∈ ((freshStore.recordLedgerCached 3 0).cleanupExpired 5000).1.ledgers,
      (5000 : Int) < kv.2.expires_at) ∧
    ((freshStore.recordLedgerCached 3 0).cleanupExpired 5000).1.latest_ledger
      = maxKey ((freshStore.recordLedgerCached 3 0).cleanupExpired 5000).1.ledgers ∧
    ((freshStore.recordLedgerCached 3 0).cleanupExpired 5000).2
      + ((freshStore.recordLedgerCached 3 0).cleanupExpired 5000).1.ledgers.length
      = (freshStore.recordLedgerCached 3 0).ledgers.length :=
  c6_cleanup_expired 5000 (Reachable.record (Reachable.init 3600) 3 0)

theorem topicsLoop_iff : ∀ (ts stored : List Json),
    (topicsLoop stored ts = true ↔
      ∀ i tv, ts.get? i = some tv → tv.isNull = false →
        ∃ sv, stored.get? i = some sv ∧ (sv == tv) = true) := by
  intro ts
  induction ts with
  | nil =>
    intro stored
    constructor
    · intro _ i tv hget _
      simp at hget
    · intro _
      cases stored <;> rfl
  | cons tv ts ih =>
    intro stored
    cases stored with
    | nil =>
      show (tv.isNull && topicsLoop [] ts) = true ↔ _
      rw [Bool.and_eq_true, ih []]
      constructor
      · rintro ⟨hnull, hrest⟩ i tv2 hget hnn
        cases i with
        | zero =>
          have htv : tv2 = tv := by
            have h9 := hget
            simp at h9
            exact h9.symm
          rw [htv, hnull] at hnn
          cases hnn
        | succ i =>
          exact hrest i tv2 (by simpa using hget) hnn
      · intro hall
        constructor
        · by_cases hnull : tv.isNull = true
          · exact hnull
          · obtain ⟨sv, hsv, _⟩ := hall 0 tv rfl (by simpa using hnull)
            simp at hsv
        · intro i tv2 hget hnn
          exact hall (i + 1) tv2 (by simpa using hget) hnn
    | cons sv srest =>
      show ((tv.isNull || sv == tv) && topicsLoop srest ts) = true ↔ _
      rw [Bool.and_eq_true, Bool.or_eq_true, ih srest]
      constructor
      · rintro ⟨hhead, hrest⟩ i tv2 hget hnn
        cases i with
        | zero =>
          have htv : tv2 = tv := by
            have h9 := hget
            simp at h9
            exact h9.symm
          rw [htv]
          rcases hhead with hnull | heq
          · rw [htv, hnull] at hnn
            cases hnn
          · exact ⟨sv, rfl, heq⟩
        | succ i =>
          obtain ⟨sv2, h1, h2⟩ := hrest i tv2 (by simpa using hget) hnn
          exact ⟨sv2, by simpa using h1, h2⟩
      · intro hall
        constructor
        · by_cases hnull : tv.isNull = true
          · exact Or.inl hnull
          · right
            obtain ⟨sv2, h1, h2⟩ := hall 0 tv rfl (by simpa using hnull)
            have hsv : sv2 = sv := by
              have h9 := h1
              simp at h9
              exact h9.symm
            rw [← hsv]
            exact h2
        · intro i tv2 hget hnn
          obtain ⟨sv2, h1, h2⟩ := hall (i + 1) tv2 (by simpa using hget) hnn
          exact ⟨sv2, by simpa using h1, h2⟩

/-- C7: for every stored event whose topics field is a JSON array and
every filter with a positional `topics` vector set, the event passes the
topics condition of `matches_filter` iff the event's topics array has at
least as many elements as the filter's vector and every position whose
filter element is not the `null` wildcard holds exactly (`==`) the
filter's element. -/
theorem c7_topics_positional (e : StoredEvent) (f : EventFilter)
    (ts arr : List Json) (hts : f.topics = some ts)
    (harr : e.topics = Json.arr arr) :
    (e.topicsCond f = true ↔
      ts.length ≤ arr.length ∧
      ∀ i tv, ts.get? i = some tv → tv.isNull = false →
        ∃ sv, arr.get? i = some sv ∧ (sv == tv) = true) := by
  unfold StoredEvent.topicsCond
  rw [hts, harr]
  show (if ts.isEmpty then true
    else if arr.length < ts.length then false else topicsLoop arr ts) = true ↔ _
  cases ts with
  | nil =>
    rw [if_pos (by simp)]
    constructor
    · intro _
      refine ⟨by simp, ?_⟩
      intro i tv hget _
      simp at hget
    · intro _
      rfl
  | cons tv0 ts0 =>
    rw [if_neg (by simp)]
    by_cases hlen : arr.length < (tv0 :: ts0).length
    · rw [if_pos hlen]
      constructor
      · intro hf
        cases hf
      · rintro ⟨h1, _⟩
        omega
    · rw [if_neg hlen]
      rw [topicsLoop_iff]
      constructor
      · intro hall
        exact ⟨by omega, hall⟩
      · rintro ⟨_, hall⟩
        exact hall

/-- A stored event with a one-element topics array. -/
def evT : StoredEvent :=
  { id := [], external_id := [], ledger_sequence := 0, ledger_closed_at := [],
    contract_id := none, event_type := 0, event_type_str := [],
    topics := Json.arr [Json.num 1], data := Json.null, tx_hash := [] }

/-- A filter with a single wildcard topic position. -/
def filtT : EventFilter := { topics := some [Json.null] }

/-- Witness for C7 at a concrete event and filter. -/
theorem c7_witness :
    evT.topics = Json.arr [Json.num 1] ∧ filtT.topics = some [Json.null] ∧
    (evT.topicsCond filtT = true ↔
      ([Json.null] : List Json).length ≤ ([Json.num 1] : List Json).length ∧
      ∀ i tv, ([Json.null] : List Json).get? i = some tv → tv.isNull = false →
        ∃ sv, ([Json.num 1] : List Json).get? i = some sv ∧ (sv == tv) = true) :=
  ⟨rfl, rfl, c7_topics_positional evT filtT [Json.null] [Json.num 1] rfl rfl⟩

/-! ### The `q` query parser (`src/api/query_parser.rs`)

Byte-string constants (ASCII byte values of the Rust string literals). -/

/-- ASCII bytes of the key fragment. -/
def strType : List Nat := [116, 121, 112, 101]

/-- ASCII bytes of the key fragment. -/
def strTopic : List Nat := [116, 111, 112, 105, 99]

/-- ASCII bytes of the key fragment. -/
def strLedger : List Nat := [108, 101, 100, 103, 101, 114]

/-- ASCII bytes of the key fragment. -/
def strTx : List Nat := [116, 120]

/-- ASCII bytes of the message fragment. -/
def msgQueryTooLong : List Nat := [113, 117, 101, 114, 121, 32, 101, 120, 99, 101, 101, 100, 115, 32, 109, 97, 120, 105, 109, 117, 109, 32, 108, 101, 110, 103, 116, 104, 32, 111, 102, 32, 49, 48, 50, 52, 32, 98, 121, 116, 101, 115]

/-- ASCII bytes of the message fragment. -/
def msgEmptyQuery : List Nat := [113, 117, 101, 114, 121, 32, 105, 115, 32, 101, 109, 112, 116, 121]

/-- ASCII bytes of the message fragment. -/
def msgTooManyTerms : List Nat := [113, 117, 101, 114, 121, 32, 101, 120, 99, 101, 101, 100, 115, 32, 109, 97, 120, 105, 109, 117, 109, 32, 111, 102, 32, 50, 48, 32, 116, 101, 114, 109, 115]

/-- ASCII bytes of the message fragment. -/
def msgUnexpectedTok1 : List Nat := [117, 110, 101, 120, 112, 101, 99, 116, 101, 100, 32, 116, 111, 107, 101, 110, 32, 39]

/-- ASCII bytes of the key fragment. -/
def strApo : List Nat := [39]

/-- ASCII bytes of the message fragment. -/
def msgUnexpectedWord2 : List Nat := [39, 32, 40, 101, 120, 112, 101, 99, 116, 101, 100, 32, 107, 101, 121, 58, 118, 97, 108, 117, 101, 32, 113, 117, 97, 108, 105, 102, 105, 101, 114, 44, 32, 79, 82, 44, 32, 111, 114, 32, 112, 97, 114, 101, 110, 116, 104, 101, 115, 105, 115, 41]

/-- ASCII bytes of the message fragment. -/
def msgUnknownKey1 : List Nat := [117, 110, 107, 110, 111, 119, 110, 32, 107, 101, 121, 32, 39]

/-- ASCII bytes of the message fragment. -/
def msgUnknownKey2 : List Nat := [39, 32, 40, 101, 120, 112, 101, 99, 116, 101, 100, 58, 32, 116, 121, 112, 101, 44, 32, 99, 111, 110, 116, 114, 97, 99, 116, 44, 32, 116, 111, 112, 105, 99, 44, 32, 116, 111, 112, 105, 99, 48, 46, 46, 116, 111, 112, 105, 99, 51, 44, 32, 108, 101, 100, 103, 101, 114, 44, 32, 116, 120, 41]

/-- ASCII bytes of the message fragment. -/
def msgMissingValue1 : List Nat := [109, 105, 115, 115, 105, 110, 103, 32, 118, 97, 108, 117, 101, 32, 102, 111, 114, 32, 107, 101, 121, 32, 39]

/-- ASCII bytes of the message fragment. -/
def msgUnbalancedQuotes : List Nat := [117, 110, 98, 97, 108, 97, 110, 99, 101, 100, 32, 113, 117, 111, 116, 101, 115, 58, 32, 109, 105, 115, 115, 105, 110, 103, 32, 99, 108, 111, 115, 105, 110, 103, 32, 39, 34, 39]

/-- ASCII bytes of the message fragment. -/
def msgUnbalancedBraces : List Nat := [117, 110, 98, 97, 108, 97, 110, 99, 101, 100, 32, 98, 114, 97, 99, 101, 115, 58, 32, 109, 105, 115, 115, 105, 110, 103, 32, 99, 108, 111, 115, 105, 110, 103, 32, 39, 125, 39]

/-- ASCII bytes of the message fragment. -/
def msgAfterOr : List Nat := [117, 110, 101, 120, 112, 101, 99, 116, 101, 100, 32, 101, 110, 100, 32, 111, 102, 32, 113, 117, 101, 114, 121, 32, 97, 102, 116, 101, 114, 32, 79, 82]

/-- ASCII bytes of the message fragment. -/
def msgEndOfQuery : List Nat := [117, 110, 101, 120, 112, 101, 99, 116, 101, 100, 32, 101, 110, 100, 32, 111, 102, 32, 113, 117, 101, 114, 121]

/-- ASCII bytes of the message fragment. -/
def msgNestingTooDeep : List Nat := [113, 117, 101, 114, 121, 32, 101, 120, 99, 101, 101, 100, 115, 32, 109, 97, 120, 105, 109, 117, 109, 32, 110, 101, 115, 116, 105, 110, 103, 32, 100, 101, 112, 116, 104, 32, 111, 102, 32, 52]

/-- ASCII bytes of the message fragment. -/
def msgEmptyParens : List Nat := [117, 110, 101, 120, 112, 101, 99, 116, 101, 100, 32, 39, 41, 39, 32, 40, 101, 109, 112, 116, 121, 32, 112, 97, 114, 101, 110, 116, 104, 101, 115, 101, 115, 41]

/-- ASCII bytes of the message fragment. -/
def msgMissingRParen : List Nat := [117, 110, 98, 97, 108, 97, 110, 99, 101, 100, 32, 112, 97, 114, 101, 110, 116, 104, 101, 115, 101, 115, 58, 32, 109, 105, 115, 115, 105, 110, 103, 32, 99, 108, 111, 115, 105, 110, 103, 32, 39, 41, 39]

/-- ASCII bytes of the message fragment. -/
def msgUnexpectedOr : List Nat := [117, 110, 101, 120, 112, 101, 99, 116, 101, 100, 32, 39, 79, 82, 39, 32, 40, 109, 117, 115, 116, 32, 98, 101, 32, 112, 114, 101, 99, 101, 100, 101, 100, 32, 98, 121, 32, 97, 110, 32, 101, 120, 112, 114, 101, 115, 115, 105, 111, 110, 41]

/-- ASCII bytes of the message fragment. -/
def msgUnexpectedRParen : List Nat := [117, 110, 98, 97, 108, 97, 110, 99, 101, 100, 32, 112, 97, 114, 101, 110, 116, 104, 101, 115, 101, 115, 58, 32, 117, 110, 101, 120, 112, 101, 99, 116, 101, 100, 32, 39, 41, 39]

/-- ASCII bytes of the message fragment. -/
def msgTooManyFilters1 : List Nat := [113, 117, 101, 114, 121, 32, 101, 120, 112, 97, 110, 100, 115, 32, 116, 111, 32]

/-- ASCII bytes of the message fragment. -/
def msgTooManyFilters2 : List Nat := [32, 102, 105, 108, 116, 101, 114, 115, 44, 32, 109, 97, 120, 105, 109, 117, 109, 32, 105, 115, 32, 50, 48]

/-- ASCII bytes of the message fragment. -/
def msgInvalidJson1 : List Nat := [105, 110, 118, 97, 108, 105, 100, 32, 74, 83, 79, 78, 32, 118, 97, 108, 117, 101, 32, 102, 111, 114, 32, 39]

/-- ASCII bytes of the message fragment. -/
def msgInvalidJson2 : List Nat := [39, 58, 32]

/-- ASCII bytes of the message fragment. -/
def msgInvalidVal1 : List Nat := [105, 110, 118, 97, 108, 105, 100, 32, 118, 97, 108, 117, 101, 32, 39]

/-- ASCII bytes of the message fragment. -/
def msgInvalidValType2 : List Nat := [39, 32, 102, 111, 114, 32, 107, 101, 121, 32, 39, 116, 121, 112, 101, 39, 32, 40, 101, 120, 112, 101, 99, 116, 101, 100, 58, 32, 99, 111, 110, 116, 114, 97, 99, 116, 44, 32, 115, 121, 115, 116, 101, 109, 44, 32, 100, 105, 97, 103, 110, 111, 115, 116, 105, 99, 41]

/-- ASCII bytes of the message fragment. -/
def msgInvalidValLedger2 : List Nat := [39, 32, 102, 111, 114, 32, 107, 101, 121, 32, 39, 108, 101, 100, 103, 101, 114, 39, 32, 40, 101, 120, 112, 101, 99, 116, 101, 100, 32, 97, 32, 112, 111, 115, 105, 116, 105, 118, 101, 32, 105, 110, 116, 101, 103, 101, 114, 41]

/-- ASCII bytes of the message fragment. -/
def msgConflict1 : List Nat := [99, 111, 110, 102, 108, 105, 99, 116, 105, 110, 103, 32, 118, 97, 108, 117, 101, 115, 32, 102, 111, 114, 32, 39]

/-- ASCII bytes of the message fragment. -/
def msgConflict2 : List Nat := [39, 58, 32, 39]

/-- ASCII bytes of the message fragment. -/
def msgConflict3 : List Nat := [39, 32, 97, 110, 100, 32, 39]

/-- ASCII bytes of the message fragment. -/
def msgConflictTypes : List Nat := [39, 32, 40, 117, 115, 101, 32, 79, 82, 32, 116, 111, 32, 109, 97, 116, 99, 104, 32, 109, 117, 108, 116, 105, 112, 108, 101, 32, 116, 121, 112, 101, 115, 41]

/-- ASCII bytes of the message fragment. -/
def msgConflictContracts : List Nat := [39, 32, 40, 117, 115, 101, 32, 79, 82, 32, 116, 111, 32, 109, 97, 116, 99, 104, 32, 109, 117, 108, 116, 105, 112, 108, 101, 32, 99, 111, 110, 116, 114, 97, 99, 116, 115, 41]

/-- ASCII bytes of the message fragment. -/
def msgConflictLedgers : List Nat := [39, 32, 40, 117, 115, 101, 32, 79, 82, 32, 116, 111, 32, 109, 97, 116, 99, 104, 32, 109, 117, 108, 116, 105, 112, 108, 101, 32, 108, 101, 100, 103, 101, 114, 115, 41]

/-- ASCII bytes of the message fragment. -/
def msgConflictTxs : List Nat := [39, 32, 40, 117, 115, 101, 32, 79, 82, 32, 116, 111, 32, 109, 97, 116, 99, 104, 32, 109, 117, 108, 116, 105, 112, 108, 101, 32, 116, 114, 97, 110, 115, 97, 99, 116, 105, 111, 110, 115, 41]

/-- ASCII bytes of the message fragment. -/
def msgDup1 : List Nat := [100, 117, 112, 108, 105, 99, 97, 116, 101, 32, 39]

/-- ASCII bytes of the message fragment. -/
def msgDup2 : List Nat := [39, 32, 105, 110, 32, 111, 110, 101, 32, 102, 105, 108, 116, 101, 114, 32, 103, 114, 111, 117, 112, 32, 40, 117, 115, 101, 32, 79, 82, 32, 116, 111, 32, 109, 97, 116, 99, 104, 32, 109, 117, 108, 116, 105, 112, 108, 101, 32, 118, 97, 108, 117, 101, 115, 41]

/-- ASCII bytes of the message fragment. -/
def msgFuel : List Nat := [114, 101, 99, 117, 114, 115, 105, 111, 110, 32, 102, 117, 101, 108, 32, 101, 120, 104, 97, 117, 115, 116, 101, 100]

/-- ASCII bytes of the message fragment. -/
def msgTxLedger : List Nat := [108, 101, 100, 103, 101, 114, 32, 105, 115, 32, 114, 101, 113, 117, 105, 114, 101, 100, 32, 119, 104, 101, 110, 32, 116, 120, 32, 105, 115, 32, 112, 114, 111, 118, 105, 100, 101, 100]
/-- `QueryParseErrorKind`. -/
inductive QueryParseErrorKind where
  | EmptyQuery
  | UnknownKey
  | MissingValue
  | InvalidValue
  | UnbalancedParens
  | UnexpectedToken
  | ConflictingQualifiers
  | DuplicateTopicPosition
  | UnbalancedBraces
  | UnbalancedQuotes
  | TooManyFilters
  | QueryTooLong
  | TooManyTerms
  | NestingTooDeep
deriving DecidableEq

/-- `QueryParseError`. -/
structure QueryParseError where
  kind : QueryParseErrorKind
  message : List Nat
  position : Nat
deriving DecidableEq

/-- `TokenKind`. -/
inductive TokenKind where
  | Qualifier
  | Or
  | LParen
  | RParen
deriving DecidableEq

/-- `Token`. -/
structure Token where
  kind : TokenKind
  text : List Nat
  key : Option (List Nat)
  value : Option (List Nat)
  position : Nat
deriving DecidableEq

/-- `VALID_KEYS`. -/
def validKeys : List (List Nat) :=
  [strType, strContract, strTopic, strTopic ++ [48], strTopic ++ [49],
   strTopic ++ [50], strTopic ++ [51], strLedger, strTx]

/-- Key scan of the tokenizer: everything up to `':'`, whitespace or a
parenthesis; returns the key bytes and the rest (starting at the
terminator). -/
def scanKey : List Nat → List Nat × List Nat
  | [] => ([], [])
  | c :: rest =>
    if c = 58 || c = 32 || c = 9 || c = 40 || c = 41 then ([], c :: rest)
    else
      match scanKey rest with
      | (k, r) => (c :: k, r)

/-- Quoted-value scan (after the opening `'"'`): unescapes `\"`, stops at
the closing quote; `none` when the input ends first. -/
def scanQuoted : List Nat → Option (List Nat × List Nat)
  | [] => none
  | 92 :: 34 :: rest => (scanQuoted rest).map (fun vr => (34 :: vr.1, vr.2))
  | 34 :: rest => some ([], rest)
  | c :: rest => (scanQuoted rest).map (fun vr => (c :: vr.1, vr.2))

/-- Skip a quoted string inside a JSON value (after its opening `'"'`). -/
def skipJsonStr : List Nat → List Nat
  | [] => []
  | 92 :: _ :: rest => skipJsonStr rest
  | 34 :: rest => rest
  | _ :: rest => skipJsonStr rest

/-- Brace-depth scan of a JSON value (fuel-based because string skipping
consumes several bytes at once); returns the rest after the matching
closing brace. -/
def scanJsonGo : Nat → Int → List Nat → Option (List Nat)
  | 0, _, _ => none
  | _ + 1, _, [] => none
  | fuel + 1, depth, 34 :: rest => scanJsonGo fuel depth (skipJsonStr rest)
  | fuel + 1, depth, 123 :: rest => scanJsonGo fuel (depth + 1) rest
  | fuel + 1, depth, 125 :: rest =>
    if depth - 1 = 0 then some rest else scanJsonGo fuel (depth - 1) rest
  | fuel + 1, depth, _ :: rest => scanJsonGo fuel depth rest

/-- Bare-value scan: everything up to whitespace or `')'`. -/
def scanBare : List Nat → List Nat × List Nat
  | [] => ([], [])
  | c :: rest =>
    if c = 32 || c = 9 || c = 41 then ([], c :: rest)
    else
      match scanBare rest with
      | (v, r) => (c :: v, r)

/-- The boundary check after `"OR"`: end of input, whitespace or `')'`. -/
def orBoundary : List Nat → Bool
  | [] => true
  | c :: _ => c = 32 || c = 9 || c = 41

/-- The fuel-exhaustion artifact of the model (never reached when the
fuel passed by the entry points covers the input). -/
def fuelErr : QueryParseError := ⟨.UnexpectedToken, msgFuel, 0⟩

/-- One iteration of `tokenize`, fuel-based (each iteration consumes at
least one byte).  `pos` is the byte offset of the head of `l` in the full
input. -/
def tokenizeGo : Nat → Nat → List Nat → Except QueryParseError (List Token)
  | 0, _, _ => .error fuelErr
  | _ + 1, _, [] => .ok []
  | fuel + 1, pos, c :: rest =>
    if c = 32 || c = 9 then tokenizeGo fuel (pos + 1) rest
    else if c = 40 then
      (tokenizeGo fuel (pos + 1) rest).map
        (fun ts => { kind := .LParen, text := [40], key := none, value := none,
                     position := pos } :: ts)
    else if c = 41 then
      (tokenizeGo fuel (pos + 1) rest).map
        (fun ts => { kind := .RParen, text := [41], key := none, value := none,
                     position := pos } :: ts)
    else if c = 79 && (match rest with
        | 82 :: rest2 => orBoundary rest2
        | _ => false) then
      (tokenizeGo fuel (pos + 2) rest.tail).map
        (fun ts => { kind := .Or, text := [79, 82], key := none, value := none,
                     position := pos } :: ts)
    else
      match scanKey (c :: rest) with
      | (key, afterKey) =>
        match afterKey with
        | 58 :: afterColon =>
          if validKeys.contains key then
            match afterColon with
            | [] => .error ⟨.MissingValue,
                msgMissingValue1 ++ key ++ strApo, pos + key.length + 1⟩
            | v :: vrest =>
              if v = 32 || v = 9 || v = 41 || v = 40 then
                .error ⟨.MissingValue, msgMissingValue1 ++ key ++ strApo,
                  pos + key.length + 1⟩
              else if v = 34 then
                match scanQuoted vrest with
                | none => .error ⟨.UnbalancedQuotes, msgUnbalancedQuotes,
                    pos + key.length + 1⟩
                | some (val, afterVal) =>
                  (tokenizeGo fuel (pos + ((c :: rest).length - afterVal.length))
                      afterVal).map
                    (fun ts =>
                      { kind := .Qualifier,
                        text := (c :: rest).take ((c :: rest).length - afterVal.length),
                        key := some key, value := some val, position := pos } :: ts)
              else if v = 123 then
                match scanJsonGo (v :: vrest).length 0 (v :: vrest) with
                | none => .error ⟨.UnbalancedBraces, msgUnbalancedBraces,
                    pos + key.length + 1⟩
                | some afterVal =>
                  (tokenizeGo fuel (pos + ((c :: rest).length - afterVal.length))
                      afterVal).map
                    (fun ts =>
                      { kind := .Qualifier,
                        text := (c :: rest).take ((c :: rest).length - afterVal.length),
                        key := some key,
                        value := (v :: vrest).take ((v :: vrest).length - afterVal.length),
                        position := pos } :: ts)
              else
                match scanBare (v :: vrest) with
                | (val, afterVal) =>
                  (tokenizeGo fuel (pos + ((c :: rest).length - afterVal.length))
                      afterVal).map
                    (fun ts =>
                      { kind := .Qualifier,
                        text := (c :: rest).take ((c :: rest).length - afterVal.length),
                        key := some key, value := some val, position := pos } :: ts)
          else .error ⟨.UnknownKey, msgUnknownKey1 ++ key ++ msgUnknownKey2, pos⟩
        | _ => .error ⟨.UnexpectedToken,
            msgUnexpectedTok1 ++ key ++ msgUnexpectedWord2, pos⟩

/-- `tokenize`. -/
def tokenize (input : List Nat) : Except QueryParseError (List Token) :=
  tokenizeGo (input.length + 1) 0 input

/-- `QueryExpr`. -/
inductive QueryExpr where
  | qual (key value : List Nat) (position : Nat)
  | and (children : List QueryExpr)
  | or (children : List QueryExpr)

/-- The `left = Or(children ++ [right]) / Or([left, right])` step of
`parse_or`. -/
def orPush : QueryExpr → QueryExpr → QueryExpr
  | .or children, right => .or (children ++ [right])
  | left, right => .or [left, right]

/-- The `left = And(children ++ [right]) / And([left, right])` step of
`parse_and`. -/
def andPush : QueryExpr → QueryExpr → QueryExpr
  | .and children, right => .and (children ++ [right])
  | left, right => .and [left, right]

/-- The mode discriminator of the recursive-descent parser: the five
mutually recursive bodies of `Parser` share one fuel-based function so
that the recursion is structural (and hence kernel-computable).  The loop
modes carry the accumulated left expression; the paren mode carries the
position of the opening parenthesis. -/
inductive PMode where
  | por
  | porLoop (left : QueryExpr)
  | pand
  | pandLoop (left : QueryExpr)
  | patom
  | pparen (parenPos : Nat)

/-- The recursive-descent parser (`Parser::parse_or` / `parse_and` /
`parse_atom` and their loops), fuel-based.  `pos` is the token index,
`depth` the parenthesis nesting. -/
def parseGo : Nat → PMode → List Token → Nat → Nat →
    Except QueryParseError (QueryExpr × Nat)
  | 0, _, _, _, _ => .error fuelErr
  | fuel + 1, .por, toks, pos, depth =>
    match parseGo fuel .pand toks pos depth with
    | .error e => .error e
    | .ok (left, pos2) => parseGo fuel (.porLoop left) toks pos2 depth
  | fuel + 1, .porLoop left, toks, pos, depth =>
    (match toks.get? pos with
    | some tok =>
      if tok.kind = .Or then
        if toks.length ≤ pos + 1 then
          .error ⟨.UnexpectedToken, msgAfterOr, tok.position⟩
        else
          match parseGo fuel .pand toks (pos + 1) depth with
          | .error e => .error e
          | .ok (right, pos2) =>
            parseGo fuel (.porLoop (orPush left right)) toks pos2 depth
      else .ok (left, pos)
    | none => .ok (left, pos))
  | fuel + 1, .pand, toks, pos, depth =>
    match parseGo fuel .patom toks pos depth with
    | .error e => .error e
    | .ok (left, pos2) => parseGo fuel (.pandLoop left) toks pos2 depth
  | fuel + 1, .pandLoop left, toks, pos, depth =>
    (match toks.get? pos with
    | some tok =>
      if tok.kind = .Or || tok.kind = .RParen then .ok (left, pos)
      else
        match parseGo fuel .patom toks pos depth with
        | .error e => .error e
        | .ok (right, pos2) =>
          parseGo fuel (.pandLoop (andPush left right)) toks pos2 depth
    | none => .ok (left, pos))
  | fuel + 1, .patom, toks, pos, depth =>
    (match toks.get? pos with
    | none =>
      .error ⟨.UnexpectedToken, msgEndOfQuery,
        match toks.getLast? with
        | some t => t.position
        | none => 0⟩
    | some tok =>
      match tok.kind with
      | .LParen =>
        if 4 < depth + 1 then
          .error ⟨.NestingTooDeep, msgNestingTooDeep, tok.position⟩
        else
          match toks.get? (pos + 1) with
          | some next =>
            if next.kind = .RParen then
              .error ⟨.UnexpectedToken, msgEmptyParens, next.position⟩
            else parseGo fuel (.pparen tok.position) toks (pos + 1) (depth + 1)
          | none => parseGo fuel (.pparen tok.position) toks (pos + 1) (depth + 1)
      | .Qualifier =>
        .ok (.qual (tok.key.getD []) (tok.value.getD []) tok.position, pos + 1)
      | .Or => .error ⟨.UnexpectedToken, msgUnexpectedOr, tok.position⟩
      | .RParen => .error ⟨.UnbalancedParens, msgUnexpectedRParen, tok.position⟩)
  | fuel + 1, .pparen parenPos, toks, pos, depth =>
    match parseGo fuel .por toks pos depth with
    | .error e => .error e
    | .ok (expr, pos2) =>
      match toks.get? pos2 with
      | some t2 =>
        if t2.kind = .RParen then .ok (expr, pos2 + 1)
        else .error ⟨.UnbalancedParens, msgMissingRParen, parenPos⟩
      | none => .error ⟨.UnbalancedParens, msgMissingRParen, parenPos⟩

/-- `Parser::parse_or`. -/
def parseOr (fuel : Nat) (toks : List Token) (pos depth : Nat) :
    Except QueryParseError (QueryExpr × Nat) :=
  parseGo fuel .por toks pos depth

/-- The AND-over-OR extension step of `distribute_and`. -/
def extendConj (conj : List QueryExpr) : QueryExpr → List QueryExpr
  | .and andChildren => conj ++ andChildren
  | branch => conj ++ [branch]

/-- One child step of `distribute_and`. -/
def distStep (conjunctions : List (List QueryExpr)) :
    QueryExpr → List (List QueryExpr)
  | .or orChildren =>
    ((conjunctions.map (fun existing => orChildren.map (extendConj existing))).foldr
      (· ++ ·) [])
  | .and andChildren => conjunctions.map (fun conj => conj ++ andChildren)
  | child => conjunctions.map (fun conj => conj ++ [child])

/-- `conj.len() == 1` collapse of `distribute_and`. -/
def mkConj : List QueryExpr → QueryExpr
  | [c] => c
  | conj => .and conj

/-- `distribute_and`. -/
def distributeAnd (children : List QueryExpr) : QueryExpr :=
  match children.foldl distStep [[]] with
  | [conj] => mkConj conj
  | conjs => .or (conjs.map mkConj)

/-- `to_dnf` (fuel-based over the expression depth). -/
def toDnf : Nat → QueryExpr → QueryExpr
  | 0, e => e
  | fuel + 1, .qual k v p => .qual k v p
  | fuel + 1, .or children => .or (children.map (toDnf fuel))
  | fuel + 1, .and children => distributeAnd (children.map (toDnf fuel))

/-- The qualifier extraction for AND-groups of `flatten_or`.  A
non-qualifier child inside a DNF `And` hits `unreachable!` in the source
and aborts the process; the model returns `none` for that abort.  (The
abort is reachable: `to_dnf` leaves nested ORs unflattened and
`distribute_and` pushes an `Or` branch wholesale into a conjunction.) -/
def andQuals : List QueryExpr → Option (List (List Nat × List Nat × Nat))
  | [] => some []
  | .qual k v p :: rest => (andQuals rest).map (fun g => (k, v, p) :: g)
  | _ :: _ => none

/-- `flatten_or` (fuel-based over the expression depth); `none` models the
source panicking via `unreachable!` on a non-qualifier child inside a DNF
`And` (and is also the out-of-fuel artifact, unreachable for
parser-produced expressions). -/
def flattenOr : Nat → QueryExpr → Option (List (List (List Nat × List Nat × Nat)))
  | 0, _ => none
  | _ + 1, .qual k v p => some [[(k, v, p)]]
  | _ + 1, .and children => (andQuals children).map (fun g => [g])
  | fuel + 1, .or children =>
    children.foldr
      (fun c acc =>
        match flattenOr fuel c, acc with
        | some gs, some rest => some (gs ++ rest)
        | _, _ => none)
      (some [])

/-- Spec-side count of the conjunctions in the semantic DNF expansion of
an expression (sum over OR children, product over AND children); used
only to state how many AND-groups the claim's "DNF expansion" of a query
yields, independently of the code's `flatten_or`. -/
def semGroups : Nat → QueryExpr → Nat
  | 0, _ => 0
  | _ + 1, .qual _ _ _ => 1
  | fuel + 1, .or children => (children.map (semGroups fuel)).foldr (· + ·) 0
  | fuel + 1, .and children => (children.map (semGroups fuel)).foldr (· * ·) 1

/-- `value.parse::<EventType>()` succeeds exactly on the three names. -/
def eventTypeValid (v : List Nat) : Bool :=
  v == strContract || v == strSystem || v == strDiagnostic

/-- The accumulator of the `and_group_to_filter` merge loop. -/
structure GroupState where
  event_type : Option (List Nat × Nat) := none
  contract_id : Option (List Nat × Nat) := none
  ledger : Option (Nat × Nat) := none
  tx : Option (List Nat × Nat) := none
  topics : List (Option (List Nat × Nat)) := [none, none, none, none]
  any_topics : List (List Nat) := []

/-- The merge loop of `and_group_to_filter`, parameterised by the JSON
parser `jparse` (modelling `serde_json::from_str`). -/
def mergeGroup (jparse : List Nat → Option Json) :
    List (List Nat × List Nat × Nat) → GroupState →
    Except QueryParseError GroupState
  | [], st => .ok st
  | (key, value, position) :: rest, st =>
    if key = strTopic then
      match jparse value with
      | none => .error ⟨.InvalidValue,
          msgInvalidJson1 ++ strTopic ++ msgInvalidJson2 ++ value, position⟩
      | some _ =>
        if st.any_topics.contains value then mergeGroup jparse rest st
        else mergeGroup jparse rest { st with any_topics := st.any_topics ++ [value] }
    else if key = strType then
      if eventTypeValid value then
        match st.event_type with
        | some (existing, _) =>
          if existing = value then mergeGroup jparse rest st
          else .error ⟨.ConflictingQualifiers,
            msgConflict1 ++ strType ++ msgConflict2 ++ existing ++ msgConflict3
              ++ value ++ msgConflictTypes, position⟩
        | none => mergeGroup jparse rest { st with event_type := some (value, position) }
      else .error ⟨.InvalidValue,
        msgInvalidVal1 ++ value ++ msgInvalidValType2, position⟩
    else if key = strContract then
      match st.contract_id with
      | some (existing, _) =>
        if existing = value then mergeGroup jparse rest st
        else .error ⟨.ConflictingQualifiers,
          msgConflict1 ++ strContract ++ msgConflict2 ++ existing ++ msgConflict3
            ++ value ++ msgConflictContracts, position⟩
      | none => mergeGroup jparse rest { st with contract_id := some (value, position) }
    else if key = strLedger then
      match parseNatBounded (2 ^ 32) value with
      | none => .error ⟨.InvalidValue,
          msgInvalidVal1 ++ value ++ msgInvalidValLedger2, position⟩
      | some parsed =>
        match st.ledger with
        | some (existing, _) =>
          if existing = parsed then mergeGroup jparse rest st
          else .error ⟨.ConflictingQualifiers,
            msgConflict1 ++ strLedger ++ msgConflict2 ++ decBytes existing
              ++ msgConflict3 ++ decBytes parsed ++ msgConflictLedgers, position⟩
        | none => mergeGroup jparse rest { st with ledger := some (parsed, position) }
    else if key = strTx then
      match st.tx with
      | some (existing, _) =>
        if existing = value then mergeGroup jparse rest st
        else .error ⟨.ConflictingQualifiers,
          msgConflict1 ++ strTx ++ msgConflict2 ++ existing ++ msgConflict3
            ++ value ++ msgConflictTxs, position⟩
      | none => mergeGroup jparse rest { st with tx := some (value, position) }
    else if key = strTopic ++ [48] || key = strTopic ++ [49]
        || key = strTopic ++ [50] || key = strTopic ++ [51] then
      match jparse value with
      | none => .error ⟨.InvalidValue,
          msgInvalidJson1 ++ key ++ msgInvalidJson2 ++ value, position⟩
      | some _ =>
        match st.topics.getD (key.getD 5 0 - 48) none with
        | some (existing, _) =>
          if existing = value then mergeGroup jparse rest st
          else .error ⟨.DuplicateTopicPosition,
            msgDup1 ++ key ++ msgDup2, position⟩
        | none =>
          mergeGroup jparse rest
            { st with
              topics := st.topics.set (key.getD 5 0 - 48) (some (value, position)) }
    else mergeGroup jparse rest st

/-- `rposition(|t| t.is_some())` over the topics array. -/
def rposSome : List (Option (List Nat × Nat)) → Option Nat
  | [] => none
  | t :: rest =>
    match rposSome rest with
    | some i => some (i + 1)
    | none => if t.isSome then some 0 else none

/-- The `topics_vec` build of `and_group_to_filter`: up to the highest set
index, parse the recorded JSON (already validated in the loop, so the
`unwrap` is total) and fill gaps with `null`. -/
def buildTopicsVec (jparse : List Nat → Option Json)
    (topics : List (Option (List Nat × Nat))) : Option (List Json) :=
  match rposSome topics with
  | none => none
  | some maxIdx =>
    some ((topics.take (maxIdx + 1)).map (fun t =>
      match t with
      | some (jstr, _) => (jparse jstr).getD Json.null
      | none => Json.null))

/-- The final `EventFilter` build of `and_group_to_filter`. -/
def finishGroup (jparse : List Nat → Option Json) (st : GroupState) : EventFilter :=
  { event_type := st.event_type.map Prod.fst,
    contract_id := st.contract_id.map Prod.fst,
    topics := buildTopicsVec jparse st.topics,
    any_topics := (if st.any_topics.isEmpty then none
      else some (st.any_topics.map (fun v => (jparse v).getD Json.null))),
    ledger := st.ledger.map Prod.fst,
    tx := st.tx.map Prod.fst }

/-- `and_group_to_filter`. -/
def andGroupToFilter (jparse : List Nat → Option Json)
    (group : List (List Nat × List Nat × Nat)) :
    Except QueryParseError EventFilter :=
  match mergeGroup jparse group {} with
  | .error e => .error e
  | .ok st =>
    match st.tx with
    | some (_, pos) =>
      if st.ledger.isNone then
        .error ⟨.InvalidValue, msgTxLedger, pos⟩
      else .ok (finishGroup jparse st)
    | none => .ok (finishGroup jparse st)

/-- The `for group in and_groups` loop of `parse_query`. -/
def groupsToFilters (jparse : List Nat → Option Json) :
    List (List (List Nat × List Nat × Nat)) →
    Except QueryParseError (List EventFilter)
  | [] => .ok []
  | g :: gs =>
    match andGroupToFilter jparse g with
    | .error e => .error e
    | .ok f => (groupsToFilters jparse gs).map (fun fs => f :: fs)

/-- Rust `str::trim` whitespace (the ASCII subset of `char::is_whitespace`). -/
def isTrimWs (c : Nat) : Bool :=
  c = 9 || c = 10 || c = 11 || c = 12 || c = 13 || c = 32

/-- Fuel passed to the recursive-descent parser (each call strictly
decreases it; four mutual entries per consumed token plus slack). -/
def parserFuel (toks : List Token) : Nat := 4 * toks.length + 8

/-- Fuel passed to `to_dnf`/`flatten_or` (bounds the expression depth,
which the parser keeps below the token count plus the nesting slack). -/
def dnfFuel (toks : List Token) : Nat := toks.length + 8

/-- `parse_query`, parameterised by the JSON parser `jparse`
(`serde_json::from_str`).  The outer `Option` separates termination with
a result (`some` of `Ok`/`Err`) from the process aborting in
`flatten_or`'s `unreachable!` panic (`none`). -/
def parseQuery (jparse : List Nat → Option Json) (input : List Nat) :
    Option (Except QueryParseError (List EventFilter)) :=
  if 1024 < input.length then
    some (.error ⟨.QueryTooLong, msgQueryTooLong, 0⟩)
  else if input.all isTrimWs then
    some (.error ⟨.EmptyQuery, msgEmptyQuery, 0⟩)
  else
    match tokenize input with
    | .error e => some (.error e)
    | .ok toks =>
      if toks.isEmpty then some (.error ⟨.EmptyQuery, msgEmptyQuery, 0⟩)
      else if 20 < (toks.filter (fun t => t.kind == .Qualifier)).length then
        some (.error ⟨.TooManyTerms, msgTooManyTerms, 0⟩)
      else
        match parseOr (parserFuel toks) toks 0 0 with
        | .error e => some (.error e)
        | .ok (expr, pos) =>
          match toks.get? pos with
          | some tok =>
            some (.error ⟨.UnexpectedToken, msgUnexpectedTok1 ++ tok.text ++ strApo,
              tok.position⟩)
          | none =>
            match flattenOr (dnfFuel toks) (toDnf (dnfFuel toks) expr) with
            | none => none
            | some groups =>
              if 20 < groups.length then
                some (.error ⟨.TooManyFilters,
                  msgTooManyFilters1 ++ decBytes groups.length
                    ++ msgTooManyFilters2, 0⟩)
              else some (groupsToFilters jparse groups)

theorem mergeGroup_error_kind (jparse : List Nat → Option Json) :
    ∀ (g : List (List Nat × List Nat × Nat)) (st : GroupState)
      (e : QueryParseError), mergeGroup jparse g st = .error e →
    e.kind = .InvalidValue ∨ e.kind = .ConflictingQualifiers
      ∨ e.kind = .DuplicateTopicPosition := by
  intro g
  induction g with
  | nil =>
    intro st e h
    simp [mergeGroup] at h
  | cons kv rest ih =>
    intro st e h
    obtain ⟨key, value, position⟩ := kv
    simp only [mergeGroup] at h
    repeat' split at h
    all_goals first
      | exact ih _ _ h
      | (injection h with h2; rw [← h2]; simp)
      | simp at h

theorem andGroupToFilter_error_kind (jparse : List Nat → Option Json)
    (g : List (List Nat × List Nat × Nat)) (e : QueryParseError)
    (h : andGroupToFilter jparse g = .error e) : e.kind ≠ .TooManyFilters := by
  unfold andGroupToFilter at h
  cases hm : mergeGroup jparse g ({} : GroupState) with
  | error e2 =>
    rw [hm] at h
    simp only at h
    injection h with h2
    rw [← h2]
    rcases mergeGroup_error_kind jparse g {} e2 hm with h3 | h3 | h3 <;>
      rw [h3] <;> simp
  | ok st =>
    rw [hm] at h
    simp only at h
    repeat' split at h
    all_goals first
      | (injection h with h2; rw [← h2]; simp)
      | simp at h

theorem groupsToFilters_error_kind (jparse : List Nat → Option Json) :
    ∀ (gs : List (List (List Nat × List Nat × Nat))) (e : QueryParseError),
    groupsToFilters jparse gs = .error e → e.kind ≠ .TooManyFilters := by
  intro gs
  induction gs with
  | nil =>
    intro e h
    simp [groupsToFilters] at h
  | cons g rest ih =>
    intro e h
    simp only [groupsToFilters] at h
    cases hg : andGroupToFilter jparse g with
    | error e2 =>
      rw [hg] at h
      simp only at h
      injection h with h2
      rw [← h2]
      exact andGroupToFilter_error_kind jparse g e2 hg
    | ok f =>
      rw [hg] at h
      simp only at h
      cases hr : groupsToFilters jparse rest with
      | error e3 =>
        rw [hr] at h
        simp only [Except.map] at h
        injection h with h2
        rw [← h2]
        exact ih e3 hr
      | ok fs =>
        rw [hr] at h
        simp only [Except.map] at h
        cases h

/-- The 20-group input
`(type:contract OR type:system)(ledger:1 OR ... OR ledger:10)`. -/
def q20 : List Nat := [40, 116, 121, 112, 101, 58, 99, 111, 110, 116, 114, 97, 99, 116, 32, 79, 82, 32, 116, 121, 112, 101, 58, 115, 121, 115, 116, 101, 109, 41, 40, 108, 101, 100, 103, 101, 114, 58, 49, 32, 79, 82, 32, 108, 101, 100, 103, 101, 114, 58, 50, 32, 79, 82, 32, 108, 101, 100, 103, 101, 114, 58, 51, 32, 79, 82, 32, 108, 101, 100, 103, 101, 114, 58, 52, 32, 79, 82, 32, 108, 101, 100, 103, 101, 114, 58, 53, 32, 79, 82, 32, 108, 101, 100, 103, 101, 114, 58, 54, 32, 79, 82, 32, 108, 101, 100, 103, 101, 114, 58, 55, 32, 79, 82, 32, 108, 101, 100, 103, 101, 114, 58, 56, 32, 79, 82, 32, 108, 101, 100, 103, 101, 114, 58, 57, 32, 79, 82, 32, 108, 101, 100, 103, 101, 114, 58, 49, 48, 41]

/-- The 21-group input
`(type:contract OR type:system OR type:diagnostic)(ledger:1 OR ... OR ledger:7)`. -/
def q21 : List Nat := [40, 116, 121, 112, 101, 58, 99, 111, 110, 116, 114, 97, 99, 116, 32, 79, 82, 32, 116, 121, 112, 101, 58, 115, 121, 115, 116, 101, 109, 32, 79, 82, 32, 116, 121, 112, 101, 58, 100, 105, 97, 103, 110, 111, 115, 116, 105, 99, 41, 40, 108, 101, 100, 103, 101, 114, 58, 49, 32, 79, 82, 32, 108, 101, 100, 103, 101, 114, 58, 50, 32, 79, 82, 32, 108, 101, 100, 103, 101, 114, 58, 51, 32, 79, 82, 32, 108, 101, 100, 103, 101, 114, 58, 52, 32, 79, 82, 32, 108, 101, 100, 103, 101, 114, 58, 53, 32, 79, 82, 32, 108, 101, 100, 103, 101, 114, 58, 54, 32, 79, 82, 32, 108, 101, 100, 103, 101, 114, 58, 55, 41]

/-- The input `type:system type:contract tx:abc`. -/
def q9c : List Nat := [116, 121, 112, 101, 58, 115, 121, 115, 116, 101, 109, 32, 116, 121, 112, 101, 58, 99, 111, 110, 116, 114, 97, 99, 116, 32, 116, 120, 58, 97, 98, 99]

/-- `Err`-kind projection of a parse outcome (`none` when the parse
succeeded or the process aborted). -/
def errKind {α : Type} : Option (Except QueryParseError α) → Option QueryParseErrorKind
  | some (.error e) => some e.kind
  | _ => none

/-- `Ok` length projection of a parse outcome. -/
def okLength {α : Type} : Option (Except QueryParseError (List α)) → Option Nat
  | some (.ok fs) => some fs.length
  | _ => none

/-- The input `(ledger:1 OR (ledger:2 OR ledger:3))(type:contract OR
type:system OR type:diagnostic OR contract:a OR contract:b OR
contract:c OR contract:d)`: 10 terms, 21 semantic DNF conjunctions,
with a nested OR that `distribute_and` pushes into a conjunction. -/
def qPanic : List Nat := [40, 108, 101, 100, 103, 101, 114, 58, 49, 32, 79, 82, 32, 40, 108, 101, 100, 103, 101, 114, 58, 50, 32, 79, 82, 32, 108, 101, 100, 103, 101, 114, 58, 51, 41, 41, 40, 116, 121, 112, 101, 58, 99, 111, 110, 116, 114, 97, 99, 116, 32, 79, 82, 32, 116, 121, 112, 101, 58, 115, 121, 115, 116, 101, 109, 32, 79, 82, 32, 116, 121, 112, 101, 58, 100, 105, 97, 103, 110, 111, 115, 116, 105, 99, 32, 79, 82, 32, 99, 111, 110, 116, 114, 97, 99, 116, 58, 97, 32, 79, 82, 32, 99, 111, 110, 116, 114, 97, 99, 116, 58, 98, 32, 79, 82, 32, 99, 111, 110, 116, 114, 97, 99, 116, 58, 99, 32, 79, 82, 32, 99, 111, 110, 116, 114, 97, 99, 116, 58, 100, 41]

/-- The tokens of `qPanic`. -/
def qPanicToks : List Token :=
  [   ⟨.LParen, [40], none, none, 0⟩,
    ⟨.Qualifier, [108, 101, 100, 103, 101, 114, 58, 49], some [108, 101, 100, 103, 101, 114], some [49], 1⟩,
    ⟨.Or, [79, 82], none, none, 10⟩,
    ⟨.LParen, [40], none, none, 13⟩,
    ⟨.Qualifier, [108, 101, 100, 103, 101, 114, 58, 50], some [108, 101, 100, 103, 101, 114], some [50], 14⟩,
    ⟨.Or, [79, 82], none, none, 23⟩,
    ⟨.Qualifier, [108, 101, 100, 103, 101, 114, 58, 51], some [108, 101, 100, 103, 101, 114], some [51], 26⟩,
    ⟨.RParen, [41], none, none, 34⟩,
    ⟨.RParen, [41], none, none, 35⟩,
    ⟨.LParen, [40], none, none, 36⟩,
    ⟨.Qualifier, [116, 121, 112, 101, 58, 99, 111, 110, 116, 114, 97, 99, 116], some [116, 121, 112, 101], some [99, 111, 110, 116, 114, 97, 99, 116], 37⟩,
    ⟨.Or, [79, 82], none, none, 51⟩,
    ⟨.Qualifier, [116, 121, 112, 101, 58, 115, 121, 115, 116, 101, 109], some [116, 121, 112, 101], some [115, 121, 115, 116, 101, 109], 54⟩,
    ⟨.Or, [79, 82], none, none, 66⟩,
    ⟨.Qualifier, [116, 121, 112, 101, 58, 100, 105, 97, 103, 110, 111, 115, 116, 105, 99], some [116, 121, 112, 101], some [100, 105, 97, 103, 110, 111, 115, 116, 105, 99], 69⟩,
    ⟨.Or, [79, 82], none, none, 85⟩,
    ⟨.Qualifier, [99, 111, 110, 116, 114, 97, 99, 116, 58, 97], some [99, 111, 110, 116, 114, 97, 99, 116], some [97], 88⟩,
    ⟨.Or, [79, 82], none, none, 99⟩,
    ⟨.Qualifier, [99, 111, 110, 116, 114, 97, 99, 116, 58, 98], some [99, 111, 110, 116, 114, 97, 99, 116], some [98], 102⟩,
    ⟨.Or, [79, 82], none, none, 113⟩,
    ⟨.Qualifier, [99, 111, 110, 116, 114, 97, 99, 116, 58, 99], some [99, 111, 110, 116, 114, 97, 99, 116], some [99], 116⟩,
    ⟨.Or, [79, 82], none, none, 127⟩,
    ⟨.Qualifier, [99, 111, 110, 116, 114, 97, 99, 116, 58, 100], some [99, 111, 110, 116, 114, 97, 99, 116], some [100], 130⟩,
    ⟨.RParen, [41], none, none, 140⟩]

/-- The parse tree of `qPanic`. -/
def qPanicExpr : QueryExpr :=
  .and [.or [.qual strLedger [49] 1,
          .or [.qual strLedger [50] 14, .qual strLedger [51] 26]],
        .or [.qual strType strContract 37, .qual strType strSystem 54,
          .qual strType strDiagnostic 69, .qual strContract [97] 88,
          .qual strContract [98] 102, .qual strContract [99] 116,
          .qual strContract [100] 130]]

set_option maxRecDepth 100000 in
set_option maxHeartbeats 1000000 in
/-- C8 (counterexample): `qPanic` passes every check before the DNF stage
(length, non-empty, tokenize, 10 ≤ 20 terms, full parse with all tokens
consumed) and its DNF expansion yields 21 > 20 conjunctions, yet
`parse_query` neither succeeds nor fails with `TooManyFilters`:
`flatten_or` hits its `unreachable!` panic on the nested OR that
`distribute_and` pushed wholesale into a conjunction, aborting the
process before the filter-count check. -/
theorem c8_counterexample :
    qPanic.length ≤ 1024 ∧
    qPanic.all isTrimWs = false ∧
    tokenize qPanic = .ok qPanicToks ∧
    qPanicToks ≠ [] ∧
    (qPanicToks.filter (fun t => t.kind == .Qualifier)).length ≤ 20 ∧
    parseOr (parserFuel qPanicToks) qPanicToks 0 0 = .ok (qPanicExpr, 24) ∧
    qPanicToks.get? 24 = none ∧
    20 < semGroups (dnfFuel qPanicToks) qPanicExpr ∧
    flattenOr (dnfFuel qPanicToks) (toDnf (dnfFuel qPanicToks) qPanicExpr) = none ∧
    parseQuery (fun _ => none) qPanic = none := by
  exact ⟨by decide, by decide, rfl, by decide, by decide, rfl, rfl, by decide,
    rfl, rfl⟩

set_option maxRecDepth 100000 in
set_option maxHeartbeats 1000000 in
/-- C8 (amended): for every input that passes the length/empty/token/term/
parse checks and whose DNF flattening completes — i.e. `flatten_or` does
not hit its `unreachable!` panic, `none` in the model — `parse_query`
returns a `TooManyFilters` error iff the flattened expansion has more
than 20 AND-groups (the filter-conversion stage can never produce that
kind); and concretely, the 20-group input `q20` succeeds with 20 filters
while the 21-group input `q21` fails with kind `TooManyFilters`.
(Without the completion proviso the original claim fails: on `qPanic` the
process aborts before the filter-count check — see the counterexample.) -/
theorem c8_too_many_filters :
    (∀ (jparse : List Nat → Option Json) (input : List Nat)
        (toks : List Token) (expr : QueryExpr) (pos : Nat)
        (groups : List (List (List Nat × List Nat × Nat))),
      input.length ≤ 1024 → input.all isTrimWs = false →
      tokenize input = .ok toks → toks ≠ [] →
      (toks.filter (fun t => t.kind == .Qualifier)).length ≤ 20 →
      parseOr (parserFuel toks) toks 0 0 = .ok (expr, pos) →
      toks.get? pos = none →
      flattenOr (dnfFuel toks) (toDnf (dnfFuel toks) expr) = some groups →
      ((∃ e, parseQuery jparse input = some (.error e) ∧
          e.kind = .TooManyFilters) ↔ 20 < groups.length)) ∧
    okLength (parseQuery (fun _ => none) q20) = some 20 ∧
    errKind (parseQuery (fun _ => none) q21) = some .TooManyFilters := by
  refine ⟨?_, by decide, by decide⟩
  intro jparse input toks expr pos groups hlen htrim htok hne hterm hparse hend hflat
  have hne2 : toks.isEmpty = false := by
    cases toks with
    | nil => exact absurd rfl hne
    | cons a as => rfl
  unfold parseQuery
  rw [if_neg (by omega), if_neg (by simp [htrim]), htok]
  simp only
  rw [if_neg (by simp [hne2]), if_neg (by omega), hparse]
  simp only
  rw [hend]
  simp only
  rw [hflat]
  simp only
  by_cases hL : 20 < groups.length
  · rw [if_pos hL]
    constructor
    · intro _
      exact hL
    · intro _
      exact ⟨_, rfl, rfl⟩
  · rw [if_neg hL]
    constructor
    · rintro ⟨e, he, hk⟩
      have he2 : groupsToFilters jparse groups = .error e := Option.some.inj he
      exact absurd hk (groupsToFilters_error_kind jparse _ e he2)
    · intro h
      exact absurd h hL

/-- The input `type:contract`. -/
def qTypeOnly : List Nat := [116, 121, 112, 101, 58, 99, 111, 110, 116, 114, 97, 99, 116]

/-- The single token of `qTypeOnly`. -/
def tokTypeOnly : Token :=
  ⟨.Qualifier, [116, 121, 112, 101, 58, 99, 111, 110, 116, 114, 97, 99, 116], some strType, some strContract, 0⟩

set_option maxRecDepth 100000 in
/-- Witness for C8 (amended) applying the general clause at `type:contract`. -/
theorem c8_witness :
    tokenize qTypeOnly = .ok [tokTypeOnly] ∧
    parseOr (parserFuel [tokTypeOnly]) [tokTypeOnly] 0 0
      = .ok (.qual strType strContract 0, 1) ∧
    flattenOr (dnfFuel [tokTypeOnly])
        (toDnf (dnfFuel [tokTypeOnly]) (.qual strType strContract 0))
      = some [[(strType, strContract, 0)]] ∧
    ((∃ e, parseQuery (fun _ => none) qTypeOnly = some (.error e) ∧
        e.kind = .TooManyFilters) ↔
      20 < ([[(strType, strContract, 0)]] :
        List (List (List Nat × List Nat × Nat))).length) :=
  ⟨rfl, rfl, rfl,
    c8_too_many_filters.1 (fun _ => none) qTypeOnly [tokTypeOnly]
      (.qual strType strContract 0) 1 [[(strType, strContract, 0)]]
      (by decide) rfl rfl (by decide) (by decide) rfl rfl rfl⟩

/-- The three tokens of `q9c` (`type:system type:contract tx:abc`). -/
def tokS : Token := ⟨.Qualifier, [116, 121, 112, 101, 58, 115, 121, 115, 116, 101, 109], some strType, some strSystem, 0⟩

def tokC : Token :=
  ⟨.Qualifier, [116, 121, 112, 101, 58, 99, 111, 110, 116, 114, 97, 99, 116], some strType, some strContract, 12⟩

def tokT : Token := ⟨.Qualifier, [116, 120, 58, 97, 98, 99], some strTx, some [97, 98, 99], 26⟩

set_option maxRecDepth 100000 in
set_option maxHeartbeats 1000000 in
/-- C9 (counterexample): the query `type:system type:contract tx:abc`
expands to a single AND-group that carries a `tx` qualifier and no
`ledger` qualifier, yet `parse_query` fails with kind
`ConflictingQualifiers` (the merge loop trips over the conflicting `type`
values before the tx-requires-ledger check is reached), not with the
claimed `InvalidValue`. -/
theorem c9_counterexample :
    tokenize q9c = .ok [tokS, tokC, tokT] ∧
    parseOr (parserFuel [tokS, tokC, tokT]) [tokS, tokC, tokT] 0 0
      = .ok (.and [.qual strType strSystem 0, .qual strType strContract 12,
          .qual strTx [97, 98, 99] 26], 3) ∧
    (∃ g, flattenOr (dnfFuel [tokS, tokC, tokT])
        (toDnf (dnfFuel [tokS, tokC, tokT])
          (.and [.qual strType strSystem 0, .qual strType strContract 12,
            .qual strTx [97, 98, 99] 26]))
        = some [g] ∧
      (∃ kv ∈ g, kv.1 = strTx) ∧ (∀ kv ∈ g, kv.1 ≠ strLedger)) ∧
    errKind (parseQuery (fun _ => none) q9c) = some .ConflictingQualifiers ∧
    QueryParseErrorKind.ConflictingQualifiers ≠ .InvalidValue := by
  refine ⟨rfl, rfl, ⟨_, rfl, ?_, ?_⟩, by decide, by decide⟩
  · exact ⟨(strTx, [97, 98, 99], 26), by decide, rfl⟩
  · decide

/-- C9 (amended): whenever the merge loop of `and_group_to_filter`
completes on an AND-group, the group's filter carries a `tx` qualifier
and no `ledger` qualifier exactly when `and_group_to_filter` fails with
kind `InvalidValue` and the message "ledger is required when tx is
provided" (at the tx qualifier's position); when the group also carries a
`ledger` qualifier the check passes and the filter is returned.  (At the
`parse_query` level the original claim fails: an earlier error in the
merge loop, e.g. conflicting `type` values, preempts this check — see the
counterexample.) -/
theorem c9_tx_requires_ledger (jparse : List Nat → Option Json)
    (group : List (List Nat × List Nat × Nat)) (st : GroupState)
    (hmerge : mergeGroup jparse group {} = .ok st) :
    (∀ v pos, st.tx = some (v, pos) → st.ledger = none →
      andGroupToFilter jparse group = .error ⟨.InvalidValue, msgTxLedger, pos⟩) ∧
    (st.ledger.isNone = false →
      andGroupToFilter jparse group = .ok (finishGroup jparse st)) := by
  constructor
  · intro v pos htx hled
    unfold andGroupToFilter
    rw [hmerge]
    simp only
    rw [htx]
    simp only [hled, Option.isNone_none, if_pos]
  · intro hled
    unfold andGroupToFilter
    rw [hmerge]
    simp only
    cases htx : st.tx with
    | none => rfl
    | some vp =>
      simp only [hled]
      rfl

/-- Witness for C9 (amended) at a concrete group carrying both `tx` and
`ledger`. -/
theorem c9_witness :
    mergeGroup (fun _ => none) [(strTx, [97, 98, 99], 0), (strLedger, [53], 7)]
        ({} : GroupState)
      = .ok { tx := some ([97, 98, 99], 0), ledger := some (5, 7) } ∧
    andGroupToFilter (fun _ => none)
        [(strTx, [97, 98, 99], 0), (strLedger, [53], 7)]
      = .ok (finishGroup (fun _ => none)
          { tx := some ([97, 98, 99], 0), ledger := some (5, 7) }) :=
  ⟨rfl,
    (c9_tx_requires_ledger (fun _ => none)
      [(strTx, [97, 98, 99], 0), (strLedger, [53], 7)]
      { tx := some ([97, 98, 99], 0), ledger := some (5, 7) } rfl).2 rfl⟩
